import Mathlib

/-!
# Numeric-literal corpus: generator and verifier

A shallow embedding of `script/extract-numbery-strings.go` (the generator) and
`script/test-go-strconv.go` (the verifier).

Conventions of the embedding:

* a byte is a `Nat` (its value), a Go `string` or `[]byte` is a `List Nat`;
* an index `i` into `src` is a `Nat`, `src[i]` is `src.getD i 0` and is only read
  under the guard `i < len(src)` exactly as in the source;
* every Go `for` loop is a function recursing on an explicit iteration budget
  (`fuel`); the entry points supply a budget that is proved sufficient;
* the process-wide map `numbers` is the list of its keys, passed in and returned.
-/

namespace NumberyStrings

/-! ## extract-numbery-strings.go -/

/-- Source: `func isDigit(x byte) bool { return (('0' <= x) && (x <= '9')) }`. -/
def isDigit (x : Nat) : Bool := (48 ≤ x) && (x ≤ 57)

/-- Source: `func isDigitDot(x byte) bool`: a decimal digit or `'.'`. -/
def isDigitDot (x : Nat) : Bool := ((48 ≤ x) && (x ≤ 57)) || (x == 46)

/-- The loop under the comment `Grab "123.456"` (lines 115-126): from index `i`,
step over decimal digits and over at most one `'.'`; returns the index at which
the loop is left. -/
def grabNumberLoop (src : List Nat) : Nat → Bool → Nat → Nat
  | 0, _, i => i
  | fuel + 1, dotted, i =>
    if i < src.length then
      let c := src.getD i 0
      if isDigit c then grabNumberLoop src fuel dotted (i + 1)
      else if (c == 46) && !dotted then grabNumberLoop src fuel true (i + 1)
      else i
    else i

/-- The digit loop of the exponent part (lines 134-137):
`for (j < len(src)) && isDigit(src[j]) { j++; i = j }`; returns the final `i`. -/
def grabExponentDigits (src : List Nat) : Nat → Nat → Nat → Nat
  | 0, _, i => i
  | fuel + 1, j, i =>
    if (j < src.length) && isDigit (src.getD j 0) then
      grabExponentDigits src fuel (j + 1) (j + 1)
    else i

/-- Lines 131-133: `if (j < len(src)) && ((src[j] == '+') || (src[j] == '-')) { j++ }`;
returns `j`. -/
def skipSign (src : List Nat) (j : Nat) : Nat :=
  if (j < src.length) && ((src.getD j 0 == 43) || (src.getD j 0 == 45)) then j + 1 else j

/-- The block under the comment `Grab "e+789"` (lines 129-138): returns the new
value of `i`. -/
def grabExponent (src : List Nat) (i : Nat) : Nat :=
  if (i < src.length) && ((src.getD i 0 == 69) || (src.getD i 0 == 101)) then
    let j := i + 1
    let j := skipSign src j
    grabExponentDigits src (src.length - j) j i
  else i

/-- Go's slice expression `src[start:i]`. -/
def slice (src : List Nat) (start i : Nat) : List Nat := (src.drop start).take (i - start)

/-- Lines 141-143: `if len(s) > 1024 { s = s[:1024] }`. -/
def truncate1024 (s : List Nat) : List Nat := if s.length > 1024 then s.take 1024 else s

/-- Line 146-148: `for (len(s) > 1) && (s[0] == '0') && isDigit(s[1]) { s = s[1:] }`. -/
def trimLeadingZeros : Nat → List Nat → List Nat
  | 0, s => s
  | fuel + 1, s =>
    if (s.length > 1) && (s.getD 0 0 == 48) && isDigit (s.getD 1 0) then
      trimLeadingZeros fuel (s.drop 1)
    else s

/-- Line 149-151: `for (len(s) > 0) && !isDigit(s[len(s)-1]) { s = s[:len(s)-1] }`. -/
def trimTrailingNonDigits : Nat → List Nat → List Nat
  | 0, s => s
  | fuel + 1, s =>
    if (s.length > 0) && !isDigit (s.getD (s.length - 1) 0) then
      trimTrailingNonDigits fuel (s.take (s.length - 1))
    else s

/-- Line 154: `numbers[s] = struct{}{}` on the key list of the map. -/
def insertKey (s : List Nat) (numbers : List (List Nat)) : List (List Nat) :=
  if s ∈ numbers then numbers else numbers ++ [s]

/-- Lines 145-151, under the comment `Trim leading '0's and trailing non-digits`:
the two loops one after the other. -/
def trimBoth (s : List Nat) : List Nat :=
  let s := trimLeadingZeros s.length s
  trimTrailingNonDigits s.length s

/-- Lines 140-151: the key made of the match `src[start:i]`. -/
def canonicalize (raw : List Nat) : List Nat := trimBoth (truncate1024 raw)

/-- The index at which a match attempt begun at `start` ends (lines 112-138). -/
def matchEnd (src : List Nat) (start : Nat) : Nat :=
  grabExponent src (grabNumberLoop src (src.length - start) false start)

/-- The scan loop of `doFile` (lines 106-156), from index `i`. -/
def doFileLoop (src : List Nat) : Nat → Nat → List (List Nat) → List (List Nat)
  | 0, _, numbers => numbers
  | fuel + 1, i, numbers =>
    if i < src.length then
      let c := src.getD i 0
      if !isDigitDot c then doFileLoop src fuel (i + 1) numbers
      else
        let start := i
        let i := matchEnd src start
        let s := canonicalize (slice src start i)
        doFileLoop src fuel i (if s ≠ [] then insertKey s numbers else numbers)
    else numbers

/-- The scanner: the loop of `doFile` run over a whole buffer, from index 0.  A
budget of `len(src)` iterations is enough (`doFileLoop_fuel`), since every
iteration moves `i` forward. -/
def doFileScan (src : List Nat) (numbers : List (List Nat)) : List (List Nat) :=
  doFileLoop src src.length 0 numbers

/-! ## The scan read off the unread suffix

The loops above only ever look at `src[i:]`.  The functions of this section
compute, from that suffix alone, how many bytes each loop steps over; the
theorems `grabNumberLoop_eq`, `grabExponentDigits_eq` and `grabExponent_eq`
prove that the loops compute the same, whatever iteration budget at least
`len(src) - i` they are given. -/

/-- The number of bytes the loop `Grab "123.456"` steps over. -/
def spanNumber : Bool → List Nat → Nat
  | _, [] => 0
  | dotted, c :: rest =>
    if isDigit c then spanNumber dotted rest + 1
    else if (c == 46) && !dotted then spanNumber true rest + 1
    else 0

/-- The length of the longest prefix of decimal digits. -/
def spanDigits : List Nat → Nat
  | [] => 0
  | c :: rest => if isDigit c then spanDigits rest + 1 else 0

/-- The bytes between an exponent marker and its digits: one for `'+'` or
`'-'`, none otherwise. -/
def spanSign : List Nat → Nat
  | [] => 0
  | c :: _ => if (c == 43) || (c == 45) then 1 else 0

/-- The number of bytes the block `Grab "e+789"` steps over. -/
def spanExponent : List Nat → Nat
  | [] => 0
  | c :: rest =>
    if (c == 69) || (c == 101) then
      if spanDigits (rest.drop (spanSign rest)) = 0 then 0
      else 1 + spanSign rest + spanDigits (rest.drop (spanSign rest))
    else 0

/-- The length of the match attempted at the head of `rest`. -/
def matchLen (rest : List Nat) : Nat :=
  spanNumber false rest + spanExponent (rest.drop (spanNumber false rest))

/-! ## The numeric-literal grammar

`digit* ('.' digit*)? (('e' | 'E') ('+' | '-')? digit+)?`, as a predicate and as
an automaton that decides it. -/

/-- Every byte is a decimal digit. -/
def IsDigits (l : List Nat) : Prop := ∀ c ∈ l, isDigit c = true

/-- An optional fraction: nothing, or `'.'` and a run of decimal digits. -/
def IsFraction (l : List Nat) : Prop := l = [] ∨ ∃ f, l = 46 :: f ∧ IsDigits f

/-- An optional exponent: nothing, or `'e'`/`'E'`, an optional `'+'`/`'-'`, and at
least one decimal digit. -/
def IsExponent (l : List Nat) : Prop :=
  l = [] ∨ ∃ m sg d, (m = 69 ∨ m = 101) ∧ (sg = [] ∨ sg = [43] ∨ sg = [45]) ∧
    d ≠ [] ∧ IsDigits d ∧ l = m :: (sg ++ d)

/-- The numeric-literal grammar: digits, optional fraction, optional exponent. -/
def NumericLiteral (s : List Nat) : Prop :=
  ∃ ip fp ex, IsDigits ip ∧ IsFraction fp ∧ IsExponent ex ∧ s = ip ++ fp ++ ex

/-- The states of the automaton of the grammar. -/
inductive GState where
  | int
  | frac
  | expMark
  | expSign
  | expDigits
  deriving DecidableEq, Repr

/-- One transition of the automaton. -/
def gStep : GState → Nat → Option GState
  | .int, c =>
    if isDigit c then some .int else if c == 46 then some .frac
    else if (c == 69) || (c == 101) then some .expMark else none
  | .frac, c =>
    if isDigit c then some .frac
    else if (c == 69) || (c == 101) then some .expMark else none
  | .expMark, c =>
    if isDigit c then some .expDigits
    else if (c == 43) || (c == 45) then some .expSign else none
  | .expSign, c => if isDigit c then some .expDigits else none
  | .expDigits, c => if isDigit c then some .expDigits else none

/-- The automaton run over a text. -/
def gRun : GState → List Nat → Option GState
  | st, [] => some st
  | st, c :: rest =>
    match gStep st c with
    | some st' => gRun st' rest
    | none => none

/-- The accepting states: not in the middle of an exponent. -/
def gFinal : GState → Bool
  | .int => true
  | .frac => true
  | .expDigits => true
  | _ => false

/-- The decision procedure of the grammar. -/
def matchesGrammar (s : List Nat) : Bool :=
  match gRun .int s with
  | some st => gFinal st
  | none => false

/-- The bytes of an ASCII text. -/
def bytes (s : String) : List Nat := s.toList.map Char.toNat

/-! ## The Float Boundary: strconv.ParseFloat, math.Float64bits, math.Inf -/

/-- The `error` returned by `strconv.ParseFloat`, as far as the two programs
look at it: `nil`, a `*NumError` whose `Err` is `ErrRange`, or any other error. -/
inductive ParseError where
  | nil
  | errRange
  | other
  deriving DecidableEq, Repr

/-- What `strconv.ParseFloat(s, 64)` returns.  The `float64` is carried as its
IEEE-754 bit pattern, so that `math.Float64bits` is the field `bits`. -/
structure ParseResult where
  bits : Nat
  err : ParseError
  deriving DecidableEq, Repr

/-- The Float Boundary is a parameter of the development: any function from
texts to results. -/
abbrev FloatBoundary := List Nat → ParseResult

/-- The pattern of `math.Inf(+1)`.  On bit patterns the Go comparison `f == inf`
is equality with this pattern: no other `float64` compares equal to `+Inf`. -/
def posInfBits : Nat := 0x7FF0000000000000

/-! ## Formatting and sorting (fmt, sort) -/

/-- The upper-case hexadecimal digit of a value below 16. -/
def hexDigitUpper (d : Nat) : Nat := if d < 10 then 48 + d else 55 + d

/-- The last `n` hexadecimal digits of `w`, most significant first. -/
def hexDigits : Nat → Nat → List Nat
  | 0, _ => []
  | n + 1, w => hexDigits n (w / 16) ++ [hexDigitUpper (w % 16)]

/-- Go's `fmt.Sprintf("%016X", w)` for a `uint64`: sixteen upper-case
hexadecimal digits, zero padded. -/
def sprintf016X (w : Nat) : List Nat := hexDigits 16 (w % 2 ^ 64)

/-- Go's `<` on strings: byte-wise lexicographic, a proper prefix is smaller. -/
def stringLess : List Nat → List Nat → Bool
  | [], [] => false
  | [], _ :: _ => true
  | _ :: _, [] => false
  | a :: as, b :: bs => if a < b then true else if b < a then false else stringLess as bs

/-- Go's `<=` on strings. -/
def stringLE (a b : List Nat) : Prop := stringLess b a = false

instance : DecidableRel stringLE := fun a b => decEq (stringLess b a) false

/-- Go's `sort.Strings`: the strings in increasing order. -/
def sortStrings (l : List (List Nat)) : List (List Nat) := l.insertionSort stringLE

/-- Line 163: `(err == nil) || (f == inf)`. -/
def accepted (r : ParseResult) : Bool := (r.err == ParseError.nil) || (r.bits == posInfBits)

/-- Lines 164-165: `fmt.Sprintf("%016X %s", math.Float64bits(f), n)`. -/
def corpusLine (r : ParseResult) (n : List Nat) : List Nat := sprintf016X r.bits ++ [32] ++ n

/-- Source: `printSortedNumbers` (lines 159-172).  `numbers` lists the keys of
the map in the order in which `range` visits them; the result lists the
arguments of the successive `fmt.Println` calls. -/
def printSortedNumbers (parseFloat : FloatBoundary) (numbers : List (List Nat)) :
    List (List Nat) :=
  let sortedNumbers := numbers.foldl
    (fun acc n =>
      let r := parseFloat n
      if accepted r then acc ++ [corpusLine r n] else acc) []
  sortStrings sortedNumbers

/-- The text written by calling `fmt.Println` on each line in turn. -/
def printlnAll : List (List Nat) → List Nat
  | [] => []
  | l :: ls => l ++ [10] ++ printlnAll ls

/-! ## test-go-strconv.go -/

/-- Source: `var hex = [256]uint8{...}` (lines 99-135). -/
def hex : List Nat := [
  0x0, 0x0, 0x0, 0x0, 0x0, 0x0, 0x0, 0x0,  -- 0x00-0x07
  0x0, 0x0, 0x0, 0x0, 0x0, 0x0, 0x0, 0x0,  -- 0x08-0x0F
  0x0, 0x0, 0x0, 0x0, 0x0, 0x0, 0x0, 0x0,  -- 0x10-0x17
  0x0, 0x0, 0x0, 0x0, 0x0, 0x0, 0x0, 0x0,  -- 0x18-0x1F
  0x0, 0x0, 0x0, 0x0, 0x0, 0x0, 0x0, 0x0,  -- 0x20-0x27
  0x0, 0x0, 0x0, 0x0, 0x0, 0x0, 0x0, 0x0,  -- 0x28-0x2F
  0x0, 0x1, 0x2, 0x3, 0x4, 0x5, 0x6, 0x7,  -- 0x30-0x37 0-7
  0x8, 0x9, 0x0, 0x0, 0x0, 0x0, 0x0, 0x0,  -- 0x38-0x3F 8-9
  0x0, 0xA, 0xB, 0xC, 0xD, 0xE, 0xF, 0x0,  -- 0x40-0x47 A-F
  0x0, 0x0, 0x0, 0x0, 0x0, 0x0, 0x0, 0x0,  -- 0x48-0x4F
  0x0, 0x0, 0x0, 0x0, 0x0, 0x0, 0x0, 0x0,  -- 0x50-0x57
  0x0, 0x0, 0x0, 0x0, 0x0, 0x0, 0x0, 0x0,  -- 0x58-0x5F
  0x0, 0xA, 0xB, 0xC, 0xD, 0xE, 0xF, 0x0,  -- 0x60-0x67 a-f
  0x0, 0x0, 0x0, 0x0, 0x0, 0x0, 0x0, 0x0,  -- 0x68-0x6F
  0x0, 0x0, 0x0, 0x0, 0x0, 0x0, 0x0, 0x0,  -- 0x70-0x77
  0x0, 0x0, 0x0, 0x0, 0x0, 0x0, 0x0, 0x0,  -- 0x78-0x7F
  0x0, 0x0, 0x0, 0x0, 0x0, 0x0, 0x0, 0x0,  -- 0x80-0x87
  0x0, 0x0, 0x0, 0x0, 0x0, 0x0, 0x0, 0x0,  -- 0x88-0x8F
  0x0, 0x0, 0x0, 0x0, 0x0, 0x0, 0x0, 0x0,  -- 0x90-0x97
  0x0, 0x0, 0x0, 0x0, 0x0, 0x0, 0x0, 0x0,  -- 0x98-0x9F
  0x0, 0x0, 0x0, 0x0, 0x0, 0x0, 0x0, 0x0,  -- 0xA0-0xA7
  0x0, 0x0, 0x0, 0x0, 0x0, 0x0, 0x0, 0x0,  -- 0xA8-0xAF
  0x0, 0x0, 0x0, 0x0, 0x0, 0x0, 0x0, 0x0,  -- 0xB0-0xB7
  0x0, 0x0, 0x0, 0x0, 0x0, 0x0, 0x0, 0x0,  -- 0xB8-0xBF
  0x0, 0x0, 0x0, 0x0, 0x0, 0x0, 0x0, 0x0,  -- 0xC0-0xC7
  0x0, 0x0, 0x0, 0x0, 0x0, 0x0, 0x0, 0x0,  -- 0xC8-0xCF
  0x0, 0x0, 0x0, 0x0, 0x0, 0x0, 0x0, 0x0,  -- 0xD0-0xD7
  0x0, 0x0, 0x0, 0x0, 0x0, 0x0, 0x0, 0x0,  -- 0xD8-0xDF
  0x0, 0x0, 0x0, 0x0, 0x0, 0x0, 0x0, 0x0,  -- 0xE0-0xE7
  0x0, 0x0, 0x0, 0x0, 0x0, 0x0, 0x0, 0x0,  -- 0xE8-0xEF
  0x0, 0x0, 0x0, 0x0, 0x0, 0x0, 0x0, 0x0,  -- 0xF0-0xF7
  0x0, 0x0, 0x0, 0x0, 0x0, 0x0, 0x0, 0x0   -- 0xF8-0xFF
]

/-- The class `[0-9A-Fa-f]` of hexadecimal digit characters. -/
def isHexChar (c : Nat) : Bool :=
  isDigit c || ((65 ≤ c) && (c ≤ 70)) || ((97 ≤ c) && (c ≤ 102))

/-- The numeric value of a character of the class `[0-9A-Fa-f]`, and 0 for any
other byte. -/
def hexValue (c : Nat) : Nat :=
  if isDigit c then c - 48
  else if 65 ≤ c ∧ c ≤ 70 then c - 65 + 10
  else if 97 ≤ c ∧ c ≤ 102 then c - 97 + 10
  else 0

/-- Lines 73-76: `want := uint64(0); for _, c := range line[:16] { want = want<<4 | uint64(hex[c]) }`. -/
def decodeHex (pre : List Nat) : Nat :=
  pre.foldl (fun want c => ((want <<< 4) % 2 ^ 64) ||| hex.getD c 0) 0

/-- What a `bufio.Scanner` delivered: the tokens of the successive `Scan` calls
and whether `Err` is non-nil afterwards. -/
structure Scanned where
  lines : List (List Nat)
  err : Bool
  deriving DecidableEq, Repr

/-- The constant `bufio.MaxScanTokenSize`. -/
def maxScanTokenSize : Nat := 64 * 1024

/-- The helper `dropCR` of `bufio.ScanLines`: one trailing `'\r'` is removed. -/
def dropCR (data : List Nat) : List Nat :=
  if (data.length > 0) && (data.getD (data.length - 1) 0 == 13) then data.take (data.length - 1)
  else data

/-- A `bufio.Scanner` with the default split function `ScanLines` run to the end
of `text`; `cur` holds the bytes of the line read so far.  A line ends at
`'\n'`, a last line without `'\n'` is delivered when it is not empty, and a line
that does not fit the buffer of `maxScanTokenSize` bytes stops the scanner with
`ErrTooLong`. -/
def scanLinesFrom : List Nat → List Nat → Scanned
  | [], cur =>
    if cur = [] then ⟨[], false⟩
    else if cur.length ≥ maxScanTokenSize then ⟨[], true⟩
    else ⟨[dropCR cur], false⟩
  | c :: rest, cur =>
    if c = 10 then
      if cur.length ≥ maxScanTokenSize then ⟨[], true⟩
      else
        let r := scanLinesFrom rest []
        ⟨dropCR cur :: r.lines, r.err⟩
    else scanLinesFrom rest (cur ++ [c])

/-- The tokens of `bufio.NewScanner(f)` over a file whose content is `text`. -/
def scanLines (text : List Nat) : Scanned := scanLinesFrom text []

/-- The failures of `do`. -/
inductive DoError where
  /-- line 83: `return err`, the error of `strconv.ParseFloat` on `src` -/
  | parse (src : List Nat)
  /-- line 88: `fmt.Errorf("src:  %s\nhave: %016X\nwant: %016X", src, have, want)` -/
  | mismatch (src : List Nat) (haveHex wantHex : List Nat)
  /-- line 93: `return err`, the error of the scanner -/
  | scan
  deriving DecidableEq, Repr

deriving instance DecidableEq for Except

/-- The loop `for s.Scan() { ... }` of `do` (lines 67-91) over the scanner's
lines, with the counter `n`. -/
def doLoop (parseFloat : FloatBoundary) : List (List Nat) → Nat → Except DoError Nat
  | [], n => .ok n
  | line :: rest, n =>
    if line.length < 18 then doLoop parseFloat rest n
    else
      let want := decodeHex (line.take 16)
      let src := line.drop 17
      let r := parseFloat src
      if r.err ≠ ParseError.errRange ∧ r.err ≠ ParseError.nil then .error (.parse src)
      else
        let have_ := r.bits
        if have_ ≠ want then .error (.mismatch src (sprintf016X have_) (sprintf016X want))
        else doLoop parseFloat rest (n + 1)

/-- Source: `do` (lines 59-97) once the file is open: the result is the count
printed by line 95, or the error returned. -/
def doVerify (parseFloat : FloatBoundary) (s : Scanned) : Except DoError Nat :=
  match doLoop parseFloat s.lines 0 with
  | .error e => .error e
  | .ok n => if s.err then .error .scan else .ok n

/-! ## A small Float Boundary for concrete evaluation -/

/-- A Float Boundary defined on four texts, with the results `strconv.ParseFloat`
gives for them, and a syntax error everywhere else. -/
def sampleParse : FloatBoundary := fun s =>
  if s = bytes "1" then ⟨0x3FF0000000000000, .nil⟩
  else if s = bytes "1.25" then ⟨0x3FF4000000000000, .nil⟩
  else if s = bytes "789" then ⟨0x4088A80000000000, .nil⟩
  else if s = bytes "123.456e789" then ⟨0x7FF0000000000000, .errRange⟩
  else ⟨0, .other⟩

/-! ## unicode/utf8 -/

/-- The constant `utf8.RuneError`, U+FFFD. -/
def runeError : Nat := 0xFFFD

/-- The constant `utf8.RuneSelf`: bytes below it are runes of one byte. -/
def runeSelf : Nat := 0x80

/-- The constant `utf8.UTFMax`: the longest encoding of a rune, in bytes. -/
def utfMax : Nat := 4

/-- Go's `utf8.RuneStart(b)`, `b&0xC0 != 0x80` on a byte: `b` is not a
continuation byte `0x80..0xBF`. -/
def runeStart (b : Nat) : Bool := !((0x80 ≤ b) && (b ≤ 0xBF))

/-- The entry of the table `first` of `unicode/utf8` for a byte that begins an
encoding of more than one byte: the length of the encoding and the lowest and
highest second byte accepted; `none` for a byte that begins no encoding. -/
def leadInfo (p0 : Nat) : Option (Nat × Nat × Nat) :=
  if 0xC2 ≤ p0 ∧ p0 ≤ 0xDF then some (2, 0x80, 0xBF)
  else if p0 = 0xE0 then some (3, 0xA0, 0xBF)
  else if 0xE1 ≤ p0 ∧ p0 ≤ 0xEC then some (3, 0x80, 0xBF)
  else if p0 = 0xED then some (3, 0x80, 0x9F)
  else if 0xEE ≤ p0 ∧ p0 ≤ 0xEF then some (3, 0x80, 0xBF)
  else if p0 = 0xF0 then some (4, 0x90, 0xBF)
  else if 0xF1 ≤ p0 ∧ p0 ≤ 0xF3 then some (4, 0x80, 0xBF)
  else if p0 = 0xF4 then some (4, 0x80, 0x8F)
  else none

/-- Go's `utf8.DecodeRune(p)`: the first rune of `p` and the length of its
encoding; `(RuneError, 0)` for an empty `p` and `(RuneError, 1)` for an invalid
encoding. -/
def decodeRune (p : List Nat) : Nat × Nat :=
  match p with
  | [] => (runeError, 0)
  | p0 :: _ =>
    if p0 < runeSelf then (p0, 1)
    else
      match leadInfo p0 with
      | none => (runeError, 1)
      | some (sz, lo, hi) =>
        if p.length < sz then (runeError, 1)
        else
          let b1 := p.getD 1 0
          if b1 < lo ∨ hi < b1 then (runeError, 1)
          else if sz ≤ 2 then (((p0 &&& 0x1F) <<< 6) ||| (b1 &&& 0x3F), 2)
          else
            let b2 := p.getD 2 0
            if b2 < 0x80 ∨ 0xBF < b2 then (runeError, 1)
            else if sz ≤ 3 then
              (((p0 &&& 0x0F) <<< 12) ||| ((b1 &&& 0x3F) <<< 6) ||| (b2 &&& 0x3F), 3)
            else
              let b3 := p.getD 3 0
              if b3 < 0x80 ∨ 0xBF < b3 then (runeError, 1)
              else
                (((p0 &&& 0x07) <<< 18) ||| ((b1 &&& 0x3F) <<< 12) ||| ((b2 &&& 0x3F) <<< 6) |||
                  (b3 &&& 0x3F), 4)

/-- The loop of `utf8.Valid`: `p` is decoded rune by rune and no encoding is
invalid. -/
def validLoop : Nat → List Nat → Bool
  | 0, p => p.isEmpty
  | fuel + 1, p =>
    if p.isEmpty then true
    else if (decodeRune p).1 = runeError ∧ (decodeRune p).2 = 1 then false
    else validLoop fuel (p.drop (decodeRune p).2)

/-- Go's `utf8.Valid(p)`: `p` consists entirely of valid UTF-8-encoded runes. -/
def utf8Valid (p : List Nat) : Bool := validLoop p.length p

/-- The loop `for start--; start >= lim; start-- { if RuneStart(p[start]) { break } }`
of `utf8.DecodeLastRune`, with `k` standing for `start + 1`, so that the `start`
of Go, which may reach `-1`, is `k - 1`. -/
def lastRuneScan (p : List Nat) (lim : Nat) : Nat → Nat → Nat
  | 0, k => k
  | fuel + 1, k =>
    if k > lim then
      if runeStart (p.getD (k - 1) 0) then k else lastRuneScan p lim fuel (k - 1)
    else k

/-- Go's `utf8.DecodeLastRune(p)`: the last rune of `p` and the length of its
encoding; `(RuneError, 0)` for an empty `p` and `(RuneError, 1)` when the
encoding is invalid. -/
def decodeLastRune (p : List Nat) : Nat × Nat :=
  let end_ := p.length
  if end_ = 0 then (runeError, 0)
  else
    let start := end_ - 1
    let r := p.getD start 0
    if r < runeSelf then (r, 1)
    else
      let lim := end_ - utfMax
      let k := lastRuneScan p lim utfMax start
      let start := k - 1
      let rs := decodeRune (p.drop start)
      if start + rs.2 ≠ end_ then (runeError, 1) else rs

/-! ## extract-numbery-strings.go: binary files, directories, main -/

/-- The loop of `looksLikeBinary` (lines 178-183); the first argument is the
number of iterations left, `4 - i`. -/
def looksLikeBinaryLoop : Nat → List Nat → List Nat
  | 0, s => s
  | n + 1, s =>
    if s.length > 0 then
      if (decodeLastRune s).1 ≠ runeError ∨ (decodeLastRune s).2 ≠ 1 then s
      else looksLikeBinaryLoop n (s.take (s.length - 1))
    else s

/-- Source: `looksLikeBinary` (lines 174-185). -/
def looksLikeBinary (s : List Nat) : Bool :=
  let s := if s.length > 1024 then s.take 1024 else s
  let s := looksLikeBinaryLoop 4 s
  !utf8Valid s

/-- Source: `doFile` (lines 98-157).  The file is given by what
`ioutil.ReadFile` returns for it: `none` for an error, else its bytes. -/
def doFile (content : Option (List Nat)) (numbers : List (List Nat)) : List (List Nat) :=
  match content with
  | none => numbers
  | some src => if looksLikeBinary src then numbers else doFileScan src numbers

mutual
/-- A file or a directory as the generator sees it: for a file what
`ioutil.ReadFile` returns, for a directory what `os.Open` and `Readdir(-1)`
return (`unreadable` when one of them fails). -/
inductive FsNode where
  | file (content : Option (List Nat))
  | dir (entries : FsEntries)
  | unreadable
/-- The entries of a directory in the order `Readdir` lists them, each with its
name. -/
inductive FsEntries where
  | nil
  | cons (name : List Nat) (node : FsNode) (rest : FsEntries)
end

/-- Go's `info.IsDir()`. -/
def FsNode.isDir : FsNode → Bool
  | .file _ => false
  | _ => true

mutual
/-- Source: `doDir` (lines 72-96).  `join` is `filepath.Join`; the node is what
is found at the path `filename` the function is called with.  When the
directory cannot be opened or listed the function returns as it does at its
first line. -/
def doDir (join : List Nat → List Nat → List Nat) :
    FsNode → List Nat → List (List Nat) → List (List Nat)
  | .file _, _, numbers => numbers
  | .unreadable, _, numbers => numbers
  | .dir entries, filename, numbers =>
    if (filename.length > 1) && (filename.getD 0 0 == 46) then numbers
    else doEntries join entries filename numbers
/-- The loop `for _, info := range infos` of `doDir` (lines 88-95): `doFile` for
an entry that is a file, `doDir` with the joined path for any other. -/
def doEntries (join : List Nat → List Nat → List Nat) :
    FsEntries → List Nat → List (List Nat) → List (List Nat)
  | .nil, _, numbers => numbers
  | .cons _ (.file content) rest, filename, numbers =>
    doEntries join rest filename (doFile content numbers)
  | .cons name (.dir entries) rest, filename, numbers =>
    doEntries join rest filename (doDir join (.dir entries) (join filename name) numbers)
  | .cons name .unreadable rest, filename, numbers =>
    doEntries join rest filename (doDir join .unreadable (join filename name) numbers)
end

/-! ## path/filepath -/

/-- The loop `for out.w > dotdot && !IsPathSeparator(out.index(out.w)) { out.w-- }`
of `filepath.Clean`, from the write index `w` of the buffer `b`; returns the
index at which it stops. -/
def cleanBacktrack (b : List Nat) (dotdot : Nat) : Nat → Nat
  | 0 => 0
  | w + 1 =>
    if (w + 1 > dotdot) && (b.getD (w + 1) 0 != 47) then cleanBacktrack b dotdot w
    else w + 1

/-- The loop `for r < n` of Go's `filepath.Clean` on a system whose separator is
`'/'` and that has no volume names: `r` is the read index into `path`, `out` the
bytes written so far (`out.w` is its length), `dotdot` the index at which `..`
must stop.  The four cases are those of the `switch`: an empty element, a `.`
element, a `..` element, a real element. -/
def cleanLoop (path : List Nat) (rooted : Bool) : Nat → Nat → List Nat → Nat → List Nat
  | 0, _, out, _ => out
  | fuel + 1, r, out, dotdot =>
    if r < path.length then
      if path.getD r 0 == 47 then cleanLoop path rooted fuel (r + 1) out dotdot
      else if (path.getD r 0 == 46) &&
          ((r + 1 == path.length) || (path.getD (r + 1) 0 == 47)) then
        cleanLoop path rooted fuel (r + 1) out dotdot
      else if (path.getD r 0 == 46) && (path.getD (r + 1) 0 == 46) &&
          ((r + 2 == path.length) || (path.getD (r + 2) 0 == 47)) then
        if out.length > dotdot then
          cleanLoop path rooted fuel (r + 2)
            (out.take (cleanBacktrack out dotdot (out.length - 1))) dotdot
        else if !rooted then
          cleanLoop path rooted fuel (r + 2)
            ((if out.length > 0 then out ++ [47] else out) ++ [46, 46])
            ((if out.length > 0 then out ++ [47] else out) ++ [46, 46]).length
        else cleanLoop path rooted fuel (r + 2) out dotdot
      else
        cleanLoop path rooted fuel
          (r + ((path.drop r).takeWhile fun c => c != 47).length)
          ((if (rooted && (out.length != 1)) || (!rooted && (out.length != 0))
              then out ++ [47] else out) ++
            (path.drop r).takeWhile fun c => c != 47)
          dotdot
    else out

/-- Go's `filepath.Clean(path)` where the separator is `'/'`: the shortest path
that names the same file by lexical processing alone.  A budget of `len(path)`
iterations is enough (`cleanLoop_fuel`), since every iteration moves `r`
forward. -/
def filepathClean (path : List Nat) : List Nat :=
  if path = [] then [46]
  else
    let rooted := path.getD 0 0 == 47
    let out := cleanLoop path rooted path.length (if rooted then 1 else 0)
      (if rooted then [47] else []) (if rooted then 1 else 0)
    if out.length == 0 then [46] else out

/-- Go's `filepath.Join(dir, name)`: the elements from the first that is not
empty on, joined by the separator and cleaned; the empty path when both are
empty. -/
def joinPath (dir name : List Nat) : List Nat :=
  if dir ≠ [] then filepathClean (dir ++ [47] ++ name)
  else if name ≠ [] then filepathClean name
  else []

/-- The loop `for _, arg := range args` of `main` (lines 60-68); `stat arg` is
what `os.Stat(arg)` finds, `none` for an error. -/
def mainLoop (join : List Nat → List Nat → List Nat) (stat : List Nat → Option FsNode) :
    List (List Nat) → List (List Nat) → List (List Nat)
  | [], numbers => numbers
  | arg :: args, numbers =>
    match stat arg with
    | none => mainLoop join stat args numbers
    | some (.file content) => mainLoop join stat args (doFile content numbers)
    | some node => mainLoop join stat args (doDir join node arg numbers)

/-- Source: `main` (lines 55-70): the lines printed for the command line
`osArgs`. -/
def generate (parseFloat : FloatBoundary) (join : List Nat → List Nat → List Nat)
    (stat : List Nat → Option FsNode) (osArgs : List (List Nat)) : List (List Nat) :=
  let args := if osArgs.length > 1 then osArgs.drop 1 else [[46]]
  printSortedNumbers parseFloat (mainLoop join stat args [])

/-! ## The files the recursion reaches -/

/-- A name as `Readdir` lists it: not empty, without a separator, and neither
`.` nor `..`. -/
def IsPlainName (name : List Nat) : Prop :=
  name ≠ [] ∧ 47 ∉ name ∧ name ≠ [46] ∧ name ≠ [46, 46]

/-- The files the recursion reaches from a directory: `Visited join entries dir
content` says that a file of content `content` (what `ioutil.ReadFile` returns
for it) is an entry of the directory of entries `entries` and path `dir`, or of
a directory below it, and that every directory on the way down from `dir` to
the file has a path, made by `join`, that is at most one byte long or does not
begin with `'.'`. -/
inductive Visited (join : List Nat → List Nat → List Nat) :
    FsEntries → List Nat → Option (List Nat) → Prop where
  | file (name : List Nat) (content : Option (List Nat)) (rest : FsEntries) (dir : List Nat) :
    Visited join (.cons name (.file content) rest) dir content
  | sub (name : List Nat) (entries rest : FsEntries) (dir : List Nat)
      (content : Option (List Nat)) :
    ¬ ((join dir name).length > 1 ∧ (join dir name).getD 0 0 = 46) →
    Visited join entries (join dir name) content →
    Visited join (.cons name (.dir entries) rest) dir content
  | next (name : List Nat) (node : FsNode) (rest : FsEntries) (dir : List Nat)
      (content : Option (List Nat)) :
    Visited join rest dir content → Visited join (.cons name node rest) dir content

/-! ## The scan loop with the map left out -/

/-- The matches `(start, i)` the scan loop of `doFile` makes, in the order it
makes them. -/
def doFileMatches (src : List Nat) : Nat → Nat → List (Nat × Nat)
  | 0, _ => []
  | fuel + 1, i =>
    if i < src.length then
      let c := src.getD i 0
      if !isDigitDot c then doFileMatches src fuel (i + 1)
      else
        let start := i
        let i := matchEnd src start
        (start, i) :: doFileMatches src fuel i
    else []

/-- The value of `i` when the scan loop of `doFile` is left. -/
def doFileEnd (src : List Nat) : Nat → Nat → Nat
  | 0, i => i
  | fuel + 1, i =>
    if i < src.length then
      let c := src.getD i 0
      if !isDigitDot c then doFileEnd src fuel (i + 1)
      else doFileEnd src fuel (matchEnd src i)
    else i

/-- Lines 140-155 for one match `(start, i)`: the map after the match. -/
def insertMatch (src : List Nat) (numbers : List (List Nat)) (m : Nat × Nat) :
    List (List Nat) :=
  let s := canonicalize (slice src m.1 m.2)
  if s ≠ [] then insertKey s numbers else numbers

/-! ## The verifier, line by line -/

/-- A line passes the verifier: it is skipped (shorter than 18 bytes), or it is
compared and found right (no parse error but the out-of-range one, and the
pattern of the hex digits). -/
def LinePasses (parseFloat : FloatBoundary) (l : List Nat) : Prop :=
  l.length < 18 ∨
    (((parseFloat (l.drop 17)).err = ParseError.errRange ∨
        (parseFloat (l.drop 17)).err = ParseError.nil) ∧
      (parseFloat (l.drop 17)).bits = decodeHex (l.take 16))

/-! ## Well-formed UTF-8, for the proofs -/

/-- A continuation byte, `0x80..0xBF`. -/
def IsCont (b : Nat) : Prop := 0x80 ≤ b ∧ b ≤ 0xBF

/-- The encoding of one rune: one byte below `0x80`, or a first byte of the
table `first` followed by as many bytes as its entry asks for, the second in
the range of the entry and the others continuation bytes. -/
def IsEnc (e : List Nat) : Prop :=
  match e with
  | [] => False
  | p0 :: rest =>
    (p0 < 0x80 ∧ rest = []) ∨
    ∃ sz lo hi, leadInfo p0 = some (sz, lo, hi) ∧ rest.length + 1 = sz ∧
      lo ≤ rest.getD 0 0 ∧ rest.getD 0 0 ≤ hi ∧
      (3 ≤ sz → IsCont (rest.getD 1 0)) ∧ (4 ≤ sz → IsCont (rest.getD 2 0))

/-- The beginning of the encoding of a rune, cut before its end. -/
def IsCutEnc (u : List Nat) : Prop :=
  ∃ e, IsEnc e ∧ u ≠ [] ∧ u.length < e.length ∧ u = e.take u.length

/-- A first byte of the table followed by continuation bytes, at most as many
as the table asks for. -/
def IsLeadRun (u : List Nat) (sz : Nat) : Prop :=
  2 ≤ u.length ∧ u.length ≤ sz ∧ sz ≤ 4 ∧
    (∃ lo hi, leadInfo (u.getD 0 0) = some (sz, lo, hi)) ∧
    ∀ j, 1 ≤ j → j < u.length → IsCont (u.getD j 0)

/-! # Theorems -/

/-! ## The scanner's loops and the unread suffix -/

theorem drop_eq_getD_cons (src : List Nat) (i : Nat) (h : i < src.length) :
    src.drop i = src.getD i 0 :: src.drop (i + 1) := by
  rw [List.getD_eq_getElem _ _ h]
  exact List.drop_eq_getElem_cons h

theorem grabNumberLoop_eq (src : List Nat) (fuel : Nat) (dotted : Bool) (i : Nat)
    (hf : src.length - i ≤ fuel) :
    grabNumberLoop src fuel dotted i = i + spanNumber dotted (src.drop i) := by
  induction fuel generalizing dotted i with
  | zero =>
    have h : src.length ≤ i := by omega
    simp [grabNumberLoop, List.drop_eq_nil_of_le h, spanNumber]
  | succ fuel ih =>
    by_cases h : i < src.length
    · rw [drop_eq_getD_cons src i h]
      simp only [grabNumberLoop, if_pos h, spanNumber]
      by_cases hd : isDigit (src.getD i 0) = true
      · rw [if_pos hd, if_pos hd, ih _ _ (by omega)]; omega
      · rw [if_neg hd, if_neg hd]
        by_cases hdot : ((src.getD i 0 == 46) && !dotted) = true
        · rw [if_pos hdot, if_pos hdot, ih _ _ (by omega)]; omega
        · rw [if_neg hdot, if_neg hdot]; rfl
    · have h' : src.length ≤ i := by omega
      simp [grabNumberLoop, h, List.drop_eq_nil_of_le h', spanNumber]

theorem grabExponentDigits_eq (src : List Nat) (fuel j i : Nat)
    (hf : src.length - j ≤ fuel) :
    grabExponentDigits src fuel j i =
      if spanDigits (src.drop j) = 0 then i else j + spanDigits (src.drop j) := by
  induction fuel generalizing j i with
  | zero =>
    have h : src.length ≤ j := by omega
    simp [grabExponentDigits, List.drop_eq_nil_of_le h, spanDigits]
  | succ fuel ih =>
    by_cases h : j < src.length
    · rw [drop_eq_getD_cons src j h]
      simp only [grabExponentDigits, spanDigits]
      generalize src.getD j 0 = c
      by_cases hd : isDigit c = true
      · rw [if_pos (by simp [h, hd]), if_pos hd, ih (j + 1) (j + 1) (by omega),
          if_neg (Nat.succ_ne_zero _)]
        split <;> omega
      · rw [if_neg (by simp [hd]), if_neg hd, if_pos rfl]
    · have h' : src.length ≤ j := by omega
      simp [grabExponentDigits, h, List.drop_eq_nil_of_le h', spanDigits]

theorem skipSign_eq (src : List Nat) (j : Nat) :
    skipSign src j = j + spanSign (src.drop j) := by
  unfold skipSign
  by_cases h : j < src.length
  · rw [drop_eq_getD_cons src j h]
    simp only [spanSign]
    generalize src.getD j 0 = c
    by_cases hs : ((c == 43) || (c == 45)) = true
    · rw [if_pos (by simp only [h, hs, decide_True, Bool.and_self]), if_pos hs]
    · rw [if_neg (by simp only [hs, Bool.and_false, Bool.false_eq_true, not_false_eq_true]),
        if_neg hs]
      rfl
  · have h' : src.length ≤ j := by omega
    rw [if_neg (by simp [h]), List.drop_eq_nil_of_le h']
    rfl

theorem grabExponent_marker (src : List Nat) (i : Nat) (hi : i < src.length)
    (hm : src.getD i 0 = 69 ∨ src.getD i 0 = 101) :
    grabExponent src i =
      if spanDigits (src.drop (skipSign src (i + 1))) = 0 then i
      else skipSign src (i + 1) + spanDigits (src.drop (skipSign src (i + 1))) := by
  unfold grabExponent
  rw [if_pos (by
    simp only [Bool.and_eq_true, decide_eq_true_eq, Bool.or_eq_true, beq_iff_eq]
    exact ⟨hi, hm⟩)]
  exact grabExponentDigits_eq _ _ _ _ (le_refl _)

theorem grabExponent_eq (src : List Nat) (i : Nat) :
    grabExponent src i = i + spanExponent (src.drop i) := by
  by_cases h : i < src.length
  · by_cases hm : src.getD i 0 = 69 ∨ src.getD i 0 = 101
    · have hm' : ((src.getD i 0 == 69) || (src.getD i 0 == 101)) = true := by
        simpa only [Bool.or_eq_true, beq_iff_eq] using hm
      rw [grabExponent_marker src i h hm, skipSign_eq, drop_eq_getD_cons src i h]
      simp only [spanExponent]
      rw [if_pos hm', List.drop_drop]
      generalize spanSign (List.drop (i + 1) src) = k
      split_ifs <;> omega
    · have hm' : ((src.getD i 0 == 69) || (src.getD i 0 == 101)) = false := by
        rw [Bool.eq_false_iff]
        simpa only [Bool.or_eq_true, beq_iff_eq, ne_eq] using hm
      rw [drop_eq_getD_cons src i h]
      simp only [grabExponent, spanExponent]
      rw [hm', if_neg (by simp), if_neg (by simp)]
      rfl
  · have h' : src.length ≤ i := by omega
    simp [grabExponent, h, List.drop_eq_nil_of_le h', spanExponent]

theorem matchEnd_eq (src : List Nat) (start : Nat) :
    matchEnd src start = start + matchLen (src.drop start) := by
  rw [matchEnd, grabExponent_eq, grabNumberLoop_eq _ _ _ _ (le_refl _), matchLen,
    List.drop_drop]
  omega

theorem slice_matchEnd (src : List Nat) (start : Nat) :
    slice src start (matchEnd src start) =
      (src.drop start).take (matchLen (src.drop start)) := by
  rw [slice, matchEnd_eq]
  congr 1
  omega

/-! ## Canonicalization -/

theorem truncate1024_eq_take (s : List Nat) : truncate1024 s = s.take 1024 := by
  unfold truncate1024
  split
  · rfl
  · exact (List.take_of_length_le (by omega)).symm

theorem truncate1024_length (s : List Nat) : (truncate1024 s).length ≤ 1024 := by
  rw [truncate1024_eq_take, List.length_take]
  omega

theorem trimLeadingZeros_suffix (fuel : Nat) (s : List Nat) :
    trimLeadingZeros fuel s <:+ s := by
  induction fuel generalizing s with
  | zero => exact List.suffix_refl s
  | succ fuel ih =>
    unfold trimLeadingZeros
    split
    · exact (ih _).trans (List.drop_suffix 1 s)
    · exact List.suffix_refl s

theorem trimTrailingNonDigits_initial (fuel : Nat) (s : List Nat) :
    trimTrailingNonDigits fuel s <+: s := by
  induction fuel generalizing s with
  | zero => exact List.prefix_refl s
  | succ fuel ih =>
    unfold trimTrailingNonDigits
    split
    · exact (ih _).trans ( List.take_prefix _ s)
    · exact List.prefix_refl s

/-- With a budget of `len(s)` iterations the loop of line 146 is left because its
condition fails. -/
theorem trimLeadingZeros_done (fuel : Nat) (s : List Nat) (hf : s.length ≤ fuel) :
    ((trimLeadingZeros fuel s).length > 1 &&
      (trimLeadingZeros fuel s).getD 0 0 == 48 &&
      isDigit ((trimLeadingZeros fuel s).getD 1 0)) = false := by
  induction fuel generalizing s with
  | zero =>
    have : s = [] := List.length_eq_zero.mp (by omega)
    subst this
    rfl
  | succ fuel ih =>
    unfold trimLeadingZeros
    split
    · rename_i hc
      apply ih
      have : s.length > 1 := by
        simp only [Bool.and_eq_true, decide_eq_true_eq] at hc
        exact hc.1.1
      rw [List.length_drop]
      omega
    · rename_i hc
      simpa using hc

/-- With a budget of `len(s)` iterations the loop of line 149 is left because its
condition fails. -/
theorem trimTrailingNonDigits_done (fuel : Nat) (s : List Nat) (hf : s.length ≤ fuel) :
    ((trimTrailingNonDigits fuel s).length > 0 &&
      !isDigit ((trimTrailingNonDigits fuel s).getD
        ((trimTrailingNonDigits fuel s).length - 1) 0)) = false := by
  induction fuel generalizing s with
  | zero =>
    have : s = [] := List.length_eq_zero.mp (by omega)
    subst this
    rfl
  | succ fuel ih =>
    unfold trimTrailingNonDigits
    split
    · rename_i hc
      apply ih
      have : s.length > 0 := by
        simp only [Bool.and_eq_true, decide_eq_true_eq] at hc
        exact hc.1
      rw [List.length_take]
      omega
    · rename_i hc
      simpa using hc

/-- More budget than `len(s)` changes nothing for the loop of line 146. -/
theorem trimLeadingZeros_fuel (fuel : Nat) (s : List Nat) (hf : s.length ≤ fuel) :
    trimLeadingZeros fuel s = trimLeadingZeros s.length s := by
  induction fuel generalizing s with
  | zero =>
    have : s = [] := List.length_eq_zero.mp (by omega)
    subst this
    rfl
  | succ fuel ih =>
    cases s with
    | nil => rfl
    | cons a t =>
      simp only [trimLeadingZeros, List.length_cons]
      split
      · rw [ih _ (by simp at hf ⊢; omega)]
        simp
      · rfl

theorem trimBoth_length (s : List Nat) : (trimBoth s).length ≤ s.length := by
  have h1 := (trimTrailingNonDigits_initial (trimLeadingZeros s.length s).length
    (trimLeadingZeros s.length s)).length_le
  have h2 := (trimLeadingZeros_suffix s.length s).length_le
  show (trimTrailingNonDigits _ _).length ≤ _
  omega

theorem canonicalize_length (raw : List Nat) : (canonicalize raw).length ≤ 1024 := by
  have h1 := trimBoth_length (truncate1024 raw)
  have h3 := truncate1024_length raw
  unfold canonicalize
  omega

theorem canonicalize_take (raw : List Nat) :
    canonicalize (raw.take 1024) = canonicalize raw := by
  unfold canonicalize
  rw [truncate1024_eq_take, truncate1024_eq_take, List.take_take]
  rfl

theorem canonicalize_short (raw : List Nat) (h : raw.length ≤ 1024) :
    canonicalize raw = trimBoth raw := by
  unfold canonicalize
  rw [truncate1024_eq_take, List.take_of_length_le h]

/-! ## A raw match is a word of the grammar -/

theorem isDigit_marker (c : Nat) (h : ((c == 69) || (c == 101)) = true) :
    isDigit c = false ∧ (c == 46) = false := by
  simp only [Bool.or_eq_true, beq_iff_eq] at h
  rcases h with h | h <;> subst h <;> exact ⟨rfl, rfl⟩

theorem isDigit_sign (c : Nat) (h : ((c == 43) || (c == 45)) = true) : isDigit c = false := by
  simp only [Bool.or_eq_true, beq_iff_eq] at h
  rcases h with h | h <;> subst h <;> rfl

theorem gRun_append (st : GState) (a b : List Nat) :
    gRun st (a ++ b) = (gRun st a).bind fun st' => gRun st' b := by
  induction a generalizing st with
  | nil => rfl
  | cons c a ih =>
    simp only [List.cons_append, gRun]
    cases gStep st c with
    | none => rfl
    | some st' => exact ih st'

theorem gRun_initial (st st' : GState) (a b : List Nat) (hp : a <+: b)
    (h : gRun st b = some st') : ∃ st'', gRun st a = some st'' := by
  obtain ⟨t, rfl⟩ := hp
  rw [gRun_append] at h
  cases h' : gRun st a with
  | none => rw [h'] at h; exact absurd h (by simp)
  | some st'' => exact ⟨st'', rfl⟩

theorem spanNumber_run (dotted : Bool) (rest : List Nat) :
    ∃ st, (st = GState.int ∨ st = GState.frac) ∧
      gRun (if dotted then GState.frac else GState.int)
        (rest.take (spanNumber dotted rest)) = some st := by
  induction rest generalizing dotted with
  | nil => cases dotted <;> simp [spanNumber, gRun]
  | cons c rest ih =>
    simp only [spanNumber]
    by_cases hd : isDigit c = true
    · rw [if_pos hd, List.take_succ_cons]
      obtain ⟨st, hst, hrun⟩ := ih dotted
      refine ⟨st, hst, ?_⟩
      cases dotted <;> simpa [gRun, gStep, hd] using hrun
    · rw [if_neg hd]
      by_cases hdot : ((c == 46) && !dotted) = true
      · rw [if_pos hdot, List.take_succ_cons]
        simp only [Bool.and_eq_true, beq_iff_eq, Bool.not_eq_true'] at hdot
        obtain ⟨hc, hdd⟩ := hdot
        subst hc hdd
        obtain ⟨st, hst, hrun⟩ := ih true
        refine ⟨st, hst, ?_⟩
        simpa [gRun, gStep, isDigit] using hrun
      · rw [if_neg hdot]
        cases dotted <;> simp [gRun]

theorem spanDigits_run (st : GState)
    (hst : st = GState.expMark ∨ st = GState.expSign ∨ st = GState.expDigits)
    (l : List Nat) :
    gRun st (l.take (spanDigits l)) =
      some (if spanDigits l = 0 then st else GState.expDigits) := by
  induction l generalizing st with
  | nil => simp [spanDigits, gRun]
  | cons c l ih =>
    simp only [spanDigits]
    by_cases hd : isDigit c = true
    · simp only [hd, if_true, List.take_succ_cons, Nat.succ_ne_zero, if_false]
      have hstep : gStep st c = some GState.expDigits := by
        rcases hst with h | h | h <;> subst h <;> simp [gStep, hd]
      simp only [gRun, hstep]
      rw [ih _ (Or.inr (Or.inr rfl))]
      split <;> rfl
    · simp [hd, gRun]

theorem spanExponent_run (st : GState) (hst : st = GState.int ∨ st = GState.frac)
    (rest : List Nat) :
    ∃ st', gFinal st' = true ∧ gRun st (rest.take (spanExponent rest)) = some st' := by
  have hfin : gFinal st = true := by rcases hst with h | h <;> subst h <;> rfl
  cases rest with
  | nil => exact ⟨st, hfin, by simp [spanExponent, gRun]⟩
  | cons c r =>
    simp only [spanExponent]
    by_cases hm : ((c == 69) || (c == 101)) = true
    · rw [if_pos hm]
      by_cases hz : spanDigits (r.drop (spanSign r)) = 0
      · rw [if_pos hz]
        exact ⟨st, hfin, by simp [gRun]⟩
      · rw [if_neg hz]
        refine ⟨GState.expDigits, rfl, ?_⟩
        have hstep : gStep st c = some GState.expMark := by
          obtain ⟨h1, h2⟩ := isDigit_marker c hm
          rcases hst with h | h <;> subst h <;> simp [gStep, h1, h2, hm]
        rw [show 1 + spanSign r + spanDigits (r.drop (spanSign r)) =
          (spanSign r + spanDigits (r.drop (spanSign r))) + 1 by omega, List.take_succ_cons]
        simp only [gRun, hstep]
        rw [List.take_add, gRun_append]
        cases r with
        | nil => simp [spanSign, spanDigits] at hz
        | cons sg r' =>
          simp only [spanSign] at hz ⊢
          by_cases hs : ((sg == 43) || (sg == 45)) = true
          · rw [if_pos hs] at hz ⊢
            have hstep2 : gStep GState.expMark sg = some GState.expSign := by
              simp [gStep, isDigit_sign sg hs, hs]
            simp only [List.take_succ_cons, List.take_zero, gRun, hstep2, Option.some_bind]
            rw [spanDigits_run _ (Or.inr (Or.inl rfl)), if_neg hz]
          · rw [if_neg hs] at hz ⊢
            simp only [List.take_zero, gRun, Option.some_bind]
            rw [spanDigits_run _ (Or.inl rfl), if_neg hz]
    · rw [if_neg hm]
      exact ⟨st, hfin, by simp [gRun]⟩

/-- The bytes of a match attempt are accepted by the automaton of the grammar. -/
theorem matchLen_run (rest : List Nat) :
    ∃ st, gFinal st = true ∧ gRun GState.int (rest.take (matchLen rest)) = some st := by
  obtain ⟨st1, hst1, hrun1⟩ := spanNumber_run false rest
  obtain ⟨st2, hfin, hrun2⟩ :=
    spanExponent_run st1 hst1 (rest.drop (spanNumber false rest))
  refine ⟨st2, hfin, ?_⟩
  rw [matchLen, List.take_add, gRun_append]
  simp only [Bool.false_eq_true, if_false] at hrun1
  rw [hrun1]
  exact hrun2

/-! ## Canonicalization keeps a match inside the grammar -/

theorem gStep_int_zero : gStep GState.int 48 = some GState.int := rfl

theorem trimLeadingZeros_run (fuel : Nat) (s : List Nat) :
    gRun GState.int (trimLeadingZeros fuel s) = gRun GState.int s := by
  induction fuel generalizing s with
  | zero => rfl
  | succ fuel ih =>
    unfold trimLeadingZeros
    split
    · rename_i hc
      rw [ih]
      cases s with
      | nil => rfl
      | cons a t =>
        simp only [Bool.and_eq_true, beq_iff_eq, List.getD_cons_zero] at hc
        obtain ⟨⟨_, ha⟩, _⟩ := hc
        subst ha
        simp only [List.drop_succ_cons, List.drop_zero, gRun, gStep_int_zero]
    · rfl

theorem gStep_digit_final (st st' : GState) (c : Nat) (hd : isDigit c = true)
    (h : gStep st c = some st') : gFinal st' = true := by
  cases st <;> simp [gStep, hd] at h <;> subst h <;> rfl

theorem gRun_concat_digit_final (st st' : GState) (l : List Nat) (c : Nat)
    (hd : isDigit c = true) (h : gRun st (l ++ [c]) = some st') : gFinal st' = true := by
  rw [gRun_append] at h
  cases h1 : gRun st l with
  | none => rw [h1] at h; exact absurd h (by simp)
  | some st1 =>
    rw [h1] at h
    simp only [Option.some_bind, gRun] at h
    cases h2 : gStep st1 c with
    | none => rw [h2] at h; exact absurd h (by simp)
    | some st2 =>
      rw [h2] at h
      simp only [Option.some.injEq] at h
      subst h
      exact gStep_digit_final st1 st2 c hd h2

theorem getD_last_concat (l : List Nat) (c : Nat) :
    (l ++ [c]).getD ((l ++ [c]).length - 1) 0 = c := by
  rw [List.length_append, List.length_singleton, Nat.add_sub_cancel,
    List.getD_eq_getElem _ _ (by simp)]
  simp

/-- What the loop of line 149 leaves is empty or ends with a decimal digit. -/
theorem trimTrailingNonDigits_result (fuel : Nat) (s : List Nat) (hf : s.length ≤ fuel) :
    trimTrailingNonDigits fuel s = [] ∨
      ∃ l c, trimTrailingNonDigits fuel s = l ++ [c] ∧ isDigit c = true := by
  have h := trimTrailingNonDigits_done fuel s hf
  rcases List.eq_nil_or_concat (trimTrailingNonDigits fuel s) with h0 | ⟨l, c, hlc⟩
  · exact Or.inl h0
  · right
    rw [List.concat_eq_append] at hlc
    refine ⟨l, c, hlc, ?_⟩
    rw [hlc, getD_last_concat] at h
    simpa using h

theorem canonicalize_matchesGrammar (raw : List Nat) (st : GState)
    (h : gRun GState.int raw = some st) : matchesGrammar (canonicalize raw) = true := by
  obtain ⟨st1, h1⟩ := gRun_initial _ _ (truncate1024 raw) raw
    (by rw [truncate1024_eq_take]; exact List.take_prefix _ _) h
  have h2 : gRun GState.int (trimLeadingZeros (truncate1024 raw).length (truncate1024 raw)) =
      some st1 := by rw [trimLeadingZeros_run]; exact h1
  obtain ⟨st3, h3⟩ := gRun_initial _ _ _ _ (trimTrailingNonDigits_initial
    (trimLeadingZeros (truncate1024 raw).length (truncate1024 raw)).length
    (trimLeadingZeros (truncate1024 raw).length (truncate1024 raw))) h2
  have h4 := trimTrailingNonDigits_result
    (trimLeadingZeros (truncate1024 raw).length (truncate1024 raw)).length
    (trimLeadingZeros (truncate1024 raw).length (truncate1024 raw)) (le_refl _)
  show matchesGrammar (trimTrailingNonDigits _ _) = true
  unfold matchesGrammar
  rw [h3]
  rcases h4 with h0 | ⟨l, c, hlc, hd⟩
  · rw [h0] at h3
    simp only [gRun, Option.some.injEq] at h3
    subst h3
    rfl
  · rw [hlc] at h3
    exact gRun_concat_digit_final _ _ l c hd h3

/-! ## The automaton decides the grammar -/

theorem gRun_expDigits (s : List Nat) (st : GState)
    (h : gRun GState.expDigits s = some st) : st = GState.expDigits ∧ IsDigits s := by
  induction s with
  | nil =>
    simp only [gRun, Option.some.injEq] at h
    exact ⟨h.symm, fun c hc => absurd hc (List.not_mem_nil c)⟩
  | cons c s ih =>
    by_cases hd : isDigit c = true
    · simp only [gRun, gStep, hd, if_true] at h
      obtain ⟨h1, h2⟩ := ih h
      refine ⟨h1, fun x hx => ?_⟩
      rcases List.mem_cons.mp hx with hx | hx
      · subst hx; exact hd
      · exact h2 x hx
    · simp [gRun, gStep, hd] at h

theorem gRun_expSign (s : List Nat) (st : GState)
    (h : gRun GState.expSign s = some st) (hfin : gFinal st = true) :
    s ≠ [] ∧ IsDigits s := by
  cases s with
  | nil =>
    simp only [gRun, Option.some.injEq] at h
    subst h
    exact absurd hfin (by decide)
  | cons c s =>
    by_cases hd : isDigit c = true
    · simp only [gRun, gStep, hd, if_true] at h
      obtain ⟨_, h2⟩ := gRun_expDigits s st h
      refine ⟨List.cons_ne_nil _ _, fun x hx => ?_⟩
      rcases List.mem_cons.mp hx with hx | hx
      · subst hx; exact hd
      · exact h2 x hx
    · simp [gRun, gStep, hd] at h

theorem gRun_expMark (s : List Nat) (st : GState)
    (h : gRun GState.expMark s = some st) (hfin : gFinal st = true) :
    ∃ sg d, (sg = [] ∨ sg = [43] ∨ sg = [45]) ∧ d ≠ [] ∧ IsDigits d ∧ s = sg ++ d := by
  cases s with
  | nil =>
    simp only [gRun, Option.some.injEq] at h
    subst h
    exact absurd hfin (by decide)
  | cons c s =>
    by_cases hd : isDigit c = true
    · simp only [gRun, gStep, hd, if_true] at h
      obtain ⟨_, h2⟩ := gRun_expDigits s st h
      refine ⟨[], c :: s, Or.inl rfl, List.cons_ne_nil _ _, fun x hx => ?_, rfl⟩
      rcases List.mem_cons.mp hx with hx | hx
      · subst hx; exact hd
      · exact h2 x hx
    · by_cases hs : ((c == 43) || (c == 45)) = true
      · simp only [gRun, gStep, hd, hs, if_true, Bool.false_eq_true, if_false] at h
        obtain ⟨h1, h2⟩ := gRun_expSign s st h hfin
        refine ⟨[c], s, ?_, h1, h2, rfl⟩
        simp only [Bool.or_eq_true, beq_iff_eq] at hs
        rcases hs with hs | hs <;> subst hs <;> simp
      · simp [gRun, gStep, hd, hs] at h

theorem gRun_expMark_isExponent (m : Nat) (hm : ((m == 69) || (m == 101)) = true)
    (s : List Nat) (st : GState)
    (h : gRun GState.expMark s = some st) (hfin : gFinal st = true) :
    IsExponent (m :: s) := by
  obtain ⟨sg, d, hsg, hd, hdig, hs⟩ := gRun_expMark s st h hfin
  right
  refine ⟨m, sg, d, ?_, hsg, hd, hdig, by rw [hs]⟩
  simpa using hm

theorem gRun_frac (s : List Nat) (st : GState)
    (h : gRun GState.frac s = some st) (hfin : gFinal st = true) :
    ∃ f ex, IsDigits f ∧ IsExponent ex ∧ s = f ++ ex := by
  induction s with
  | nil => exact ⟨[], [], fun c hc => absurd hc (List.not_mem_nil c), Or.inl rfl, rfl⟩
  | cons c s ih =>
    by_cases hd : isDigit c = true
    · simp only [gRun, gStep, hd, if_true] at h
      obtain ⟨f, ex, hf, hex, hs⟩ := ih h
      refine ⟨c :: f, ex, fun x hx => ?_, hex, by rw [hs]; rfl⟩
      rcases List.mem_cons.mp hx with hx | hx
      · subst hx; exact hd
      · exact hf x hx
    · by_cases hm : ((c == 69) || (c == 101)) = true
      · simp only [gRun, gStep, hd, hm, if_true, Bool.false_eq_true, if_false] at h
        exact ⟨[], c :: s, fun x hx => absurd hx (List.not_mem_nil x),
          gRun_expMark_isExponent c hm s st h hfin, rfl⟩
      · simp [gRun, gStep, hd, hm] at h

theorem gRun_int (s : List Nat) (st : GState)
    (h : gRun GState.int s = some st) (hfin : gFinal st = true) : NumericLiteral s := by
  induction s with
  | nil =>
    exact ⟨[], [], [], fun c hc => absurd hc (List.not_mem_nil c), Or.inl rfl, Or.inl rfl, rfl⟩
  | cons c s ih =>
    by_cases hd : isDigit c = true
    · simp only [gRun, gStep, hd, if_true] at h
      obtain ⟨ip, fp, ex, hip, hfp, hex, hs⟩ := ih h
      refine ⟨c :: ip, fp, ex, fun x hx => ?_, hfp, hex, by rw [hs]; rfl⟩
      rcases List.mem_cons.mp hx with hx | hx
      · subst hx; exact hd
      · exact hip x hx
    · by_cases hdot : (c == 46) = true
      · simp only [gRun, gStep, hd, hdot, if_true, Bool.false_eq_true, if_false] at h
        obtain ⟨f, ex, hf, hex, hs⟩ := gRun_frac s st h hfin
        have hc : c = 46 := by simpa using hdot
        refine ⟨[], 46 :: f, ex, fun x hx => absurd hx (List.not_mem_nil x),
          Or.inr ⟨f, rfl, hf⟩, hex, by rw [hs, hc]; rfl⟩
      · by_cases hm : ((c == 69) || (c == 101)) = true
        · simp only [gRun, gStep, hd, hdot, hm, if_true, Bool.false_eq_true, if_false] at h
          exact ⟨[], [], c :: s, fun x hx => absurd hx (List.not_mem_nil x), Or.inl rfl,
            gRun_expMark_isExponent c hm s st h hfin, rfl⟩
        · simp [gRun, gStep, hd, hdot, hm] at h

theorem matchesGrammar_sound (s : List Nat) (h : matchesGrammar s = true) :
    NumericLiteral s := by
  unfold matchesGrammar at h
  cases hr : gRun GState.int s with
  | none => rw [hr] at h; exact absurd h (by simp)
  | some st =>
    rw [hr] at h
    exact gRun_int s st hr h

/-! ## The scan loop -/

theorem mem_insertKey (s t : List Nat) (numbers : List (List Nat)) :
    s ∈ insertKey t numbers ↔ s = t ∨ s ∈ numbers := by
  unfold insertKey
  split
  · rename_i h
    constructor
    · exact Or.inr
    · rintro (h' | h')
      · rw [h']; exact h
      · exact h'
  · simp only [List.mem_append, List.mem_singleton]
    exact Or.comm

theorem doFileLoop_done (src : List Nat) (fuel i : Nat) (numbers : List (List Nat))
    (h : src.length ≤ i) : doFileLoop src fuel i numbers = numbers := by
  cases fuel with
  | zero => rfl
  | succ fuel => simp only [doFileLoop, if_neg (Nat.not_lt.mpr h)]

theorem doFileLoop_skip (src : List Nat) (fuel i : Nat) (numbers : List (List Nat))
    (hi : i < src.length) (hc : isDigitDot (src.getD i 0) = false) :
    doFileLoop src (fuel + 1) i numbers = doFileLoop src fuel (i + 1) numbers := by
  rw [doFileLoop]
  simp only [if_pos hi]
  rw [if_pos (by rw [hc]; rfl)]

theorem doFileLoop_match (src : List Nat) (fuel i : Nat) (numbers : List (List Nat))
    (hi : i < src.length) (hc : isDigitDot (src.getD i 0) = true) :
    doFileLoop src (fuel + 1) i numbers =
      doFileLoop src fuel (matchEnd src i)
        (if canonicalize (slice src i (matchEnd src i)) ≠ [] then
          insertKey (canonicalize (slice src i (matchEnd src i))) numbers
        else numbers) := by
  rw [doFileLoop]
  simp only [if_pos hi]
  rw [if_neg (by rw [hc]; simp)]

/-- Every key the scan loop adds is the canonical form of the match attempted
at some index holding a digit or `'.'`. -/
theorem mem_doFileLoop (src : List Nat) (fuel i : Nat) (numbers : List (List Nat))
    (s : List Nat) (h : s ∈ doFileLoop src fuel i numbers) :
    s ∈ numbers ∨ ∃ start, start < src.length ∧ isDigitDot (src.getD start 0) = true ∧
      s = canonicalize (slice src start (matchEnd src start)) ∧ s ≠ [] := by
  induction fuel generalizing i numbers with
  | zero => exact Or.inl h
  | succ fuel ih =>
    by_cases hi : i < src.length
    · by_cases hc : isDigitDot (src.getD i 0) = true
      · rw [doFileLoop_match src fuel i numbers hi hc] at h
        rcases ih _ _ h with h1 | h1
        · by_cases he : canonicalize (slice src i (matchEnd src i)) ≠ []
          · rw [if_pos he, mem_insertKey] at h1
            rcases h1 with h1 | h1
            · exact Or.inr ⟨i, hi, hc, h1, h1 ▸ he⟩
            · exact Or.inl h1
          · rw [if_neg he] at h1
            exact Or.inl h1
        · exact Or.inr h1
      · rw [doFileLoop_skip src fuel i numbers hi (Bool.eq_false_iff.mpr hc)] at h
        exact ih _ _ h
    · rw [doFileLoop_done src _ i numbers (by omega)] at h
      exact Or.inl h

theorem spanNumber_pos (c : Nat) (rest : List Nat) (hc : isDigitDot c = true) :
    0 < spanNumber false (c :: rest) := by
  simp only [spanNumber]
  by_cases hd : isDigit c = true
  · rw [if_pos hd]; omega
  · rw [if_neg hd]
    have : (c == 46) = true := by
      simp only [isDigitDot, Bool.or_eq_true] at hc
      rcases hc with hc | hc
      · exact absurd hc hd
      · exact hc
    rw [if_pos (by simp [this])]
    omega

theorem matchLen_pos (c : Nat) (rest : List Nat) (hc : isDigitDot c = true) :
    0 < matchLen (c :: rest) := by
  have := spanNumber_pos c rest hc
  unfold matchLen
  omega

theorem spanNumber_le (dotted : Bool) (rest : List Nat) :
    spanNumber dotted rest ≤ rest.length := by
  induction rest generalizing dotted with
  | nil => simp [spanNumber]
  | cons c rest ih =>
    simp only [spanNumber, List.length_cons]
    split
    · have := ih dotted; omega
    · split
      · have := ih true; omega
      · omega

theorem spanDigits_le (l : List Nat) : spanDigits l ≤ l.length := by
  induction l with
  | nil => simp [spanDigits]
  | cons c l ih =>
    simp only [spanDigits, List.length_cons]
    split <;> omega

theorem spanSign_le (l : List Nat) : spanSign l ≤ l.length := by
  cases l with
  | nil => simp [spanSign]
  | cons c l =>
    simp only [spanSign, List.length_cons]
    split <;> omega

theorem spanExponent_le (l : List Nat) : spanExponent l ≤ l.length := by
  cases l with
  | nil => simp [spanExponent]
  | cons c l =>
    simp only [spanExponent, List.length_cons]
    have h1 := spanSign_le l
    have h2 := spanDigits_le (l.drop (spanSign l))
    rw [List.length_drop] at h2
    split
    · split <;> omega
    · omega

theorem matchLen_le (rest : List Nat) : matchLen rest ≤ rest.length := by
  unfold matchLen
  have h1 := spanNumber_le false rest
  have h2 := spanExponent_le (rest.drop (spanNumber false rest))
  rw [List.length_drop] at h2
  omega

/-- A match attempt begun at a digit or `'.'` ends strictly further on, and not
beyond the end of the buffer. -/
theorem matchEnd_bounds (src : List Nat) (start : Nat) (h : start < src.length)
    (hc : isDigitDot (src.getD start 0) = true) :
    start < matchEnd src start ∧ matchEnd src start ≤ src.length := by
  rw [matchEnd_eq]
  have h1 := matchLen_le (src.drop start)
  rw [List.length_drop] at h1
  have h2 : 0 < matchLen (src.drop start) := by
    rw [drop_eq_getD_cons src start h]
    exact matchLen_pos _ _ hc
  omega

/-- The scan loop needs no more than `len(src) - i` iterations: a larger budget
gives the same result. -/
theorem doFileLoop_fuel_succ (src : List Nat) (fuel i : Nat) (numbers : List (List Nat))
    (hf : src.length - i ≤ fuel) :
    doFileLoop src (fuel + 1) i numbers = doFileLoop src fuel i numbers := by
  induction fuel generalizing i numbers with
  | zero =>
    rw [doFileLoop_done src 1 i numbers (by omega)]
    rfl
  | succ fuel ih =>
    by_cases hi : i < src.length
    · by_cases hc : isDigitDot (src.getD i 0) = true
      · rw [doFileLoop_match src (fuel + 1) i numbers hi hc,
          doFileLoop_match src fuel i numbers hi hc]
        have hb := matchEnd_bounds src i hi hc
        exact ih _ _ (by omega)
      · rw [doFileLoop_skip src (fuel + 1) i numbers hi (Bool.eq_false_iff.mpr hc),
          doFileLoop_skip src fuel i numbers hi (Bool.eq_false_iff.mpr hc)]
        exact ih _ _ (by omega)
    · rw [doFileLoop_done src _ i numbers (by omega),
        doFileLoop_done src _ i numbers (by omega)]

theorem doFileLoop_fuel (src : List Nat) (fuel i : Nat) (numbers : List (List Nat))
    (hf : src.length - i ≤ fuel) :
    doFileLoop src fuel i numbers = doFileLoop src (src.length - i) i numbers := by
  induction fuel with
  | zero =>
    have : src.length - i = 0 := by omega
    rw [this]
  | succ fuel ih =>
    by_cases h : src.length - i = fuel + 1
    · rw [h]
    · rw [doFileLoop_fuel_succ src fuel i numbers (by omega)]
      exact ih (by omega)

/-! ## The first and last bytes of a literal -/

theorem prefix_getD (t u : List Nat) (hp : t <+: u) (k : Nat) (hk : k < t.length) :
    t.getD k 0 = u.getD k 0 := by
  obtain ⟨r, rfl⟩ := hp
  rw [List.getD_append _ _ _ _ hk]

theorem trimLeadingZeros_head (fuel : Nat) (s : List Nat)
    (h : s = [] ∨ isDigitDot (s.getD 0 0) = true) :
    trimLeadingZeros fuel s = [] ∨ isDigitDot ((trimLeadingZeros fuel s).getD 0 0) = true := by
  induction fuel generalizing s with
  | zero => exact h
  | succ fuel ih =>
    unfold trimLeadingZeros
    split
    · rename_i hc
      apply ih
      right
      match s, hc with
      | a :: b :: t, hc =>
        simp only [Bool.and_eq_true, List.getD_cons_succ, List.getD_cons_zero] at hc
        simp only [List.drop_succ_cons, List.drop_zero, List.getD_cons_zero, isDigitDot]
        have hb : isDigit b = true := hc.2
        simp only [isDigit] at hb
        simp [hb]
      | [a], hc => simp at hc
      | [], hc => simp at hc
    · exact h

/-- The canonical form of a match that begins with a digit or `'.'` is empty or
begins with a digit or `'.'`. -/
theorem canonicalize_head (raw : List Nat) (h : isDigitDot (raw.getD 0 0) = true) :
    canonicalize raw = [] ∨ isDigitDot ((canonicalize raw).getD 0 0) = true := by
  have h1 : truncate1024 raw = [] ∨ isDigitDot ((truncate1024 raw).getD 0 0) = true := by
    rw [truncate1024_eq_take]
    cases raw with
    | nil => exact Or.inl rfl
    | cons a t => exact Or.inr (by simpa using h)
  have h2 := trimLeadingZeros_head (truncate1024 raw).length (truncate1024 raw) h1
  have h3 := trimTrailingNonDigits_initial
    (trimLeadingZeros (truncate1024 raw).length (truncate1024 raw)).length
    (trimLeadingZeros (truncate1024 raw).length (truncate1024 raw))
  show trimTrailingNonDigits _ _ = [] ∨ isDigitDot ((trimTrailingNonDigits _ _).getD 0 0) = true
  by_cases he : trimTrailingNonDigits
      (trimLeadingZeros (truncate1024 raw).length (truncate1024 raw)).length
      (trimLeadingZeros (truncate1024 raw).length (truncate1024 raw)) = []
  · exact Or.inl he
  · right
    rw [prefix_getD _ _ h3 0 (List.length_pos.mpr he)]
    rcases h2 with h2 | h2
    · have hl := h3.length_le
      have h2' := congrArg List.length h2
      rw [List.length_nil] at h2'
      exact absurd (List.length_eq_zero.mp (by omega)) he
    · exact h2

theorem slice_matchEnd_head (src : List Nat) (start : Nat) (h : start < src.length)
    (hc : isDigitDot (src.getD start 0) = true) :
    (slice src start (matchEnd src start)).getD 0 0 = src.getD start 0 := by
  rw [slice_matchEnd, drop_eq_getD_cons src start h]
  have hp := matchLen_pos (src.getD start 0) (src.drop (start + 1)) hc
  obtain ⟨k, hk⟩ : ∃ k, matchLen (src.getD start 0 :: src.drop (start + 1)) = k + 1 :=
    ⟨_, (Nat.succ_pred_eq_of_pos hp).symm⟩
  rw [hk, List.take_succ_cons]
  rfl

/-! ## The exponent digits -/

theorem getD_drop (src : List Nat) (j k : Nat) :
    (src.drop j).getD k 0 = src.getD (j + k) 0 := by
  rw [List.getD_eq_getElem?_getD, List.getD_eq_getElem?_getD, List.getElem?_drop]

theorem spanDigits_eq_zero_iff (l : List Nat) :
    spanDigits l = 0 ↔ ¬ (0 < l.length ∧ isDigit (l.getD 0 0) = true) := by
  cases l with
  | nil => simp [spanDigits]
  | cons c l =>
    simp only [spanDigits, List.length_cons, List.getD_cons_zero]
    by_cases hd : isDigit c = true
    · rw [if_pos hd]
      constructor
      · intro h; omega
      · intro h; exact absurd ⟨Nat.succ_pos _, hd⟩ h
    · rw [if_neg hd]
      constructor
      · intro _ h; exact hd h.2
      · intro _; rfl

theorem spanDigits_digits (l : List Nat) (k : Nat) (hk : k < spanDigits l) :
    isDigit (l.getD k 0) = true := by
  induction l generalizing k with
  | nil => simp [spanDigits] at hk
  | cons c l ih =>
    simp only [spanDigits] at hk
    by_cases hd : isDigit c = true
    · rw [if_pos hd] at hk
      cases k with
      | zero => exact hd
      | succ k => exact ih k (by omega)
    · rw [if_neg hd] at hk
      omega

theorem spanDigits_stop (l : List Nat) (h : spanDigits l < l.length) :
    isDigit (l.getD (spanDigits l) 0) = false := by
  induction l with
  | nil => simp at h
  | cons c l ih =>
    simp only [spanDigits] at h ⊢
    by_cases hd : isDigit c = true
    · rw [if_pos hd] at h ⊢
      exact ih (by simpa using h)
    · rw [if_neg hd]
      exact Bool.eq_false_iff.mpr hd

/-! ## Keys are never removed -/

theorem subset_doFileLoop (src : List Nat) (fuel i : Nat) (numbers : List (List Nat))
    (s : List Nat) (h : s ∈ numbers) : s ∈ doFileLoop src fuel i numbers := by
  induction fuel generalizing i numbers with
  | zero => exact h
  | succ fuel ih =>
    by_cases hi : i < src.length
    · by_cases hc : isDigitDot (src.getD i 0) = true
      · rw [doFileLoop_match src fuel i numbers hi hc]
        apply ih
        split
        · exact (mem_insertKey _ _ _).mpr (Or.inr h)
        · exact h
      · rw [doFileLoop_skip src fuel i numbers hi (Bool.eq_false_iff.mpr hc)]
        exact ih _ _ h
    · rw [doFileLoop_done src _ i numbers (by omega)]
      exact h

/-- The match attempted at the head of a buffer puts its canonical form, when
not empty, into the Literal Set. -/
theorem head_match_mem (c : Nat) (rest : List Nat) (numbers : List (List Nat))
    (hc : isDigitDot c = true)
    (hne : canonicalize ((c :: rest).take (matchLen (c :: rest))) ≠ []) :
    canonicalize ((c :: rest).take (matchLen (c :: rest))) ∈
      doFileScan (c :: rest) numbers := by
  unfold doFileScan
  rw [List.length_cons, doFileLoop_match (c :: rest) _ 0 numbers (by simp) hc,
    slice_matchEnd, List.drop_zero, if_pos hne]
  exact subset_doFileLoop _ _ _ _ _ ((mem_insertKey _ _ _).mpr (Or.inl rfl))

theorem spanNumber_dotted_stop (rest : List Nat)
    (h : rest = [] ∨ isDigit (rest.getD 0 0) = false) : spanNumber true rest = 0 := by
  cases rest with
  | nil => rfl
  | cons c r =>
    rcases h with h | h
    · exact absurd h (List.cons_ne_nil _ _)
    · simp only [List.getD_cons_zero] at h
      simp [spanNumber, h]

theorem spanExponent_no_marker (rest : List Nat)
    (h : rest = [] ∨ (rest.getD 0 0 ≠ 69 ∧ rest.getD 0 0 ≠ 101)) : spanExponent rest = 0 := by
  cases rest with
  | nil => rfl
  | cons c r =>
    rcases h with h | h
    · exact absurd h (List.cons_ne_nil _ _)
    · simp only [List.getD_cons_zero] at h
      simp [spanExponent, h.1, h.2]

/-! ## A run of the digit 1 -/

theorem spanNumber_replicate (dotted : Bool) (n : Nat) :
    spanNumber dotted (List.replicate n 49) = n := by
  induction n with
  | zero => rfl
  | succ n ih =>
    rw [List.replicate_succ, spanNumber, if_pos (by decide), ih]

theorem matchLen_replicate (n : Nat) : matchLen (List.replicate n 49) = n := by
  unfold matchLen
  rw [spanNumber_replicate, List.drop_replicate, Nat.sub_self]
  rfl

theorem trimLeadingZeros_one (fuel : Nat) (t : List Nat) :
    trimLeadingZeros fuel (49 :: t) = 49 :: t := by
  cases fuel with
  | zero => rfl
  | succ fuel =>
    unfold trimLeadingZeros
    rw [if_neg]
    simp

theorem trimTrailingNonDigits_concat_digit (fuel : Nat) (l : List Nat) (c : Nat)
    (hd : isDigit c = true) : trimTrailingNonDigits fuel (l ++ [c]) = l ++ [c] := by
  cases fuel with
  | zero => rfl
  | succ fuel =>
    unfold trimTrailingNonDigits
    rw [if_neg]
    rw [getD_last_concat, hd]
    simp

theorem trimBoth_replicate (k : Nat) :
    trimBoth (List.replicate (k + 1) 49) = List.replicate (k + 1) 49 := by
  unfold trimBoth
  simp only
  rw [List.replicate_succ, trimLeadingZeros_one, ← List.replicate_succ,
    List.replicate_succ', trimTrailingNonDigits_concat_digit _ _ _ (by decide)]

/-- A run of more than 1024 digits `1` yields the run of exactly 1024 digits `1`. -/
theorem doFileScan_replicate (n : Nat) (hn : 1024 < n) :
    doFileScan (List.replicate n 49) [] = [List.replicate 1024 49] := by
  obtain ⟨m, rfl⟩ : ∃ m, n = m + 1 := ⟨n - 1, by omega⟩
  have hraw : slice (List.replicate (m + 1) 49) 0 (matchEnd (List.replicate (m + 1) 49) 0) =
      List.replicate (m + 1) 49 := by
    rw [slice_matchEnd, List.drop_zero, matchLen_replicate, List.take_replicate, Nat.min_self]
  have hend : matchEnd (List.replicate (m + 1) 49) 0 = m + 1 := by
    rw [matchEnd_eq, List.drop_zero, matchLen_replicate, Nat.zero_add]
  have hcan : canonicalize (List.replicate (m + 1) 49) = List.replicate 1024 49 := by
    unfold canonicalize
    rw [truncate1024_eq_take, List.take_replicate, Nat.min_eq_left (by omega)]
    exact trimBoth_replicate 1023
  unfold doFileScan
  rw [List.length_replicate,
    doFileLoop_match _ m 0 [] (by simp) (by rw [List.replicate_succ]; rfl),
    hraw, hend, hcan, doFileLoop_done _ _ _ _ (by simp)]
  rfl

/-! ## Consequences of the grammar -/

theorem count_isDigits (l : List Nat) (c : Nat) (hl : IsDigits l) (hc : isDigit c = false) :
    l.count c = 0 := by
  rw [List.count_eq_zero]
  intro hmem
  rw [hl c hmem] at hc
  exact absurd hc (by decide)

theorem numericLiteral_alphabet (s : List Nat) (h : NumericLiteral s) :
    ∀ c ∈ s, isDigit c = true ∨ c = 46 ∨ c = 69 ∨ c = 101 ∨ c = 43 ∨ c = 45 := by
  obtain ⟨ip, fp, ex, hip, hfp, hex, rfl⟩ := h
  intro c hc
  simp only [List.mem_append] at hc
  rcases hc with (hc | hc) | hc
  · exact Or.inl (hip c hc)
  · rcases hfp with rfl | ⟨f, rfl, hf⟩
    · exact absurd hc (List.not_mem_nil c)
    · rcases List.mem_cons.mp hc with hc | hc
      · exact Or.inr (Or.inl hc)
      · exact Or.inl (hf c hc)
  · rcases hex with rfl | ⟨m, sg, d, hm, hsg, _, hd, rfl⟩
    · exact absurd hc (List.not_mem_nil c)
    · rcases List.mem_cons.mp hc with hc | hc
      · rcases hm with hm | hm
        · exact Or.inr (Or.inr (Or.inl (hc.trans hm)))
        · exact Or.inr (Or.inr (Or.inr (Or.inl (hc.trans hm))))
      · rcases List.mem_append.mp hc with hc | hc
        · rcases hsg with rfl | rfl | rfl
          · exact absurd hc (List.not_mem_nil c)
          · exact Or.inr (Or.inr (Or.inr (Or.inr (Or.inl (List.mem_singleton.mp hc)))))
          · exact Or.inr (Or.inr (Or.inr (Or.inr (Or.inr (List.mem_singleton.mp hc)))))
        · exact Or.inl (hd c hc)

theorem numericLiteral_counts (s : List Nat) (h : NumericLiteral s) :
    s.count 46 ≤ 1 ∧ s.count 69 + s.count 101 ≤ 1 := by
  obtain ⟨ip, fp, ex, hip, hfp, hex, rfl⟩ := h
  have d46 : isDigit 46 = false := rfl
  have d69 : isDigit 69 = false := rfl
  have d101 : isDigit 101 = false := rfl
  simp only [List.count_append, count_isDigits ip _ hip d46, count_isDigits ip _ hip d69,
    count_isDigits ip _ hip d101]
  have hfp' : fp.count 46 ≤ 1 ∧ fp.count 69 = 0 ∧ fp.count 101 = 0 := by
    rcases hfp with rfl | ⟨f, rfl, hf⟩
    · simp
    · simp [List.count_cons, count_isDigits f _ hf d46, count_isDigits f _ hf d69,
        count_isDigits f _ hf d101]
  have hex' : ex.count 46 = 0 ∧ ex.count 69 + ex.count 101 ≤ 1 := by
    rcases hex with rfl | ⟨m, sg, d, hm, hsg, _, hd, rfl⟩
    · simp
    · rcases hm with rfl | rfl <;> rcases hsg with rfl | rfl | rfl <;>
        simp [List.count_cons, List.count_append, count_isDigits d _ hd d46,
          count_isDigits d _ hd d69, count_isDigits d _ hd d101]
  omega

/-! ## Hex Codec -/

set_option maxRecDepth 10000 in
theorem hex_length : hex.length = 256 := by decide

theorem hex_hexDigitUpper (d : Nat) (hd : d < 16) : hex.getD (hexDigitUpper d) 0 = d := by
  interval_cases d <;> rfl

theorem hexDigits_length (n w : Nat) : (hexDigits n w).length = n := by
  induction n generalizing w with
  | zero => rfl
  | succ n ih => simp [hexDigits, ih]

theorem decodeHex_append_singleton (l : List Nat) (c : Nat) :
    decodeHex (l ++ [c]) = ((decodeHex l <<< 4) % 2 ^ 64) ||| hex.getD c 0 := by
  simp [decodeHex, List.foldl_append]

theorem shift_or_nibble (x d : Nat) (hd : d < 16) : (x <<< 4) ||| d = 16 * x + d := by
  rw [Nat.shiftLeft_eq, Nat.mul_comm]
  exact (Nat.mul_add_lt_is_or (i := 4) (by simpa using hd) x).symm

theorem decodeHex_hexDigits (n : Nat) (hn : n ≤ 16) (w : Nat) :
    decodeHex (hexDigits n w) = w % 16 ^ n := by
  induction n generalizing w with
  | zero => simp [hexDigits, decodeHex, Nat.mod_one]
  | succ n ih =>
    have hlt : (w / 16) % 16 ^ n < 16 ^ n := Nat.mod_lt _ (by positivity)
    have hpow : 16 ^ n ≤ 16 ^ 15 := Nat.pow_le_pow_right (by norm_num) (by omega)
    have hsmall : ((w / 16) % 16 ^ n) <<< 4 < 2 ^ 64 := by
      rw [Nat.shiftLeft_eq]
      have : (16 : Nat) ^ 15 * 2 ^ 4 = 2 ^ 64 := by norm_num
      nlinarith
    rw [hexDigits, decodeHex_append_singleton, ih (by omega), Nat.mod_eq_of_lt hsmall,
      hex_hexDigitUpper _ (Nat.mod_lt _ (by norm_num)),
      shift_or_nibble _ _ (Nat.mod_lt _ (by norm_num)), pow_succ, Nat.mul_comm (16 ^ n) 16, Nat.mod_mul]
    omega

theorem hexDigitUpper_class (d : Nat) (hd : d < 16) :
    isDigit (hexDigitUpper d) = true ∨ (65 ≤ hexDigitUpper d ∧ hexDigitUpper d ≤ 70) := by
  interval_cases d <;> simp [hexDigitUpper, isDigit]

theorem hexDigits_class (n w c : Nat) (hc : c ∈ hexDigits n w) :
    isDigit c = true ∨ (65 ≤ c ∧ c ≤ 70) := by
  induction n generalizing w with
  | zero => simp [hexDigits] at hc
  | succ n ih =>
    simp only [hexDigits, List.mem_append, List.mem_singleton] at hc
    rcases hc with hc | hc
    · exact ih _ hc
    · subst hc
      exact hexDigitUpper_class _ (Nat.mod_lt _ (by norm_num))

theorem sprintf016X_length (w : Nat) : (sprintf016X w).length = 16 :=
  hexDigits_length 16 _

set_option maxRecDepth 100000 in
theorem hex_getD_fin : ∀ c : Fin 256, hex.getD c.val 0 = hexValue c.val := by decide

theorem hex_getD_eq_hexValue (c : Nat) : hex.getD c 0 = hexValue c := by
  by_cases hc : c < 256
  · exact hex_getD_fin ⟨c, hc⟩
  · have h1 : hex.getD c 0 = 0 := List.getD_eq_default _ _ (by rw [hex_length]; omega)
    have h2 : hexValue c = 0 := by
      simp only [hexValue, isDigit]
      rw [if_neg (by simp; omega), if_neg (by omega), if_neg (by omega)]
    rw [h1, h2]

theorem hexValue_not_hex (c : Nat) (hc : isHexChar c = false) : hexValue c = hexValue 48 := by
  simp only [isHexChar, Bool.or_eq_false_iff, Bool.and_eq_false_iff, decide_eq_false_iff_not] at hc
  obtain ⟨⟨h1, h2⟩, h3⟩ := hc
  simp only [hexValue]
  rw [if_neg (by simp [h1]), if_neg (by omega), if_neg (by omega)]
  rfl

theorem decodeHex_sprintf016X (w : Nat) (hw : w < 2 ^ 64) :
    decodeHex (sprintf016X w) = w := by
  rw [sprintf016X, decodeHex_hexDigits 16 (le_refl _)]
  have h16 : (16 : Nat) ^ 16 = 2 ^ 64 := by norm_num
  rw [h16, Nat.mod_mod, Nat.mod_eq_of_lt hw]

/-- C8: Hex Codec round trip.  For every 64-bit unsigned integer `w`, the text
`%016X` of `w` has exactly 16 characters, all of them in `[0-9A-F]`, and the
verifier's loop `want = want<<4 | hex[c]` over these 16 characters returns `w`. -/
theorem hex_codec_round_trip (w : Nat) (hw : w < 2 ^ 64) :
    (sprintf016X w).length = 16 ∧
    (∀ c ∈ sprintf016X w, isDigit c = true ∨ (65 ≤ c ∧ c ≤ 70)) ∧
    decodeHex (sprintf016X w) = w := by
  exact ⟨sprintf016X_length w, fun c hc => hexDigits_class _ _ c hc,
    decodeHex_sprintf016X w hw⟩

/-- Witness of C8 at the pattern of 1.25, `3FF4000000000000`. -/
theorem hex_codec_round_trip_witness :
    0x3FF4000000000000 < 2 ^ 64 ∧
    sprintf016X 0x3FF4000000000000 = bytes "3FF4000000000000" ∧
    decodeHex (sprintf016X 0x3FF4000000000000) = 0x3FF4000000000000 :=
  ⟨by decide, by decide, (hex_codec_round_trip 0x3FF4000000000000 (by decide)).2.2⟩

/-- C9: the lookup table `hex` gives every byte in `[0-9A-Fa-f]` its numeric
value (`'A'..'F'` and `'a'..'f'` both 10..15) and every other byte 0; so the
decoding loop, which has no failure path, reads a prefix with bytes outside
`[0-9A-Fa-f]` as the same 64-bit value as the prefix with each such byte
replaced by `'0'`. -/
theorem hex_table_lenient (c : Nat) (pre : List Nat) :
    hex.getD c 0 =
      (if isDigit c then c - 48
       else if 65 ≤ c ∧ c ≤ 70 then c - 65 + 10
       else if 97 ≤ c ∧ c ≤ 102 then c - 97 + 10
       else 0) ∧
    (isHexChar c = false → hex.getD c 0 = 0) ∧
    decodeHex pre = decodeHex (pre.map fun b => if isHexChar b then b else 48) := by
  refine ⟨hex_getD_eq_hexValue c, ?_, ?_⟩
  · intro hc
    rw [hex_getD_eq_hexValue, hexValue_not_hex c hc]
    rfl
  · have key : ∀ (l : List Nat) (a : Nat),
        l.foldl (fun want b => ((want <<< 4) % 2 ^ 64) ||| hex.getD b 0) a =
        (l.map fun b => if isHexChar b then b else 48).foldl
          (fun want b => ((want <<< 4) % 2 ^ 64) ||| hex.getD b 0) a := by
      intro l
      induction l with
      | nil => intro a; rfl
      | cons b l ih =>
        intro a
        simp only [List.map_cons, List.foldl_cons]
        rw [ih]
        cases hb : isHexChar b
        · rw [hex_getD_eq_hexValue b, hexValue_not_hex b hb, ← hex_getD_eq_hexValue 48]
          simp
        · simp
    exact key pre 0

/-- Witness of C9: a prefix with the non-hex bytes `'G'`, `' '` and `'z'` reads as
the prefix with `'0'` in their places. -/
theorem hex_table_lenient_witness :
    isHexChar 71 = false ∧ hex.getD 71 0 = 0 ∧ hex.getD 70 0 = 15 ∧ hex.getD 102 0 = 15 ∧
    decodeHex (bytes "3FG40000 000z001") = 0x3F04000000000001 :=
  ⟨by decide, (hex_table_lenient 71 []).2.1 (by decide), by decide, by decide, by decide⟩

/-! ## The order of strings -/

theorem stringLess_irrefl (a : List Nat) : stringLess a a = false := by
  induction a with
  | nil => rfl
  | cons x a ih => simp [stringLess, ih]

theorem stringLess_trans (a b c : List Nat) (h1 : stringLess a b = true)
    (h2 : stringLess b c = true) : stringLess a c = true := by
  induction a generalizing b c with
  | nil =>
    cases b with
    | nil => simp [stringLess] at h1
    | cons y b =>
      cases c with
      | nil => simp [stringLess] at h2
      | cons z c => rfl
  | cons x a ih =>
    cases b with
    | nil => simp [stringLess] at h1
    | cons y b =>
      cases c with
      | nil => simp [stringLess] at h2
      | cons z c =>
        simp only [stringLess] at h1 h2 ⊢
        by_cases hxy : x < y
        · by_cases hyz : y < z
          · rw [if_pos (by omega)]
          · rw [if_neg hyz] at h2
            by_cases hzy : z < y
            · rw [if_pos hzy] at h2; exact absurd h2 (by decide)
            · rw [if_pos (by omega)]
        · rw [if_neg hxy] at h1
          by_cases hyx : y < x
          · rw [if_pos hyx] at h1; exact absurd h1 (by decide)
          · rw [if_neg hyx] at h1
            by_cases hyz : y < z
            · rw [if_pos (by omega)]
            · rw [if_neg hyz] at h2
              by_cases hzy : z < y
              · rw [if_pos hzy] at h2; exact absurd h2 (by decide)
              · rw [if_neg hzy] at h2
                rw [if_neg (by omega), if_neg (by omega)]
                exact ih b c h1 h2

theorem stringLess_trichotomy (a b : List Nat) :
    stringLess a b = true ∨ a = b ∨ stringLess b a = true := by
  induction a generalizing b with
  | nil =>
    cases b with
    | nil => exact Or.inr (Or.inl rfl)
    | cons y b => exact Or.inl rfl
  | cons x a ih =>
    cases b with
    | nil => exact Or.inr (Or.inr rfl)
    | cons y b =>
      simp only [stringLess]
      by_cases hxy : x < y
      · exact Or.inl (by rw [if_pos hxy])
      · by_cases hyx : y < x
        · exact Or.inr (Or.inr (by rw [if_pos hyx]))
        · rw [if_neg hxy, if_neg hyx, if_neg hyx, if_neg hxy]
          have : x = y := by omega
          subst this
          rcases ih b with h | h | h
          · exact Or.inl h
          · exact Or.inr (Or.inl (by rw [h]))
          · exact Or.inr (Or.inr h)

theorem stringLess_asymm (a b : List Nat) (h : stringLess a b = true) :
    stringLess b a = false := by
  cases hba : stringLess b a with
  | false => rfl
  | true =>
    have := stringLess_trans a b a h hba
    rw [stringLess_irrefl] at this
    exact absurd this (by decide)

theorem stringLE_isTotal : IsTotal (List Nat) stringLE where
  total a b := by
    unfold stringLE
    cases hab : stringLess a b with
    | false => exact Or.inr rfl
    | true => exact Or.inl (stringLess_asymm a b hab)

theorem stringLE_isTrans : IsTrans (List Nat) stringLE where
  trans a b c hab hbc := by
    unfold stringLE at *
    cases hca : stringLess c a with
    | false => rfl
    | true =>
      rcases stringLess_trichotomy a b with h | h | h
      · rw [stringLess_trans c a b hca h] at hbc
        exact absurd hbc (by decide)
      · rw [← h, hca] at hbc
        exact absurd hbc (by decide)
      · rw [h] at hab
        exact absurd hab (by decide)

theorem sortStrings_perm (l : List (List Nat)) : (sortStrings l).Perm l :=
  List.perm_insertionSort stringLE l

theorem sortStrings_sorted (l : List (List Nat)) : (sortStrings l).Sorted stringLE :=
  @List.sorted_insertionSort _ stringLE _ stringLE_isTotal stringLE_isTrans l

/-- A sorted list of distinct strings is strictly ascending. -/
theorem sortStrings_strict (l : List (List Nat)) (hl : l.Nodup) :
    (sortStrings l).Pairwise fun a b => stringLess a b = true := by
  have h1 : (sortStrings l).Pairwise stringLE := sortStrings_sorted l
  have h2 : (sortStrings l).Pairwise (· ≠ ·) := ((sortStrings_perm l).nodup_iff).mpr hl
  refine List.Pairwise.imp₂ ?_ h1 h2
  intro a b hle hne
  rcases stringLess_trichotomy a b with h | h | h
  · exact h
  · exact absurd h hne
  · unfold stringLE at hle
    rw [h] at hle
    exact absurd hle (by decide)

/-! ## Corpus lines -/

theorem corpusLine_take (r : ParseResult) (n : List Nat) :
    (corpusLine r n).take 16 = sprintf016X r.bits := by
  unfold corpusLine
  rw [List.append_assoc, List.take_append_of_le_length (by rw [sprintf016X_length]),
    List.take_of_length_le (by rw [sprintf016X_length])]

theorem corpusLine_drop (r : ParseResult) (n : List Nat) :
    (corpusLine r n).drop 17 = n := by
  unfold corpusLine
  have h : (sprintf016X r.bits ++ [32]).length = 17 := by
    rw [List.length_append, sprintf016X_length]; rfl
  rw [← h, List.drop_left]

theorem corpusLine_length (r : ParseResult) (n : List Nat) :
    (corpusLine r n).length = 17 + n.length := by
  unfold corpusLine
  rw [List.length_append, List.length_append, sprintf016X_length]
  rfl

theorem corpusLine_space (r : ParseResult) (n : List Nat) :
    (corpusLine r n).getD 16 0 = 32 := by
  unfold corpusLine
  rw [List.append_assoc, List.getD_append_right _ _ _ _ (by rw [sprintf016X_length]),
    sprintf016X_length]
  rfl

theorem collect_foldl (pf : FloatBoundary) (numbers acc : List (List Nat)) :
    numbers.foldl (fun acc n =>
      if accepted (pf n) = true then acc ++ [corpusLine (pf n) n] else acc) acc =
    acc ++ (numbers.filter fun n => accepted (pf n)).map fun n => corpusLine (pf n) n := by
  induction numbers generalizing acc with
  | nil => simp
  | cons n numbers ih =>
    rw [List.foldl_cons, ih, List.filter_cons]
    split <;> simp

theorem printSortedNumbers_eq (pf : FloatBoundary) (numbers : List (List Nat)) :
    printSortedNumbers pf numbers =
      sortStrings ((numbers.filter fun n => accepted (pf n)).map
        fun n => corpusLine (pf n) n) := by
  unfold printSortedNumbers
  simp only
  rw [collect_foldl, List.nil_append]

theorem mem_printSortedNumbers (pf : FloatBoundary) (numbers : List (List Nat))
    (l : List Nat) :
    l ∈ printSortedNumbers pf numbers ↔
      ∃ n, n ∈ numbers ∧ accepted (pf n) = true ∧ l = corpusLine (pf n) n := by
  rw [printSortedNumbers_eq, (sortStrings_perm _).mem_iff, List.mem_map]
  constructor
  · rintro ⟨n, hn, hl⟩
    rw [List.mem_filter] at hn
    exact ⟨n, hn.1, hn.2, hl.symm⟩
  · rintro ⟨n, hn, ha, hl⟩
    exact ⟨n, List.mem_filter.mpr ⟨hn, ha⟩, hl.symm⟩

theorem corpusLines_nodup (pf : FloatBoundary) (numbers : List (List Nat))
    (hn : numbers.Nodup) :
    ((numbers.filter fun n => accepted (pf n)).map fun n => corpusLine (pf n) n).Nodup := by
  refine List.Nodup.map_on ?_ (hn.filter _)
  intro x _ y _ hxy
  have := congrArg (List.drop 17) hxy
  rwa [corpusLine_drop, corpusLine_drop] at this

/-! ## The text boundary between the two programs -/

theorem scanLinesFrom_line (l cur rest : List Nat) (hl : 10 ∉ l) :
    scanLinesFrom (l ++ 10 :: rest) cur =
      if (cur ++ l).length ≥ maxScanTokenSize then ⟨[], true⟩
      else ⟨dropCR (cur ++ l) :: (scanLinesFrom rest []).lines, (scanLinesFrom rest []).err⟩ := by
  induction l generalizing cur with
  | nil =>
    simp only [List.nil_append, List.append_nil, scanLinesFrom, if_true]
  | cons c l ih =>
    have hc : c ≠ 10 := fun h => hl (h ▸ List.mem_cons_self _ _)
    have hl' : 10 ∉ l := fun h => hl (List.mem_cons_of_mem _ h)
    rw [List.cons_append, scanLinesFrom, if_neg hc, ih _ hl', List.append_assoc]
    rfl

theorem dropCR_concat (l : List Nat) (c : Nat) (hc : c ≠ 13) : dropCR (l ++ [c]) = l ++ [c] := by
  unfold dropCR
  rw [getD_last_concat, if_neg]
  simp [hc]

theorem scanLines_printlnAll (lines : List (List Nat))
    (h : ∀ l ∈ lines, 10 ∉ l ∧ l.length < maxScanTokenSize ∧ dropCR l = l) :
    scanLines (printlnAll lines) = ⟨lines, false⟩ := by
  unfold scanLines
  induction lines with
  | nil => rfl
  | cons l lines ih =>
    obtain ⟨h1, h2, h3⟩ := h l (List.mem_cons_self _ _)
    rw [printlnAll, List.append_assoc, List.singleton_append, scanLinesFrom_line _ _ _ h1,
      List.nil_append, if_neg (by omega), h3,
      ih (fun l' hl' => h l' (List.mem_cons_of_mem _ hl'))]

/-! ## The verifier on lines it accepts -/

theorem doLoop_ok (pf : FloatBoundary) (lines : List (List Nat)) (n : Nat)
    (h : ∀ l ∈ lines, 18 ≤ l.length ∧
      ((pf (l.drop 17)).err = ParseError.errRange ∨ (pf (l.drop 17)).err = ParseError.nil) ∧
      (pf (l.drop 17)).bits = decodeHex (l.take 16)) :
    doLoop pf lines n = .ok (n + lines.length) := by
  induction lines generalizing n with
  | nil => rfl
  | cons l lines ih =>
    obtain ⟨h1, h2, h3⟩ := h l (List.mem_cons_self _ _)
    rw [doLoop, if_neg (by omega)]
    simp only
    rw [if_neg, if_neg (by rw [h3]; simp), ih (n + 1)
      (fun l' hl' => h l' (List.mem_cons_of_mem _ hl')), List.length_cons]
    · congr 1; omega
    · rintro ⟨ha, hb⟩
      rcases h2 with h2 | h2
      · exact ha h2
      · exact hb h2

theorem corpusLine_no_newline (r : ParseResult) (n : List Nat)
    (hn : ∀ c ∈ n, isDigit c = true ∨ c = 46 ∨ c = 69 ∨ c = 101 ∨ c = 43 ∨ c = 45) :
    10 ∉ corpusLine r n := by
  unfold corpusLine
  intro h
  simp only [List.mem_append, List.mem_singleton] at h
  rcases h with (h | h) | h
  · rcases hexDigits_class _ _ 10 h with h' | h'
    · exact absurd h' (by decide)
    · omega
  · omega
  · rcases hn 10 h with h' | h' | h' | h' | h' | h'
    · exact absurd h' (by decide)
    all_goals omega

theorem corpusLine_dropCR (r : ParseResult) (l : List Nat) (c : Nat) (hc : isDigit c = true) :
    dropCR (corpusLine r (l ++ [c])) = corpusLine r (l ++ [c]) := by
  unfold corpusLine
  rw [← List.append_assoc]
  exact dropCR_concat _ c (fun h => by rw [h] at hc; exact absurd hc (by decide))

/-! ## What every inserted literal satisfies -/

theorem literal_nonempty_short (src : List Nat) (numbers : List (List Nat)) (s : List Nat)
    (hs : s ∈ doFileScan src numbers) (hnew : s ∉ numbers) : s ≠ [] ∧ s.length ≤ 1024 := by
  rcases mem_doFileLoop src _ _ numbers s hs with h | ⟨_, _, _, heq, hne⟩
  · exact absurd h hnew
  · exact ⟨hne, by rw [heq]; exact canonicalize_length _⟩

theorem inserted_ends_with_digit (src : List Nat) (numbers : List (List Nat)) (s : List Nat)
    (hs : s ∈ doFileScan src numbers) (hnew : s ∉ numbers) :
    ∃ l c, s = l ++ [c] ∧ isDigit c = true := by
  rcases mem_doFileLoop src _ _ numbers s hs with h | ⟨start, _, _, heq, hne⟩
  · exact absurd h hnew
  · have hr := trimTrailingNonDigits_result
      (trimLeadingZeros (truncate1024 (slice src start (matchEnd src start))).length
        (truncate1024 (slice src start (matchEnd src start)))).length
      (trimLeadingZeros (truncate1024 (slice src start (matchEnd src start))).length
        (truncate1024 (slice src start (matchEnd src start)))) (le_refl _)
    have heq' : s = trimTrailingNonDigits _ _ := heq
    rw [← heq'] at hr
    rcases hr with hr | hr
    · exact absurd hr hne
    · exact hr

theorem literal_accepted (src : List Nat) (numbers : List (List Nat)) (s : List Nat)
    (hs : s ∈ doFileScan src numbers) (hnew : s ∉ numbers) : matchesGrammar s = true := by
  rcases mem_doFileLoop src _ _ numbers s hs with h | ⟨start, _, _, heq, _⟩
  · exact absurd h hnew
  · obtain ⟨st, _, hrun⟩ := matchLen_run (src.drop start)
    rw [← slice_matchEnd] at hrun
    rw [heq]
    exact canonicalize_matchesGrammar _ st hrun

theorem literal_alphabet (src : List Nat) (numbers : List (List Nat)) (s : List Nat)
    (hs : s ∈ doFileScan src numbers) (hnew : s ∉ numbers) :
    ∀ c ∈ s, isDigit c = true ∨ c = 46 ∨ c = 69 ∨ c = 101 ∨ c = 43 ∨ c = 45 :=
  numericLiteral_alphabet s (matchesGrammar_sound s (literal_accepted src numbers s hs hnew))

/-! ## The sample Float Boundary -/

theorem sampleParse_bits (n : List Nat) : (sampleParse n).bits < 2 ^ 64 := by
  unfold sampleParse
  split_ifs <;> decide

theorem sampleParse_range (n : List Nat) (h1 : (sampleParse n).err ≠ ParseError.nil)
    (h2 : (sampleParse n).bits = posInfBits) : (sampleParse n).err = ParseError.errRange := by
  unfold sampleParse at *
  split_ifs at * <;> first | rfl | exact absurd rfl h1 | exact absurd h2 (by decide)

/-! ## Scanner claims -/

/-- C2 as stated fails: scanning the text `x=.5` inserts exactly the literal
`.5`, whose first byte is `'.'` and not a decimal digit. -/
theorem leading_dot_literal :
    doFileScan (bytes "x=.5") [] = [bytes ".5"] ∧
    (bytes ".5").getD 0 0 = 46 ∧ isDigit ((bytes ".5").getD 0 0) = false := by
  decide

/-- C2, amended: for every byte buffer, every literal the scanner inserts into
the Literal Set is non-empty and its first byte is a decimal digit or `'.'`; no
literal begins with a sign `'+'` or `'-'`. -/
theorem literal_first_byte (src : List Nat) (numbers : List (List Nat)) (s : List Nat)
    (hs : s ∈ doFileScan src numbers) (hnew : s ∉ numbers) :
    s ≠ [] ∧ isDigitDot (s.getD 0 0) = true ∧ s.getD 0 0 ≠ 43 ∧ s.getD 0 0 ≠ 45 := by
  rcases mem_doFileLoop src _ _ numbers s hs with h | ⟨start, hlt, hc, heq, hne⟩
  · exact absurd h hnew
  · have hh := canonicalize_head (slice src start (matchEnd src start))
      (by rw [slice_matchEnd_head src start hlt hc]; exact hc)
    rw [← heq] at hh
    rcases hh with hh | hh
    · exact absurd hh hne
    · refine ⟨hne, hh, ?_, ?_⟩ <;> intro h <;> rw [h] at hh <;> exact absurd hh (by decide)

/-- Witness of C2 (amended): the literal `.5` of the text `x=.5`. -/
theorem literal_first_byte_witness :
    bytes ".5" ∈ doFileScan (bytes "x=.5") [] ∧
    isDigitDot ((bytes ".5").getD 0 0) = true :=
  ⟨by decide, (literal_first_byte (bytes "x=.5") [] (bytes ".5") (by decide) (by decide)).2.1⟩

/-- C3: exponent commit rule.  Let `p` be an index of the buffer holding an
exponent marker `'e'`/`'E'` and `j` the index after the marker and its optional
`'+'`/`'-'`.  The block `Grab "e+789"` moves the scan position beyond `p` if and
only if `src[j]` is a decimal digit; then the position ends after the whole run
of digits that starts at `j`.  When no digit follows, the position stays at `p` and
the next iteration of the scan loop steps over the marker as over any other
byte.  A match ends where this block leaves the position reached by the
integer/fraction loop.  Scanning `5e+x` yields exactly the literal `5` and
scanning `5e+9` yields exactly `5e+9`. -/
theorem exponent_commit_rule (src : List Nat) (p : Nat) (hp : p < src.length)
    (hm : src.getD p 0 = 69 ∨ src.getD p 0 = 101) :
    (p < grabExponent src p ↔
      (skipSign src (p + 1) < src.length ∧ isDigit (src.getD (skipSign src (p + 1)) 0) = true)) ∧
    ((skipSign src (p + 1) < src.length ∧ isDigit (src.getD (skipSign src (p + 1)) 0) = true) →
      skipSign src (p + 1) < grabExponent src p ∧ grabExponent src p ≤ src.length ∧
      (∀ k, skipSign src (p + 1) ≤ k → k < grabExponent src p → isDigit (src.getD k 0) = true) ∧
      (grabExponent src p < src.length → isDigit (src.getD (grabExponent src p) 0) = false)) ∧
    (¬ (skipSign src (p + 1) < src.length ∧
        isDigit (src.getD (skipSign src (p + 1)) 0) = true) →
      grabExponent src p = p ∧
      ∀ fuel numbers, doFileLoop src (fuel + 1) p numbers = doFileLoop src fuel (p + 1) numbers) ∧
    (∀ start, matchEnd src start =
      grabExponent src (grabNumberLoop src (src.length - start) false start)) ∧
    doFileScan (bytes "5e+x") [] = [bytes "5"] ∧
    doFileScan (bytes "5e+9") [] = [bytes "5e+9"] := by
  have hj : p + 1 ≤ skipSign src (p + 1) := by rw [skipSign_eq]; omega
  have hz := spanDigits_eq_zero_iff (src.drop (skipSign src (p + 1)))
  rw [List.length_drop, getD_drop, Nat.add_zero] at hz
  have hz' : spanDigits (src.drop (skipSign src (p + 1))) = 0 ↔
      ¬ (skipSign src (p + 1) < src.length ∧
        isDigit (src.getD (skipSign src (p + 1)) 0) = true) := by
    rw [hz]
    constructor
    · intro h h'; exact h ⟨by omega, h'.2⟩
    · intro h h'; exact h ⟨by omega, h'.2⟩
  have hg := grabExponent_marker src p hp hm
  refine ⟨?_, ?_, ?_, fun _ => rfl, by decide, by decide⟩
  · constructor
    · intro h
      by_contra hn
      rw [if_pos (hz'.mpr hn)] at hg
      omega
    · intro h
      rw [if_neg (fun h0 => hz'.mp h0 h)] at hg
      omega
  · intro h
    have hnz : spanDigits (src.drop (skipSign src (p + 1))) ≠ 0 := fun h0 => hz'.mp h0 h
    rw [if_neg hnz] at hg
    have hle := spanDigits_le (src.drop (skipSign src (p + 1)))
    rw [List.length_drop] at hle
    refine ⟨by omega, by omega, ?_, ?_⟩
    · intro k hk1 hk2
      have := spanDigits_digits (src.drop (skipSign src (p + 1))) (k - skipSign src (p + 1))
        (by omega)
      rw [getD_drop] at this
      rwa [show skipSign src (p + 1) + (k - skipSign src (p + 1)) = k by omega] at this
    · intro hlt
      have := spanDigits_stop (src.drop (skipSign src (p + 1)))
        (by rw [List.length_drop]; omega)
      rw [getD_drop] at this
      rwa [← hg] at this
  · intro h
    rw [if_pos (hz'.mpr h)] at hg
    refine ⟨hg, fun fuel numbers => doFileLoop_skip src fuel p numbers hp ?_⟩
    rcases hm with hm | hm <;> rw [hm] <;> rfl

/-- Witness of C3: the marker at index 1 of `5e+9` and of `5e+x`. -/
theorem exponent_commit_rule_witness :
    grabExponent (bytes "5e+9") 1 = 4 ∧ grabExponent (bytes "5e+x") 1 = 1 ∧
    (1 < grabExponent (bytes "5e+9") 1 ↔
      (skipSign (bytes "5e+9") (1 + 1) < (bytes "5e+9").length ∧
        isDigit ((bytes "5e+9").getD (skipSign (bytes "5e+9") (1 + 1)) 0) = true)) :=
  ⟨by decide, by decide,
    (exponent_commit_rule (bytes "5e+9") 1 (by decide) (by decide)).1⟩

/-- C4: for every byte buffer, no literal the scanner inserts is longer than
one byte with a first byte `'0'` immediately followed by a decimal digit; the
leading-zero loop leaves a text that begins `0.` as it is.  The matches `00.5`,
`0.5` and `0123` canonicalize to `0.5`, `0.5` and `123`. -/
theorem no_leading_zero (src : List Nat) (numbers : List (List Nat)) (s : List Nat)
    (hs : s ∈ doFileScan src numbers) (hnew : s ∉ numbers) :
    ¬ (s.length > 1 ∧ s.getD 0 0 = 48 ∧ isDigit (s.getD 1 0) = true) ∧
    (∀ fuel rest, trimLeadingZeros fuel (48 :: 46 :: rest) = 48 :: 46 :: rest) ∧
    canonicalize (bytes "00.5") = bytes "0.5" ∧
    canonicalize (bytes "0.5") = bytes "0.5" ∧
    canonicalize (bytes "0123") = bytes "123" ∧
    doFileScan (bytes "00.5") [] = [bytes "0.5"] ∧
    doFileScan (bytes "0.5") [] = [bytes "0.5"] ∧
    doFileScan (bytes "0123") [] = [bytes "123"] := by
  refine ⟨?_, ?_, by decide, by decide, by decide, by decide, by decide, by decide⟩
  · rcases mem_doFileLoop src _ _ numbers s hs with h | ⟨start, _, _, heq, _⟩
    · exact absurd h hnew
    · rintro ⟨h1, h2, h3⟩
      have hd := trimLeadingZeros_done
        (truncate1024 (slice src start (matchEnd src start))).length
        (truncate1024 (slice src start (matchEnd src start))) (le_refl _)
      have hp := trimTrailingNonDigits_initial
        (trimLeadingZeros (truncate1024 (slice src start (matchEnd src start))).length
          (truncate1024 (slice src start (matchEnd src start)))).length
        (trimLeadingZeros (truncate1024 (slice src start (matchEnd src start))).length
          (truncate1024 (slice src start (matchEnd src start))))
      have heq' : s = trimTrailingNonDigits _ _ := heq
      rw [← heq'] at hp
      have hl := hp.length_le
      rw [← prefix_getD s _ hp 0 (by omega), ← prefix_getD s _ hp 1 (by omega), h2, h3] at hd
      have : decide ((trimLeadingZeros
          (truncate1024 (slice src start (matchEnd src start))).length
          (truncate1024 (slice src start (matchEnd src start)))).length > 1) = true :=
        decide_eq_true (by omega)
      rw [this] at hd
      exact absurd hd (by decide)
  · intro fuel rest
    cases fuel with
    | zero => rfl
    | succ fuel =>
      unfold trimLeadingZeros
      rw [if_neg]
      simp [isDigit]

/-- Witness of C4: the literal `0.5` of the text `00.5`. -/
theorem no_leading_zero_witness :
    bytes "0.5" ∈ doFileScan (bytes "00.5") [] ∧
    ¬ ((bytes "0.5").length > 1 ∧ (bytes "0.5").getD 0 0 = 48 ∧
      isDigit ((bytes "0.5").getD 1 0) = true) :=
  ⟨by decide, (no_leading_zero (bytes "00.5") [] (bytes "0.5") (by decide) (by decide)).1⟩

/-- C6: for every byte buffer, every literal the scanner inserts is non-empty
and at most 1024 bytes long, and it is made of the first 1024 bytes of its raw
match `src[start:i]` by the leading-zero and trailing non-digit loops: of the
whole match when that has at most 1024 bytes, of exactly its first 1024 bytes
when it is longer.  A run of more than 1024 digits `1` yields exactly the
literal of 1024 digits `1`. -/
theorem literal_length_cap (src : List Nat) (numbers : List (List Nat)) (s : List Nat)
    (hs : s ∈ doFileScan src numbers) (hnew : s ∉ numbers) :
    s ≠ [] ∧ s.length ≤ 1024 ∧
    (∃ start, start < src.length ∧ isDigitDot (src.getD start 0) = true ∧
      s = trimBoth ((slice src start (matchEnd src start)).take 1024) ∧
      ((slice src start (matchEnd src start)).length ≤ 1024 →
        s = trimBoth (slice src start (matchEnd src start))) ∧
      ((slice src start (matchEnd src start)).length > 1024 →
        ((slice src start (matchEnd src start)).take 1024).length = 1024)) ∧
    (∀ n, 1024 < n → doFileScan (List.replicate n 49) [] = [List.replicate 1024 49]) := by
  refine ⟨(literal_nonempty_short src numbers s hs hnew).1,
    (literal_nonempty_short src numbers s hs hnew).2, ?_, doFileScan_replicate⟩
  · rcases mem_doFileLoop src _ _ numbers s hs with h | ⟨start, hlt, hc, heq, _⟩
    · exact absurd h hnew
    · refine ⟨start, hlt, hc, ?_, ?_, ?_⟩
      · rw [heq, canonicalize, truncate1024_eq_take]
      · intro hle
        rw [heq, canonicalize_short _ hle]
      · intro hgt
        rw [List.length_take]
        omega

/-- Witness of C6: the literal of 1024 digits `1` of a run of 1030. -/
theorem literal_length_cap_witness :
    List.replicate 1024 49 ∈ doFileScan (List.replicate 1030 49) [] ∧
    (List.replicate 1024 49).length ≤ 1024 :=
  have hmem : List.replicate 1024 49 ∈ doFileScan (List.replicate 1030 49) [] := by
    rw [doFileScan_replicate 1030 (by decide)]
    exact List.mem_singleton.mpr rfl
  ⟨hmem, (literal_length_cap (List.replicate 1030 49) [] (List.replicate 1024 49) hmem
    (List.not_mem_nil _)).2.1⟩

/-- C7: for every byte buffer, every literal the scanner inserts, truncated or
not, is a word of the numeric-literal grammar: decimal digits, then optionally
`'.'` and decimal digits, then optionally `'e'` or `'E'`, an optional `'+'` or
`'-'`, and at least one decimal digit.  So it has at most one `'.'`, at most one
exponent marker, and no byte outside `[0-9.eE+-]`. -/
theorem literal_matches_grammar (src : List Nat) (numbers : List (List Nat)) (s : List Nat)
    (hs : s ∈ doFileScan src numbers) (hnew : s ∉ numbers) :
    matchesGrammar s = true ∧ NumericLiteral s ∧
    s.count 46 ≤ 1 ∧ s.count 69 + s.count 101 ≤ 1 ∧
    (∀ c ∈ s, isDigit c = true ∨ c = 46 ∨ c = 69 ∨ c = 101 ∨ c = 43 ∨ c = 45) := by
  have hg := literal_accepted src numbers s hs hnew
  have hn := matchesGrammar_sound s hg
  exact ⟨hg, hn, (numericLiteral_counts s hn).1, (numericLiteral_counts s hn).2,
    numericLiteral_alphabet s hn⟩

/-- Witness of C7: the literal `5.e-7` of the text `x5.e-7.e`. -/
theorem literal_matches_grammar_witness :
    bytes "5.e-7" ∈ doFileScan (bytes "x5.e-7.e") [] ∧ NumericLiteral (bytes "5.e-7") :=
  ⟨by decide,
    (literal_matches_grammar (bytes "x5.e-7.e") [] (bytes "5.e-7") (by decide) (by decide)).2.1⟩

/-! ## Corpus Builder claims -/

/-- C10: for every Literal Set (a list of distinct keys, in any order), the
lines emitted by `printSortedNumbers` are exactly the lines made of the 16
upper-case hexadecimal digits of the bit pattern, one space and the literal, for
the accepted literals, each line once, in strictly ascending byte-wise
lexicographic order of the full line. -/
theorem corpus_lines_sorted (parseFloat : FloatBoundary) (numbers : List (List Nat))
    (hn : numbers.Nodup) :
    (printSortedNumbers parseFloat numbers).Perm
      ((numbers.filter fun n => accepted (parseFloat n)).map
        fun n => corpusLine (parseFloat n) n) ∧
    (∀ l, l ∈ printSortedNumbers parseFloat numbers ↔
      ∃ n, n ∈ numbers ∧
        ((parseFloat n).err = ParseError.nil ∨ (parseFloat n).bits = posInfBits) ∧
        l = corpusLine (parseFloat n) n) ∧
    (∀ n, corpusLine (parseFloat n) n = sprintf016X (parseFloat n).bits ++ [32] ++ n ∧
      (sprintf016X (parseFloat n).bits).length = 16 ∧
      ∀ c ∈ sprintf016X (parseFloat n).bits, isDigit c = true ∨ (65 ≤ c ∧ c ≤ 70)) ∧
    (printSortedNumbers parseFloat numbers).Nodup ∧
    (printSortedNumbers parseFloat numbers).Pairwise (fun a b => stringLess a b = true) := by
  have hnd := corpusLines_nodup parseFloat numbers hn
  refine ⟨?_, ?_, ?_, ?_, ?_⟩
  · rw [printSortedNumbers_eq]
    exact sortStrings_perm _
  · intro l
    rw [mem_printSortedNumbers]
    constructor
    · rintro ⟨n, h1, h2, h3⟩
      refine ⟨n, h1, ?_, h3⟩
      simpa [accepted] using h2
    · rintro ⟨n, h1, h2, h3⟩
      refine ⟨n, h1, ?_, h3⟩
      simpa [accepted] using h2
  · intro n
    exact ⟨rfl, sprintf016X_length _, fun c hc => hexDigits_class _ _ c hc⟩
  · rw [printSortedNumbers_eq]
    exact ((sortStrings_perm _).nodup_iff).mpr hnd
  · rw [printSortedNumbers_eq]
    exact sortStrings_strict _ hnd

/-- Witness of C10: the Literal Set of the package comment, visited in another
order and with a rejected key, gives the four lines of that comment. -/
theorem corpus_lines_sorted_witness :
    [bytes "789", bytes "123.456e789", bytes ".e5", bytes "1.25", bytes "1"].Nodup ∧
    printSortedNumbers sampleParse
      [bytes "789", bytes "123.456e789", bytes ".e5", bytes "1.25", bytes "1"] =
      [bytes "3FF0000000000000 1", bytes "3FF4000000000000 1.25",
        bytes "4088A80000000000 789", bytes "7FF0000000000000 123.456e789"] ∧
    (printSortedNumbers sampleParse
      [bytes "789", bytes "123.456e789", bytes ".e5", bytes "1.25", bytes "1"]).Pairwise
      (fun a b => stringLess a b = true) :=
  ⟨by decide, by decide,
    (corpus_lines_sorted sampleParse
      [bytes "789", bytes "123.456e789", bytes ".e5", bytes "1.25", bytes "1"]
      (by decide)).2.2.2.2⟩

/-! ## The round trip through the corpus file -/

/-- C1: round trip.  Take a Float Boundary that returns 64-bit patterns and that,
when it returns an error together with `+Inf`, returns the out-of-range error,
and a Literal Set whose keys were inserted by the scanner.  Then the verifier,
run on the text printed by `printSortedNumbers`, succeeds: its scanner delivers
exactly the printed lines, each of them is at least 18 bytes long and so is
compared, the 16 hexadecimal characters of each decode to the bit pattern of
parsing the text from offset 17, and the count reported is the number of printed
lines. -/
theorem corpus_round_trip (parseFloat : FloatBoundary) (numbers : List (List Nat))
    (hbits : ∀ n, (parseFloat n).bits < 2 ^ 64)
    (hrange : ∀ n, (parseFloat n).err ≠ ParseError.nil → (parseFloat n).bits = posInfBits →
      (parseFloat n).err = ParseError.errRange)
    (hlit : ∀ n ∈ numbers, ∃ src nums, n ∈ doFileScan src nums ∧ n ∉ nums) :
    scanLines (printlnAll (printSortedNumbers parseFloat numbers)) =
      ⟨printSortedNumbers parseFloat numbers, false⟩ ∧
    (∀ l ∈ printSortedNumbers parseFloat numbers, 18 ≤ l.length) ∧
    (∀ l ∈ printSortedNumbers parseFloat numbers,
      decodeHex (l.take 16) = (parseFloat (l.drop 17)).bits) ∧
    doVerify parseFloat (scanLines (printlnAll (printSortedNumbers parseFloat numbers))) =
      .ok (printSortedNumbers parseFloat numbers).length := by
  have hline : ∀ l ∈ printSortedNumbers parseFloat numbers,
      (10 ∉ l ∧ l.length < maxScanTokenSize ∧ dropCR l = l) ∧
      18 ≤ l.length ∧
      ((parseFloat (l.drop 17)).err = ParseError.errRange ∨
        (parseFloat (l.drop 17)).err = ParseError.nil) ∧
      (parseFloat (l.drop 17)).bits = decodeHex (l.take 16) := by
    intro l hl
    obtain ⟨n, hn, hacc, hl⟩ := (mem_printSortedNumbers _ _ _).mp hl
    obtain ⟨src, nums, hmem, hnew⟩ := hlit n hn
    have hcap := literal_nonempty_short src nums n hmem hnew
    have hgram := literal_alphabet src nums n hmem hnew
    obtain ⟨l', c, hlc, hc⟩ := inserted_ends_with_digit src nums n hmem hnew
    have hlen : l.length = 17 + n.length := by rw [hl, corpusLine_length]
    have hdrop : l.drop 17 = n := by rw [hl, corpusLine_drop]
    have htake : l.take 16 = sprintf016X (parseFloat n).bits := by rw [hl, corpusLine_take]
    have hpos : 0 < n.length := List.length_pos.mpr hcap.1
    refine ⟨⟨?_, ?_, ?_⟩, by omega, ?_, ?_⟩
    · rw [hl]; exact corpusLine_no_newline _ _ hgram
    · have := hcap.2
      unfold maxScanTokenSize
      omega
    · rw [hl, hlc]; exact corpusLine_dropCR _ _ _ hc
    · rw [hdrop]
      by_cases hnil : (parseFloat n).err = ParseError.nil
      · exact Or.inr hnil
      · left
        refine hrange n hnil ?_
        simp only [accepted, Bool.or_eq_true, beq_iff_eq] at hacc
        rcases hacc with h | h
        · exact absurd h hnil
        · exact h
    · rw [hdrop, htake, (decodeHex_sprintf016X _ (hbits n))]
  have hscan := scanLines_printlnAll (printSortedNumbers parseFloat numbers)
    (fun l hl => (hline l hl).1)
  refine ⟨hscan, fun l hl => (hline l hl).2.1, fun l hl => ((hline l hl).2.2.2).symm, ?_⟩
  rw [hscan]
  unfold doVerify
  simp only
  rw [doLoop_ok parseFloat _ 0 (fun l hl => (hline l hl).2)]
  simp

/-- Witness of C1: the Literal Set of the text `1 1.25 789 123.456e789` and the
sample Float Boundary; the verifier reports four lines. -/
theorem corpus_round_trip_witness :
    (∀ n, (sampleParse n).bits < 2 ^ 64) ∧
    (∀ n ∈ [bytes "789", bytes "123.456e789", bytes "1.25", bytes "1"],
      n ∈ doFileScan (bytes "1 1.25 789 123.456e789") []) ∧
    doVerify sampleParse (scanLines (printlnAll (printSortedNumbers sampleParse
      [bytes "789", bytes "123.456e789", bytes "1.25", bytes "1"]))) = .ok 4 :=
  ⟨sampleParse_bits, by decide,
    ((corpus_round_trip sampleParse
      [bytes "789", bytes "123.456e789", bytes "1.25", bytes "1"]
      sampleParse_bits sampleParse_range
      (fun n hn => ⟨bytes "1 1.25 789 123.456e789", [],
        (by decide : ∀ n ∈ [bytes "789", bytes "123.456e789", bytes "1.25", bytes "1"],
          n ∈ doFileScan (bytes "1 1.25 789 123.456e789") []) n hn,
        List.not_mem_nil n⟩)).2.2.2).trans (by decide)⟩

/-! ## The verifier's loop, line by line -/

theorem doLoop_skip (pf : FloatBoundary) (l : List Nat) (rest : List (List Nat)) (n : Nat)
    (h : l.length < 18) : doLoop pf (l :: rest) n = doLoop pf rest n := by
  rw [doLoop, if_pos h]

theorem doLoop_good (pf : FloatBoundary) (l : List Nat) (rest : List (List Nat)) (n : Nat)
    (h : 18 ≤ l.length)
    (herr : (pf (l.drop 17)).err = ParseError.errRange ∨ (pf (l.drop 17)).err = ParseError.nil)
    (hbits : (pf (l.drop 17)).bits = decodeHex (l.take 16)) :
    doLoop pf (l :: rest) n = doLoop pf rest (n + 1) := by
  rw [doLoop, if_neg (by omega)]
  simp only
  rw [if_neg, if_neg (by rw [hbits]; simp)]
  rintro ⟨ha, hb⟩
  rcases herr with h2 | h2
  · exact ha h2
  · exact hb h2

theorem doLoop_mismatch (pf : FloatBoundary) (l : List Nat) (rest : List (List Nat)) (n : Nat)
    (h : 18 ≤ l.length)
    (herr : (pf (l.drop 17)).err = ParseError.errRange ∨ (pf (l.drop 17)).err = ParseError.nil)
    (hbits : (pf (l.drop 17)).bits ≠ decodeHex (l.take 16)) :
    doLoop pf (l :: rest) n =
      .error (.mismatch (l.drop 17) (sprintf016X (pf (l.drop 17)).bits)
        (sprintf016X (decodeHex (l.take 16)))) := by
  rw [doLoop, if_neg (by omega)]
  simp only
  rw [if_neg, if_pos hbits]
  rintro ⟨ha, hb⟩
  rcases herr with h2 | h2
  · exact ha h2
  · exact hb h2

theorem doLoop_parse_error (pf : FloatBoundary) (l : List Nat) (rest : List (List Nat))
    (n : Nat) (h : 18 ≤ l.length)
    (herr : (pf (l.drop 17)).err ≠ ParseError.errRange ∧ (pf (l.drop 17)).err ≠ ParseError.nil) :
    doLoop pf (l :: rest) n = .error (.parse (l.drop 17)) := by
  rw [doLoop, if_neg (by omega)]
  simp only
  rw [if_pos herr]

theorem doLoop_append (pf : FloatBoundary) (pre rest : List (List Nat)) (n : Nat)
    (hpre : ∀ x ∈ pre, LinePasses pf x) :
    doLoop pf (pre ++ rest) n =
      doLoop pf rest (n + (pre.filter fun l => decide (18 ≤ l.length)).length) := by
  induction pre generalizing n with
  | nil => rfl
  | cons x pre ih =>
    have hx := hpre x (List.mem_cons_self _ _)
    have hrest : ∀ y ∈ pre, LinePasses pf y := fun y hy => hpre y (List.mem_cons_of_mem _ hy)
    rw [List.cons_append]
    by_cases hlen : x.length < 18
    · rw [doLoop_skip pf x _ n hlen, ih n hrest, List.filter_cons_of_neg (by simpa using hlen)]
    · rcases hx with hx | ⟨h1, h2⟩
      · exact absurd hx hlen
      · rw [doLoop_good pf x _ n (by omega) h1 h2, ih (n + 1) hrest,
          List.filter_cons_of_pos (by simpa using hlen), List.length_cons]
        congr 1
        omega

theorem doLoop_filter (pf : FloatBoundary) (lines : List (List Nat)) (n : Nat) :
    doLoop pf (lines.filter fun l => decide (18 ≤ l.length)) n = doLoop pf lines n := by
  induction lines generalizing n with
  | nil => rfl
  | cons x lines ih =>
    by_cases hlen : x.length < 18
    · rw [List.filter_cons_of_neg (by simpa using hlen), doLoop_skip pf x _ n hlen, ih]
    · rw [List.filter_cons_of_pos (by simpa using hlen), doLoop, doLoop, if_neg hlen,
        if_neg hlen]
      simp only
      split
      · rfl
      · split
        · rfl
        · exact ih (n + 1)

theorem doLoop_count (pf : FloatBoundary) (lines : List (List Nat)) (n m : Nat)
    (h : doLoop pf lines n = .ok m) :
    m = n + (lines.filter fun l => decide (18 ≤ l.length)).length := by
  induction lines generalizing n with
  | nil =>
    simp only [doLoop, Except.ok.injEq] at h
    simp [h]
  | cons x lines ih =>
    by_cases hlen : x.length < 18
    · rw [doLoop_skip pf x _ n hlen] at h
      rw [List.filter_cons_of_neg (by simpa using hlen)]
      exact ih n h
    · rw [doLoop, if_neg hlen] at h
      simp only at h
      split at h
      · exact absurd h (by simp)
      · split at h
        · exact absurd h (by simp)
        · rw [List.filter_cons_of_pos (by simpa using hlen), List.length_cons, ih (n + 1) h]
          omega

theorem doVerify_error (pf : FloatBoundary) (lines : List (List Nat)) (e : Bool)
    (err : DoError) (h : doLoop pf lines 0 = .error err) :
    doVerify pf ⟨lines, e⟩ = .error err := by
  unfold doVerify
  simp only
  rw [h]

/-! ## The builder's output depends on the key set only -/

theorem stringLE_isAntisymm : IsAntisymm (List Nat) stringLE where
  antisymm a b hab hba := by
    unfold stringLE at *
    rcases stringLess_trichotomy a b with h | h | h
    · rw [h] at hba; exact absurd hba (by decide)
    · exact h
    · rw [h] at hab; exact absurd hab (by decide)

theorem sortStrings_eq_of_perm (l l' : List (List Nat)) (h : l.Perm l') :
    sortStrings l = sortStrings l' :=
  @List.eq_of_perm_of_sorted _ stringLE stringLE_isAntisymm _ _
    (((sortStrings_perm l).trans h).trans (sortStrings_perm l').symm)
    (sortStrings_sorted l) (sortStrings_sorted l')

theorem printSortedNumbers_eq_of_perm (pf : FloatBoundary) (numbers numbers' : List (List Nat))
    (h : numbers.Perm numbers') :
    printSortedNumbers pf numbers = printSortedNumbers pf numbers' := by
  rw [printSortedNumbers_eq, printSortedNumbers_eq]
  exact sortStrings_eq_of_perm _ _ ((h.filter _).map _)

theorem insertKey_nodup (s : List Nat) (numbers : List (List Nat)) (h : numbers.Nodup) :
    (insertKey s numbers).Nodup := by
  unfold insertKey
  split
  · exact h
  · rename_i hs
    rw [List.nodup_append]
    refine ⟨h, List.nodup_singleton s, ?_⟩
    intro a ha hb
    rw [List.mem_singleton] at hb
    exact hs (hb ▸ ha)

theorem doFileLoop_nodup (src : List Nat) (fuel i : Nat) (numbers : List (List Nat))
    (h : numbers.Nodup) : (doFileLoop src fuel i numbers).Nodup := by
  induction fuel generalizing i numbers with
  | zero => exact h
  | succ fuel ih =>
    by_cases hi : i < src.length
    · by_cases hc : isDigitDot (src.getD i 0) = true
      · rw [doFileLoop_match src fuel i numbers hi hc]
        apply ih
        split
        · exact insertKey_nodup _ _ h
        · exact h
      · rw [doFileLoop_skip src fuel i numbers hi (Bool.eq_false_iff.mpr hc)]
        exact ih _ _ h
    · rw [doFileLoop_done src _ i numbers (by omega)]
      exact h

/-- The keys after a scan are the keys before it and the keys the same scan
puts into an empty map. -/
theorem mem_doFileLoop_iff (src : List Nat) (fuel i : Nat) (numbers : List (List Nat))
    (s : List Nat) :
    s ∈ doFileLoop src fuel i numbers ↔ s ∈ numbers ∨ s ∈ doFileLoop src fuel i [] := by
  induction fuel generalizing i numbers with
  | zero => simp [doFileLoop]
  | succ fuel ih =>
    by_cases hi : i < src.length
    · by_cases hc : isDigitDot (src.getD i 0) = true
      · rw [doFileLoop_match src fuel i numbers hi hc, doFileLoop_match src fuel i [] hi hc]
        by_cases he : canonicalize (slice src i (matchEnd src i)) ≠ []
        · rw [if_pos he, if_pos he, ih _ (insertKey _ numbers), ih _ (insertKey _ []),
            mem_insertKey, mem_insertKey]
          simp only [List.not_mem_nil, or_false]
          constructor
          · rintro ((h | h) | h)
            · exact Or.inr (Or.inl h)
            · exact Or.inl h
            · exact Or.inr (Or.inr h)
          · rintro (h | h | h)
            · exact Or.inl (Or.inr h)
            · exact Or.inl (Or.inl h)
            · exact Or.inr h
        · rw [if_neg he, if_neg he]
          exact ih _ _
      · rw [doFileLoop_skip src fuel i numbers hi (Bool.eq_false_iff.mpr hc),
          doFileLoop_skip src fuel i [] hi (Bool.eq_false_iff.mpr hc)]
        exact ih _ _
    · rw [doFileLoop_done src _ i numbers (by omega), doFileLoop_done src _ i [] (by omega)]
      simp

theorem doFile_nodup (content : Option (List Nat)) (numbers : List (List Nat))
    (h : numbers.Nodup) : (doFile content numbers).Nodup := by
  unfold doFile
  cases content with
  | none => exact h
  | some src =>
    simp only
    split
    · exact h
    · exact doFileLoop_nodup _ _ _ _ h

theorem mem_doFile_iff (content : Option (List Nat)) (numbers : List (List Nat))
    (s : List Nat) : s ∈ doFile content numbers ↔ s ∈ numbers ∨ s ∈ doFile content [] := by
  unfold doFile
  cases content with
  | none => simp
  | some src =>
    simp only
    split
    · simp
    · exact mem_doFileLoop_iff _ _ _ _ _

theorem scanAll_nodup (bufs : List (List Nat)) (numbers : List (List Nat))
    (h : numbers.Nodup) :
    (bufs.foldl (fun m src => doFile (some src) m) numbers).Nodup := by
  induction bufs generalizing numbers with
  | nil => exact h
  | cons b bufs ih => exact ih _ (doFile_nodup _ _ h)

theorem mem_scanAll (bufs : List (List Nat)) (numbers : List (List Nat)) (s : List Nat) :
    s ∈ bufs.foldl (fun m src => doFile (some src) m) numbers ↔
      s ∈ numbers ∨ ∃ b ∈ bufs, s ∈ doFile (some b) [] := by
  induction bufs generalizing numbers with
  | nil => simp
  | cons b bufs ih =>
    rw [List.foldl_cons, ih, mem_doFile_iff]
    simp only [List.mem_cons, exists_eq_or_imp]
    exact or_assoc

/-! ## The order of the hexadecimal texts -/

theorem stringLess_append_of_length_eq (x y s t : List Nat) (h : x.length = y.length) :
    stringLess (x ++ s) (y ++ t) =
      if stringLess x y = true then true
      else if stringLess y x = true then false else stringLess s t := by
  induction x generalizing y with
  | nil =>
    have hy : y = [] := List.length_eq_zero.mp h.symm
    subst hy
    simp [stringLess]
  | cons a x ih =>
    cases y with
    | nil => simp at h
    | cons b y =>
      simp only [List.length_cons, Nat.add_right_cancel_iff] at h
      simp only [List.cons_append, stringLess]
      by_cases hab : a < b
      · simp [hab]
      · by_cases hba : b < a
        · simp [hab, hba]
        · simp only [hab, hba, if_false]
          exact ih y h

theorem hexDigitUpper_lt (a b : Nat) (ha : a < 16) (hb : b < 16) :
    hexDigitUpper a < hexDigitUpper b ↔ a < b := by
  unfold hexDigitUpper
  split <;> split <;> omega

theorem stringLess_singleton (c d : Nat) : stringLess [c] [d] = decide (c < d) := by
  simp only [stringLess]
  by_cases h : c < d
  · simp [h]
  · by_cases h' : d < c <;> simp [h, h']

theorem stringLess_hexDigits (n a b : Nat) (ha : a < 16 ^ n) (hb : b < 16 ^ n) :
    stringLess (hexDigits n a) (hexDigits n b) = true ↔ a < b := by
  induction n generalizing a b with
  | zero =>
    have ha0 : a = 0 := by simpa using ha
    have hb0 : b = 0 := by simpa using hb
    subst ha0 hb0
    simp [hexDigits, stringLess]
  | succ n ih =>
    have ha' : a / 16 < 16 ^ n := by
      rw [Nat.div_lt_iff_lt_mul (by norm_num)]; rw [pow_succ] at ha; exact ha
    have hb' : b / 16 < 16 ^ n := by
      rw [Nat.div_lt_iff_lt_mul (by norm_num)]; rw [pow_succ] at hb; exact hb
    have h1 := ih (a / 16) (b / 16) ha' hb'
    have h2 := ih (b / 16) (a / 16) hb' ha'
    rw [hexDigits, hexDigits, stringLess_append_of_length_eq _ _ _ _
      (by rw [hexDigits_length, hexDigits_length]), stringLess_singleton]
    by_cases hlt : a / 16 < b / 16
    · rw [if_pos (h1.mpr hlt)]
      simp only [true_iff]
      omega
    · rw [if_neg (fun h => hlt (h1.mp h))]
      by_cases hgt : b / 16 < a / 16
      · rw [if_pos (h2.mpr hgt)]
        simp only [Bool.false_eq_true, false_iff]
        omega
      · rw [if_neg (fun h => hgt (h2.mp h)), decide_eq_true_iff,
          hexDigitUpper_lt _ _ (Nat.mod_lt _ (by norm_num)) (Nat.mod_lt _ (by norm_num))]
        omega

theorem stringLess_sprintf016X (a b : Nat) (ha : a < 2 ^ 64) (hb : b < 2 ^ 64) :
    stringLess (sprintf016X a) (sprintf016X b) = true ↔ a < b := by
  have h16 : (16 : Nat) ^ 16 = 2 ^ 64 := by norm_num
  unfold sprintf016X
  rw [Nat.mod_eq_of_lt ha, Nat.mod_eq_of_lt hb]
  exact stringLess_hexDigits 16 a b (by rw [h16]; exact ha) (by rw [h16]; exact hb)

/-- Two corpus lines in string order have their bit patterns in numeric order. -/
theorem corpusLine_le (r1 r2 : ParseResult) (n1 n2 : List Nat)
    (h1 : r1.bits < 2 ^ 64) (h2 : r2.bits < 2 ^ 64)
    (hle : stringLE (corpusLine r1 n1) (corpusLine r2 n2)) : r1.bits ≤ r2.bits := by
  unfold stringLE corpusLine at hle
  rw [List.append_assoc, List.append_assoc, stringLess_append_of_length_eq _ _ _ _
    (by rw [sprintf016X_length, sprintf016X_length])] at hle
  by_contra hgt
  rw [if_pos ((stringLess_sprintf016X _ _ h2 h1).mpr (by omega))] at hle
  exact absurd hle (by decide)

/-! ## The scan loop as a single pass -/

theorem doFileMatches_done (src : List Nat) (fuel i : Nat) (h : src.length ≤ i) :
    doFileMatches src fuel i = [] := by
  cases fuel with
  | zero => rfl
  | succ fuel => simp only [doFileMatches, if_neg (Nat.not_lt.mpr h)]

theorem doFileMatches_skip (src : List Nat) (fuel i : Nat)
    (hi : i < src.length) (hc : isDigitDot (src.getD i 0) = false) :
    doFileMatches src (fuel + 1) i = doFileMatches src fuel (i + 1) := by
  rw [doFileMatches]
  simp only [if_pos hi]
  rw [if_pos (by rw [hc]; rfl)]

theorem doFileMatches_match (src : List Nat) (fuel i : Nat)
    (hi : i < src.length) (hc : isDigitDot (src.getD i 0) = true) :
    doFileMatches src (fuel + 1) i =
      (i, matchEnd src i) :: doFileMatches src fuel (matchEnd src i) := by
  rw [doFileMatches]
  simp only [if_pos hi]
  rw [if_neg (by rw [hc]; simp)]

theorem doFileEnd_done (src : List Nat) (fuel i : Nat) (h : src.length ≤ i) :
    doFileEnd src fuel i = i := by
  cases fuel with
  | zero => rfl
  | succ fuel => simp only [doFileEnd, if_neg (Nat.not_lt.mpr h)]

theorem doFileEnd_skip (src : List Nat) (fuel i : Nat)
    (hi : i < src.length) (hc : isDigitDot (src.getD i 0) = false) :
    doFileEnd src (fuel + 1) i = doFileEnd src fuel (i + 1) := by
  rw [doFileEnd]
  simp only [if_pos hi]
  rw [if_pos (by rw [hc]; rfl)]

theorem doFileEnd_match (src : List Nat) (fuel i : Nat)
    (hi : i < src.length) (hc : isDigitDot (src.getD i 0) = true) :
    doFileEnd src (fuel + 1) i = doFileEnd src fuel (matchEnd src i) := by
  rw [doFileEnd]
  simp only [if_pos hi]
  rw [if_neg (by rw [hc]; simp)]

/-- The scan loop is the fold of its matches into the map. -/
theorem doFileLoop_eq_foldl (src : List Nat) (fuel i : Nat) (numbers : List (List Nat)) :
    doFileLoop src fuel i numbers =
      (doFileMatches src fuel i).foldl (insertMatch src) numbers := by
  induction fuel generalizing i numbers with
  | zero => rfl
  | succ fuel ih =>
    by_cases hi : i < src.length
    · by_cases hc : isDigitDot (src.getD i 0) = true
      · rw [doFileLoop_match src fuel i numbers hi hc, doFileMatches_match src fuel i hi hc,
          List.foldl_cons, ih]
        rfl
      · rw [doFileLoop_skip src fuel i numbers hi (Bool.eq_false_iff.mpr hc),
          doFileMatches_skip src fuel i hi (Bool.eq_false_iff.mpr hc), ih]
    · rw [doFileLoop_done src _ i numbers (by omega), doFileMatches_done src _ i (by omega)]
      rfl

/-- With a budget of at least `len(src) - i` iterations the loop is left because
`i < len(src)` fails, and then `i` is `len(src)`. -/
theorem doFileEnd_eq (src : List Nat) (fuel i : Nat) (hi : i ≤ src.length)
    (hf : src.length - i ≤ fuel) : doFileEnd src fuel i = src.length := by
  induction fuel generalizing i with
  | zero =>
    rw [doFileEnd_done src 0 i (by omega)]
    omega
  | succ fuel ih =>
    by_cases hlt : i < src.length
    · by_cases hc : isDigitDot (src.getD i 0) = true
      · have hb := matchEnd_bounds src i hlt hc
        rw [doFileEnd_match src fuel i hlt hc]
        exact ih _ hb.2 (by omega)
      · rw [doFileEnd_skip src fuel i hlt (Bool.eq_false_iff.mpr hc)]
        exact ih _ (by omega) (by omega)
    · rw [doFileEnd_done src _ i (by omega)]
      omega

theorem doFileMatches_fuel_succ (src : List Nat) (fuel i : Nat)
    (hf : src.length - i ≤ fuel) :
    doFileMatches src (fuel + 1) i = doFileMatches src fuel i := by
  induction fuel generalizing i with
  | zero =>
    rw [doFileMatches_done src 1 i (by omega), doFileMatches_done src 0 i (by omega)]
  | succ fuel ih =>
    by_cases hi : i < src.length
    · by_cases hc : isDigitDot (src.getD i 0) = true
      · have hb := matchEnd_bounds src i hi hc
        rw [doFileMatches_match src (fuel + 1) i hi hc, doFileMatches_match src fuel i hi hc,
          ih _ (by omega)]
      · rw [doFileMatches_skip src (fuel + 1) i hi (Bool.eq_false_iff.mpr hc),
          doFileMatches_skip src fuel i hi (Bool.eq_false_iff.mpr hc)]
        exact ih _ (by omega)
    · rw [doFileMatches_done src _ i (by omega), doFileMatches_done src _ i (by omega)]

theorem doFileMatches_fuel (src : List Nat) (fuel i : Nat) (hf : src.length - i ≤ fuel) :
    doFileMatches src fuel i = doFileMatches src (src.length - i) i := by
  induction fuel with
  | zero =>
    have : src.length - i = 0 := by omega
    rw [this]
  | succ fuel ih =>
    by_cases h : src.length - i = fuel + 1
    · rw [h]
    · rw [doFileMatches_fuel_succ src fuel i (by omega)]
      exact ih (by omega)

/-- Every match lies at or after the index the loop is at, is not empty, ends in
the buffer and starts at a digit or `'.'`. -/
theorem doFileMatches_bounds (src : List Nat) (fuel i : Nat) (m : Nat × Nat)
    (hm : m ∈ doFileMatches src fuel i) :
    i ≤ m.1 ∧ m.1 < m.2 ∧ m.2 ≤ src.length ∧ isDigitDot (src.getD m.1 0) = true ∧
      m.2 = matchEnd src m.1 := by
  induction fuel generalizing i with
  | zero => simp [doFileMatches] at hm
  | succ fuel ih =>
    by_cases hi : i < src.length
    · by_cases hc : isDigitDot (src.getD i 0) = true
      · have hb := matchEnd_bounds src i hi hc
        rw [doFileMatches_match src fuel i hi hc, List.mem_cons] at hm
        rcases hm with hm | hm
        · subst hm
          exact ⟨le_refl _, hb.1, hb.2, hc, rfl⟩
        · have := ih _ hm
          exact ⟨by omega, this.2⟩
      · rw [doFileMatches_skip src fuel i hi (Bool.eq_false_iff.mpr hc)] at hm
        have := ih _ hm
        exact ⟨by omega, this.2⟩
    · rw [doFileMatches_done src _ i (by omega)] at hm
      exact absurd hm (List.not_mem_nil m)

/-- A match ends before the next one starts. -/
theorem doFileMatches_pairwise (src : List Nat) (fuel i : Nat) :
    (doFileMatches src fuel i).Pairwise fun a b => a.2 ≤ b.1 := by
  induction fuel generalizing i with
  | zero => exact List.Pairwise.nil
  | succ fuel ih =>
    by_cases hi : i < src.length
    · by_cases hc : isDigitDot (src.getD i 0) = true
      · rw [doFileMatches_match src fuel i hi hc, List.pairwise_cons]
        exact ⟨fun b hb => (doFileMatches_bounds src fuel _ b hb).1, ih _⟩
      · rw [doFileMatches_skip src fuel i hi (Bool.eq_false_iff.mpr hc)]
        exact ih _
    · rw [doFileMatches_done src _ i (by omega)]
      exact List.Pairwise.nil

/-! ## Scanning a literal -/

theorem spanDigits_isDigits (d rest : List Nat) (hd : IsDigits d)
    (hrest : rest = [] ∨ isDigit (rest.getD 0 0) = false) :
    spanDigits (d ++ rest) = d.length := by
  induction d with
  | nil =>
    rcases hrest with h | h
    · subst h; rfl
    · cases rest with
      | nil => rfl
      | cons c r =>
        simp only [List.getD_cons_zero] at h
        simp [spanDigits, h]
  | cons c d ih =>
    have hc : isDigit c = true := hd c (List.mem_cons_self _ _)
    have hd' : IsDigits d := fun x hx => hd x (List.mem_cons_of_mem _ hx)
    rw [List.cons_append, spanDigits, if_pos hc, ih hd', List.length_cons]

theorem spanNumber_isDigits (dotted : Bool) (d rest : List Nat) (hd : IsDigits d) :
    spanNumber dotted (d ++ rest) = d.length + spanNumber dotted rest := by
  induction d with
  | nil => simp
  | cons c d ih =>
    have hc : isDigit c = true := hd c (List.mem_cons_self _ _)
    have hd' : IsDigits d := fun x hx => hd x (List.mem_cons_of_mem _ hx)
    rw [List.cons_append, spanNumber, if_pos hc, ih hd', List.length_cons]
    omega

theorem isExponent_head (ex : List Nat) (h : IsExponent ex) :
    ex = [] ∨ (isDigit (ex.getD 0 0) = false ∧ ex.getD 0 0 ≠ 46) := by
  rcases h with h | ⟨m, sg, d, hm, _, _, _, rfl⟩
  · exact Or.inl h
  · right
    rcases hm with rfl | rfl <;> exact ⟨rfl, by simp⟩

theorem spanNumber_isExponent (dotted : Bool) (ex : List Nat) (h : IsExponent ex) :
    spanNumber dotted ex = 0 := by
  rcases isExponent_head ex h with h0 | ⟨h1, h2⟩
  · subst h0; rfl
  · cases ex with
    | nil => rfl
    | cons c r =>
      simp only [List.getD_cons_zero] at h1 h2
      simp [spanNumber, h1, h2]

theorem spanExponent_isExponent (ex : List Nat) (h : IsExponent ex) :
    spanExponent ex = ex.length := by
  rcases h with h | ⟨m, sg, d, hm, hsg, hne, hd, rfl⟩
  · subst h; rfl
  · have hm' : ((m == 69) || (m == 101)) = true := by
      rcases hm with rfl | rfl <;> rfl
    obtain ⟨c, d', rfl⟩ := List.exists_cons_of_ne_nil hne
    have hc : isDigit c = true := hd c (List.mem_cons_self _ _)
    have hsign : spanSign (sg ++ c :: d') = sg.length := by
      rcases hsg with rfl | rfl | rfl
      · simp only [List.nil_append, spanSign, List.length_nil]
        rw [if_neg]
        intro hs
        rw [isDigit_sign c hs] at hc
        exact absurd hc (by decide)
      · rfl
      · rfl
    have hdig : spanDigits ((sg ++ c :: d').drop (spanSign (sg ++ c :: d'))) = (c :: d').length := by
      rw [hsign, List.drop_left]
      have := spanDigits_isDigits (c :: d') [] hd (Or.inl rfl)
      rwa [List.append_nil] at this
    simp only [spanExponent]
    rw [if_pos hm', hdig, hsign, if_neg (by simp)]
    simp only [List.length_cons, List.length_append]
    omega

/-- A word of the grammar is one whole match. -/
theorem matchLen_numericLiteral (s : List Nat) (h : NumericLiteral s) :
    matchLen s = s.length := by
  obtain ⟨ip, fp, ex, hip, hfp, hex, rfl⟩ := h
  have hnum : spanNumber false (ip ++ fp ++ ex) = ip.length + fp.length := by
    rw [List.append_assoc, spanNumber_isDigits false ip _ hip]
    rcases hfp with rfl | ⟨f, rfl, hf⟩
    · rw [List.nil_append, spanNumber_isExponent false ex hex]
      rfl
    · rw [List.cons_append, spanNumber, if_neg (by decide), if_pos (by decide),
        spanNumber_isDigits true f _ hf, spanNumber_isExponent true ex hex]
      simp only [List.length_cons]
  unfold matchLen
  rw [hnum, ← List.length_append, List.drop_left, spanExponent_isExponent ex hex]
  simp only [List.length_append]

theorem trimLeadingZeros_fixed (fuel : Nat) (s : List Nat)
    (h : ¬ (s.length > 1 ∧ s.getD 0 0 = 48 ∧ isDigit (s.getD 1 0) = true)) :
    trimLeadingZeros fuel s = s := by
  cases fuel with
  | zero => rfl
  | succ fuel =>
    unfold trimLeadingZeros
    rw [if_neg]
    intro hc
    simp only [Bool.and_eq_true, decide_eq_true_eq, beq_iff_eq] at hc
    exact h ⟨hc.1.1, hc.1.2, hc.2⟩

/-- No inserted literal begins with `'0'` followed by a digit. -/
theorem inserted_no_leading_zero (src : List Nat) (numbers : List (List Nat)) (s : List Nat)
    (hs : s ∈ doFileScan src numbers) (hnew : s ∉ numbers) :
    ¬ (s.length > 1 ∧ s.getD 0 0 = 48 ∧ isDigit (s.getD 1 0) = true) := by
  rcases mem_doFileLoop src _ _ numbers s hs with h | ⟨start, _, _, heq, _⟩
  · exact absurd h hnew
  · rintro ⟨h1, h2, h3⟩
    have hd := trimLeadingZeros_done
      (truncate1024 (slice src start (matchEnd src start))).length
      (truncate1024 (slice src start (matchEnd src start))) (le_refl _)
    have hp := trimTrailingNonDigits_initial
      (trimLeadingZeros (truncate1024 (slice src start (matchEnd src start))).length
        (truncate1024 (slice src start (matchEnd src start)))).length
      (trimLeadingZeros (truncate1024 (slice src start (matchEnd src start))).length
        (truncate1024 (slice src start (matchEnd src start))))
    have heq' : s = trimTrailingNonDigits _ _ := heq
    rw [← heq'] at hp
    have hl := hp.length_le
    rw [← prefix_getD s _ hp 0 (by omega), ← prefix_getD s _ hp 1 (by omega), h2, h3] at hd
    have : decide ((trimLeadingZeros
        (truncate1024 (slice src start (matchEnd src start))).length
        (truncate1024 (slice src start (matchEnd src start)))).length > 1) = true :=
      decide_eq_true (by omega)
    rw [this] at hd
    exact absurd hd (by decide)

/-- The canonical form of an inserted literal is the literal. -/
theorem canonicalize_inserted (src : List Nat) (numbers : List (List Nat)) (s : List Nat)
    (hs : s ∈ doFileScan src numbers) (hnew : s ∉ numbers) : canonicalize s = s := by
  obtain ⟨l, c, hlc, hc⟩ := inserted_ends_with_digit src numbers s hs hnew
  have hz := inserted_no_leading_zero src numbers s hs hnew
  rw [canonicalize_short s (literal_nonempty_short src numbers s hs hnew).2]
  unfold trimBoth
  simp only
  rw [trimLeadingZeros_fixed _ s hz, hlc, trimTrailingNonDigits_concat_digit _ l c hc]

/-- Scanning an inserted literal alone gives the literal alone. -/
theorem doFileScan_inserted (src : List Nat) (numbers : List (List Nat)) (s : List Nat)
    (hs : s ∈ doFileScan src numbers) (hnew : s ∉ numbers) : doFileScan s [] = [s] := by
  have hne := (literal_nonempty_short src numbers s hs hnew).1
  have hlen : matchLen s = s.length :=
    matchLen_numericLiteral s (matchesGrammar_sound s (literal_accepted src numbers s hs hnew))
  have hcan := canonicalize_inserted src numbers s hs hnew
  have hpos : 0 < s.length := List.length_pos.mpr hne
  have hhead : isDigitDot (s.getD 0 0) = true := by
    rcases mem_doFileLoop src _ _ numbers s hs with h | ⟨start, hlt, hc, heq, _⟩
    · exact absurd h hnew
    · have hh := canonicalize_head (slice src start (matchEnd src start))
        (by rw [slice_matchEnd_head src start hlt hc]; exact hc)
      rw [← heq] at hh
      rcases hh with hh | hh
      · exact absurd hh hne
      · exact hh
  have hend : matchEnd s 0 = s.length := by
    rw [matchEnd_eq, List.drop_zero, hlen, Nat.zero_add]
  have hraw : slice s 0 (matchEnd s 0) = s := by
    rw [slice_matchEnd, List.drop_zero, hlen, List.take_length]
  obtain ⟨k, hk⟩ : ∃ k, s.length = k + 1 := ⟨s.length - 1, by omega⟩
  unfold doFileScan
  rw [hk, doFileLoop_match s k 0 [] (by omega) hhead, hraw, hcan, if_pos hne, hend,
    doFileLoop_done _ _ _ _ (le_refl _)]
  rfl

/-! ## Decoding one rune -/

theorem leadInfo_some (l sz lo hi : Nat) (h : leadInfo l = some (sz, lo, hi)) :
    0xC2 ≤ l ∧ l ≤ 0xF4 ∧ 2 ≤ sz ∧ sz ≤ 4 ∧ 0x80 ≤ lo ∧ hi ≤ 0xBF := by
  unfold leadInfo at h
  split_ifs at h <;> simp only [Option.some.injEq, Prod.mk.injEq, reduceCtorEq] at h <;>
    obtain ⟨rfl, rfl, rfl⟩ := h <;> omega

theorem decodeRune_ascii (p0 : Nat) (rest : List Nat) (h : p0 < 0x80) :
    decodeRune (p0 :: rest) = (p0, 1) := by
  simp only [decodeRune, runeSelf, if_pos h]

theorem decodeRune_no_lead (p0 : Nat) (rest : List Nat) (h : 0x80 ≤ p0)
    (hl : leadInfo p0 = none) : decodeRune (p0 :: rest) = (runeError, 1) := by
  simp only [decodeRune, runeSelf, if_neg (Nat.not_lt.mpr h), hl]

theorem decodeRune_lead (p0 : Nat) (rest : List Nat) (sz lo hi : Nat)
    (hl : leadInfo p0 = some (sz, lo, hi)) :
    decodeRune (p0 :: rest) =
      if rest.length + 1 < sz then (runeError, 1)
      else if rest.getD 0 0 < lo ∨ hi < rest.getD 0 0 then (runeError, 1)
      else if sz ≤ 2 then (((p0 &&& 0x1F) <<< 6) ||| (rest.getD 0 0 &&& 0x3F), 2)
      else if rest.getD 1 0 < 0x80 ∨ 0xBF < rest.getD 1 0 then (runeError, 1)
      else if sz ≤ 3 then
        (((p0 &&& 0x0F) <<< 12) ||| ((rest.getD 0 0 &&& 0x3F) <<< 6) |||
          (rest.getD 1 0 &&& 0x3F), 3)
      else if rest.getD 2 0 < 0x80 ∨ 0xBF < rest.getD 2 0 then (runeError, 1)
      else
        (((p0 &&& 0x07) <<< 18) ||| ((rest.getD 0 0 &&& 0x3F) <<< 12) |||
          ((rest.getD 1 0 &&& 0x3F) <<< 6) ||| (rest.getD 2 0 &&& 0x3F), 4) := by
  have h0 := (leadInfo_some p0 sz lo hi hl).1
  simp only [decodeRune, runeSelf, if_neg (show ¬ p0 < 0x80 by omega), hl, List.length_cons,
    List.getD_cons_succ]

/-- An incomplete encoding is invalid. -/
theorem decodeRune_short (p0 : Nat) (rest : List Nat) (sz lo hi : Nat)
    (hl : leadInfo p0 = some (sz, lo, hi)) (hlen : rest.length + 1 < sz) :
    decodeRune (p0 :: rest) = (runeError, 1) := by
  rw [decodeRune_lead p0 rest sz lo hi hl, if_pos hlen]

/-- The encoding of a rune decodes to its length, whatever follows it, and not
to `(RuneError, 1)`. -/
theorem decodeRune_isEnc (e q : List Nat) (he : IsEnc e) :
    (decodeRune (e ++ q)).2 = e.length ∧
      ¬ ((decodeRune (e ++ q)).1 = runeError ∧ (decodeRune (e ++ q)).2 = 1) := by
  cases e with
  | nil => exact absurd he (by simp [IsEnc])
  | cons p0 rest =>
    rcases he with ⟨h0, hr⟩ | ⟨sz, lo, hi, hl, hlen, h1, h2, h3, h4⟩
    · subst hr
      rw [List.cons_append, decodeRune_ascii p0 _ h0]
      refine ⟨rfl, ?_⟩
      rintro ⟨h, _⟩
      simp only [runeError] at h
      omega
    · obtain ⟨_, _, hsz2, hsz4, hlo, hhi⟩ := leadInfo_some p0 sz lo hi hl
      have g0 : (rest ++ q).getD 0 0 = rest.getD 0 0 :=
        List.getD_append _ _ _ _ (by omega)
      rw [List.cons_append, decodeRune_lead p0 (rest ++ q) sz lo hi hl, g0,
        if_neg (by rw [List.length_append]; omega), if_neg (by omega)]
      by_cases hs2 : sz ≤ 2
      · rw [if_pos hs2]
        simp only [List.length_cons]
        exact ⟨by omega, fun h => by omega⟩
      · have g1 : (rest ++ q).getD 1 0 = rest.getD 1 0 :=
          List.getD_append _ _ _ _ (by omega)
        have c1 := h3 (by omega)
        unfold IsCont at c1
        rw [if_neg hs2, g1, if_neg (by omega)]
        by_cases hs3 : sz ≤ 3
        · rw [if_pos hs3]
          simp only [List.length_cons]
          exact ⟨by omega, fun h => by omega⟩
        · have g2 : (rest ++ q).getD 2 0 = rest.getD 2 0 :=
            List.getD_append _ _ _ _ (by omega)
          have c2 := h4 (by omega)
          unfold IsCont at c2
          rw [if_neg hs3, g2, if_neg (by omega)]
          simp only [List.length_cons]
          exact ⟨by omega, fun h => by omega⟩

/-- A decoding that is not `(RuneError, 1)` has read the encoding of a rune. -/
theorem decodeRune_valid (p : List Nat) (hp : p ≠ [])
    (h : ¬ ((decodeRune p).1 = runeError ∧ (decodeRune p).2 = 1)) :
    (decodeRune p).2 ≤ p.length ∧ IsEnc (p.take (decodeRune p).2) := by
  cases p with
  | nil => exact absurd rfl hp
  | cons p0 rest =>
    by_cases h0 : p0 < 0x80
    · rw [decodeRune_ascii p0 rest h0]
      simp only [List.length_cons, List.take_succ_cons, List.take_zero]
      exact ⟨by omega, Or.inl ⟨h0, rfl⟩⟩
    · cases hl : leadInfo p0 with
      | none =>
        rw [decodeRune_no_lead p0 rest (by omega) hl] at h
        exact absurd ⟨rfl, rfl⟩ h
      | some t =>
        obtain ⟨sz, lo, hi⟩ := t
        obtain ⟨_, _, hsz2, hsz4, hlo, hhi⟩ := leadInfo_some p0 sz lo hi hl
        rw [decodeRune_lead p0 rest sz lo hi hl] at h ⊢
        by_cases c0 : rest.length + 1 < sz
        · rw [if_pos c0] at h; exact absurd ⟨rfl, rfl⟩ h
        · rw [if_neg c0] at h ⊢
          by_cases c1 : rest.getD 0 0 < lo ∨ hi < rest.getD 0 0
          · rw [if_pos c1] at h; exact absurd ⟨rfl, rfl⟩ h
          · rw [if_neg c1] at h ⊢
            have t0 : ∀ k, 1 ≤ k → (rest.take k).getD 0 0 = rest.getD 0 0 := by
              intro k hk
              cases rest with
              | nil => simp
              | cons a r =>
                obtain ⟨k', rfl⟩ : ∃ k', k = k' + 1 := ⟨k - 1, by omega⟩
                rfl
            by_cases hs2 : sz ≤ 2
            · rw [if_pos hs2]
              simp only [List.length_cons, List.take_succ_cons]
              refine ⟨by omega, Or.inr ⟨sz, lo, hi, hl, ?_, ?_, ?_, fun h => by omega,
                fun h => by omega⟩⟩
              · rw [List.length_take]; omega
              · rw [t0 1 (le_refl _)]; omega
              · rw [t0 1 (le_refl _)]; omega
            · rw [if_neg hs2] at h ⊢
              by_cases c2 : rest.getD 1 0 < 0x80 ∨ 0xBF < rest.getD 1 0
              · rw [if_pos c2] at h; exact absurd ⟨rfl, rfl⟩ h
              · rw [if_neg c2] at h ⊢
                have t1 : ∀ k, 2 ≤ k → (rest.take k).getD 1 0 = rest.getD 1 0 := by
                  intro k hk
                  rw [List.getD_eq_getElem?_getD, List.getD_eq_getElem?_getD,
                    List.getElem?_take_of_lt (by omega)]
                by_cases hs3 : sz ≤ 3
                · rw [if_pos hs3]
                  simp only [List.length_cons, List.take_succ_cons]
                  refine ⟨by omega, Or.inr ⟨sz, lo, hi, hl, ?_, ?_, ?_, fun _ => ?_,
                    fun h => by omega⟩⟩
                  · rw [List.length_take]; omega
                  · rw [t0 2 (by omega)]; omega
                  · rw [t0 2 (by omega)]; omega
                  · rw [t1 2 (le_refl _)]; unfold IsCont; omega
                · rw [if_neg hs3] at h ⊢
                  by_cases c3 : rest.getD 2 0 < 0x80 ∨ 0xBF < rest.getD 2 0
                  · rw [if_pos c3] at h; exact absurd ⟨rfl, rfl⟩ h
                  · rw [if_neg c3]
                    have t2 : (rest.take 3).getD 2 0 = rest.getD 2 0 := by
                      rw [List.getD_eq_getElem?_getD, List.getD_eq_getElem?_getD,
                        List.getElem?_take_of_lt (by omega)]
                    simp only [List.length_cons, List.take_succ_cons]
                    refine ⟨by omega, Or.inr ⟨sz, lo, hi, hl, ?_, ?_, ?_, fun _ => ?_,
                      fun _ => ?_⟩⟩
                    · rw [List.length_take]; omega
                    · rw [t0 3 (by omega)]; omega
                    · rw [t0 3 (by omega)]; omega
                    · rw [t1 3 (by omega)]; unfold IsCont; omega
                    · rw [t2]; unfold IsCont; omega

/-! ## Valid UTF-8 -/

theorem isEnc_length (e : List Nat) (he : IsEnc e) : 1 ≤ e.length ∧ e.length ≤ 4 := by
  cases e with
  | nil => exact absurd he (by simp [IsEnc])
  | cons p0 rest =>
    rcases he with ⟨_, hr⟩ | ⟨sz, lo, hi, hl, hlen, _⟩
    · subst hr; simp
    · have := leadInfo_some p0 sz lo hi hl
      simp only [List.length_cons]
      omega

theorem decodeRune_size_pos (p : List Nat) (hp : p ≠ [])
    (h : ¬ ((decodeRune p).1 = runeError ∧ (decodeRune p).2 = 1)) : 1 ≤ (decodeRune p).2 := by
  have h1 := decodeRune_valid p hp h
  have h2 := isEnc_length _ h1.2
  rw [List.length_take] at h2
  omega

theorem validLoop_step (fuel : Nat) (p : List Nat) (hp : p ≠ []) :
    validLoop (fuel + 1) p =
      if (decodeRune p).1 = runeError ∧ (decodeRune p).2 = 1 then false
      else validLoop fuel (p.drop (decodeRune p).2) := by
  rw [validLoop, if_neg (by simpa using hp)]

theorem validLoop_nil (fuel : Nat) : validLoop fuel [] = true := by
  cases fuel <;> rfl

/-- The loop of `utf8.Valid` needs no more than `len(p)` iterations. -/
theorem validLoop_fuel (fuel1 fuel2 : Nat) (p : List Nat) (h1 : p.length ≤ fuel1)
    (h2 : p.length ≤ fuel2) : validLoop fuel1 p = validLoop fuel2 p := by
  induction fuel1 generalizing fuel2 p with
  | zero =>
    have hp : p = [] := List.length_eq_zero.mp (by omega)
    subst hp
    rw [validLoop_nil, validLoop_nil]
  | succ fuel1 ih =>
    by_cases hp : p = []
    · subst hp
      rw [validLoop_nil, validLoop_nil]
    · obtain ⟨k, rfl⟩ : ∃ k, fuel2 = k + 1 := by
        have := List.length_pos.mpr hp
        exact ⟨fuel2 - 1, by omega⟩
      rw [validLoop_step fuel1 p hp, validLoop_step k p hp]
      by_cases hinv : (decodeRune p).1 = runeError ∧ (decodeRune p).2 = 1
      · rw [if_pos hinv, if_pos hinv]
      · rw [if_neg hinv, if_neg hinv]
        have hs := decodeRune_size_pos p hp hinv
        have hpos := List.length_pos.mpr hp
        exact ih k _ (by rw [List.length_drop]; omega) (by rw [List.length_drop]; omega)

theorem utf8Valid_nil : utf8Valid [] = true := rfl

theorem utf8Valid_step (p : List Nat) (hp : p ≠ []) :
    utf8Valid p =
      if (decodeRune p).1 = runeError ∧ (decodeRune p).2 = 1 then false
      else utf8Valid (p.drop (decodeRune p).2) := by
  unfold utf8Valid
  obtain ⟨k, hk⟩ : ∃ k, p.length = k + 1 := by
    have := List.length_pos.mpr hp
    exact ⟨p.length - 1, by omega⟩
  rw [hk, validLoop_step k p hp]
  by_cases hinv : (decodeRune p).1 = runeError ∧ (decodeRune p).2 = 1
  · rw [if_pos hinv, if_pos hinv]
  · rw [if_neg hinv, if_neg hinv]
    have hs := decodeRune_size_pos p hp hinv
    exact validLoop_fuel _ _ _ (by rw [List.length_drop]; omega) (le_refl _)

theorem isEnc_ne_nil (e : List Nat) (he : IsEnc e) : e ≠ [] := by
  intro h
  subst h
  exact absurd he (by simp [IsEnc])

/-- The encoding of a rune in front of a text does not change its validity. -/
theorem utf8Valid_enc_append (e q : List Nat) (he : IsEnc e) :
    utf8Valid (e ++ q) = utf8Valid q := by
  have hd := decodeRune_isEnc e q he
  have hne : e ++ q ≠ [] := by
    intro h
    exact isEnc_ne_nil e he (List.append_eq_nil.mp h).1
  rw [utf8Valid_step (e ++ q) hne, if_neg hd.2, hd.1, List.drop_left]

/-- A valid text that is not empty begins with the encoding of a rune, and
the rest is valid. -/
theorem utf8Valid_uncons (p : List Nat) (hp : p ≠ []) (hv : utf8Valid p = true) :
    ∃ e q, p = e ++ q ∧ IsEnc e ∧ utf8Valid q = true := by
  rw [utf8Valid_step p hp] at hv
  by_cases hinv : (decodeRune p).1 = runeError ∧ (decodeRune p).2 = 1
  · rw [if_pos hinv] at hv
    exact absurd hv (by decide)
  · rw [if_neg hinv] at hv
    exact ⟨p.take (decodeRune p).2, p.drop (decodeRune p).2,
      (List.take_append_drop _ _).symm, (decodeRune_valid p hp hinv).2, hv⟩

theorem utf8Valid_append_aux (n : Nat) : ∀ a b : List Nat, a.length = n →
    utf8Valid a = true → utf8Valid b = true → utf8Valid (a ++ b) = true := by
  induction n using Nat.strong_induction_on with
  | _ n ih =>
    intro a b hn ha hb
    by_cases hnil : a = []
    · subst hnil; exact hb
    · obtain ⟨e, q, rfl, he, hq⟩ := utf8Valid_uncons a hnil ha
      have hel := isEnc_length e he
      rw [List.append_assoc, utf8Valid_enc_append e _ he]
      exact ih q.length (by rw [← hn, List.length_append]; omega) q b rfl hq hb

theorem utf8Valid_append (a b : List Nat) (ha : utf8Valid a = true) (hb : utf8Valid b = true) :
    utf8Valid (a ++ b) = true :=
  utf8Valid_append_aux a.length a b rfl ha hb

/-- A valid text that is not empty ends with the encoding of a rune, and what
is before it is valid. -/
theorem utf8Valid_unsnoc_aux (n : Nat) : ∀ v : List Nat, v.length = n → v ≠ [] →
    utf8Valid v = true → ∃ w e, v = w ++ e ∧ utf8Valid w = true ∧ IsEnc e := by
  induction n using Nat.strong_induction_on with
  | _ n ih =>
    intro v hn hne hv
    obtain ⟨e, q, rfl, he, hq⟩ := utf8Valid_uncons v hne hv
    have hel := isEnc_length e he
    by_cases hqn : q = []
    · subst hqn
      exact ⟨[], e, by simp, rfl, he⟩
    · obtain ⟨w, e', rfl, hw, he'⟩ :=
        ih q.length (by rw [← hn, List.length_append]; omega) q rfl hqn hq
      refine ⟨e ++ w, e', (List.append_assoc _ _ _).symm, ?_, he'⟩
      rw [utf8Valid_enc_append e w he]
      exact hw

theorem utf8Valid_unsnoc (v : List Nat) (hne : v ≠ []) (hv : utf8Valid v = true) :
    ∃ w e, v = w ++ e ∧ utf8Valid w = true ∧ IsEnc e :=
  utf8Valid_unsnoc_aux v.length v rfl hne hv

theorem utf8Valid_cut_aux (n : Nat) : ∀ a b : List Nat, a.length = n →
    utf8Valid (a ++ b) = true →
    ∃ v u, a = v ++ u ∧ utf8Valid v = true ∧ (u = [] ∨ IsCutEnc u) := by
  induction n using Nat.strong_induction_on with
  | _ n ih =>
    intro a b hn hv
    by_cases hnil : a = []
    · subst hnil
      exact ⟨[], [], rfl, rfl, Or.inl rfl⟩
    · have hne : a ++ b ≠ [] := fun h => hnil (List.append_eq_nil.mp h).1
      obtain ⟨e, q, heq, he, hq⟩ := utf8Valid_uncons (a ++ b) hne hv
      have hel := isEnc_length e he
      by_cases hlen : e.length ≤ a.length
      · -- the first encoding lies inside `a`
        have hea : e = a.take e.length := by
          have := congrArg (List.take e.length) heq
          rw [List.take_left, List.take_append_of_le_length hlen] at this
          exact this.symm
        have hqa : a.drop e.length ++ b = q := by
          have := congrArg (List.drop e.length) heq
          rw [List.drop_left, List.drop_append_of_le_length hlen] at this
          exact this
        obtain ⟨v, u, hvu, hv', hu⟩ := ih (a.drop e.length).length
          (by rw [← hn, List.length_drop]; omega) (a.drop e.length) b rfl
          (by rw [hqa]; exact hq)
        refine ⟨e ++ v, u, ?_, ?_, hu⟩
        · rw [List.append_assoc, ← hvu]
          conv_lhs => rw [← List.take_append_drop e.length a]
          rw [← hea]
        · rw [utf8Valid_enc_append e v he]
          exact hv'
      · -- `a` ends inside the first encoding
        refine ⟨[], a, rfl, rfl, Or.inr ⟨e, he, hnil, by omega, ?_⟩⟩
        have := congrArg (List.take a.length) heq
        rw [List.take_left, List.take_append_of_le_length (by omega)] at this
        exact this

/-- The beginning of a valid text is a valid text followed by nothing or by
the beginning of one encoding. -/
theorem utf8Valid_cut (a b : List Nat) (hv : utf8Valid (a ++ b) = true) :
    ∃ v u, a = v ++ u ∧ utf8Valid v = true ∧ (u = [] ∨ IsCutEnc u) :=
  utf8Valid_cut_aux a.length a b rfl hv

/-! ## The last rune -/

/-- The shape of the encoding of a rune: one byte below `0x80`, or a first byte
of the table with its length, followed by continuation bytes. -/
theorem isEnc_shape (e : List Nat) (he : IsEnc e) :
    (e.length = 1 ∧ e.getD 0 0 < 0x80) ∨
    (2 ≤ e.length ∧ (∃ sz lo hi, leadInfo (e.getD 0 0) = some (sz, lo, hi) ∧ sz = e.length) ∧
      ∀ j, 1 ≤ j → j < e.length → IsCont (e.getD j 0)) := by
  cases e with
  | nil => exact absurd he (by simp [IsEnc])
  | cons p0 rest =>
    rcases he with ⟨h0, hr⟩ | ⟨sz, lo, hi, hl, hlen, h1, h2, h3, h4⟩
    · subst hr
      exact Or.inl ⟨rfl, h0⟩
    · obtain ⟨_, _, hsz2, hsz4, hlo, hhi⟩ := leadInfo_some p0 sz lo hi hl
      right
      simp only [List.length_cons, List.getD_cons_zero]
      refine ⟨by omega, ⟨sz, lo, hi, hl, by omega⟩, ?_⟩
      intro j hj1 hj2
      obtain ⟨i, rfl⟩ : ∃ i, j = i + 1 := ⟨j - 1, by omega⟩
      rw [List.getD_cons_succ]
      have hi3 : i = 0 ∨ i = 1 ∨ i = 2 := by omega
      rcases hi3 with rfl | rfl | rfl
      · unfold IsCont; omega
      · exact h3 (by omega)
      · exact h4 (by omega)

theorem isCont_not_runeStart (b : Nat) (h : IsCont b) : runeStart b = false := by
  unfold IsCont at h
  simp [runeStart, h.1, h.2]

theorem lead_runeStart (l sz lo hi : Nat) (h : leadInfo l = some (sz, lo, hi)) :
    runeStart l = true := by
  have := leadInfo_some l sz lo hi h
  simp only [runeStart, Bool.not_eq_true', Bool.and_eq_false_iff, decide_eq_false_iff_not]
  right
  omega

theorem lastRuneScan_le (p : List Nat) (lim fuel k : Nat) : lastRuneScan p lim fuel k ≤ k := by
  induction fuel generalizing k with
  | zero => exact le_refl _
  | succ fuel ih =>
    unfold lastRuneScan
    split
    · split
      · exact le_refl _
      · exact (ih (k - 1)).trans (Nat.sub_le _ _)
    · exact le_refl _

/-- The backward scan steps over `t` continuation bytes and stops at the first
byte of an encoding. -/
theorem lastRuneScan_run (p : List Nat) (lim : Nat) (t : Nat) :
    ∀ fuel k, t < fuel → lim + t < k →
      (∀ i, i < t → runeStart (p.getD (k - 1 - i) 0) = false) →
      runeStart (p.getD (k - 1 - t) 0) = true →
      lastRuneScan p lim fuel k = k - t := by
  induction t with
  | zero =>
    intro fuel k hf hk _ hstart
    obtain ⟨f, rfl⟩ : ∃ f, fuel = f + 1 := ⟨fuel - 1, by omega⟩
    rw [lastRuneScan, if_pos (by omega), if_pos (by simpa using hstart)]
    rfl
  | succ t ih =>
    intro fuel k hf hk hcont hstart
    obtain ⟨f, rfl⟩ : ∃ f, fuel = f + 1 := ⟨fuel - 1, by omega⟩
    have h0 := hcont 0 (by omega)
    rw [Nat.sub_zero] at h0
    rw [lastRuneScan, if_pos (by omega), if_neg (by rw [h0]; simp),
      ih f (k - 1) (by omega) (by omega)]
    · omega
    · intro i hi
      have := hcont (i + 1) (by omega)
      rwa [show k - 1 - (i + 1) = k - 1 - 1 - i by omega] at this
    · rwa [show k - 1 - (t + 1) = k - 1 - 1 - t by omega] at hstart


theorem decodeLastRune_unfold (p : List Nat) (hp : p ≠ [])
    (hr : ¬ p.getD (p.length - 1) 0 < 0x80) :
    decodeLastRune p =
      if lastRuneScan p (p.length - 4) 4 (p.length - 1) - 1 +
          (decodeRune (p.drop (lastRuneScan p (p.length - 4) 4 (p.length - 1) - 1))).2 ≠
            p.length then (runeError, 1)
      else decodeRune (p.drop (lastRuneScan p (p.length - 4) 4 (p.length - 1) - 1)) := by
  have hlen : p.length ≠ 0 := fun h => hp (List.length_eq_zero.mp h)
  simp only [decodeLastRune, runeSelf, utfMax, if_neg hlen, if_neg hr]

/-- The last rune of a text that ends with a first byte and its continuation
bytes is decoded from that first byte. -/
theorem decodeLastRune_leadRun (w u : List Nat) (sz : Nat) (h : IsLeadRun u sz) :
    decodeLastRune (w ++ u) =
      if w.length + (decodeRune u).2 ≠ w.length + u.length then (runeError, 1)
      else decodeRune u := by
  obtain ⟨h2, hsz, hsz4, ⟨lo, hi, hl⟩, hcont⟩ := h
  have hlen : (w ++ u).length = w.length + u.length := List.length_append _ _
  have hget : ∀ j, j < u.length → (w ++ u).getD (w.length + j) 0 = u.getD j 0 := by
    intro j _
    rw [List.getD_append_right _ _ _ _ (by omega), Nat.add_sub_cancel_left]
  have hne : w ++ u ≠ [] := by
    intro h0
    have := congrArg List.length h0
    rw [hlen, List.length_nil] at this
    omega
  have hlast : ¬ (w ++ u).getD ((w ++ u).length - 1) 0 < 0x80 := by
    rw [hlen, show w.length + u.length - 1 = w.length + (u.length - 1) by omega,
      hget _ (by omega)]
    have := hcont (u.length - 1) (by omega) (by omega)
    unfold IsCont at this
    omega
  have hscan : lastRuneScan (w ++ u) ((w ++ u).length - 4) 4 ((w ++ u).length - 1) =
      w.length + 1 := by
    rw [lastRuneScan_run (w ++ u) _ (u.length - 2) 4 _ (by omega) (by rw [hlen]; omega)]
    · rw [hlen]; omega
    · intro i hi
      rw [hlen, show w.length + u.length - 1 - 1 - i = w.length + (u.length - 2 - i) by omega,
        hget _ (by omega)]
      exact isCont_not_runeStart _ (hcont _ (by omega) (by omega))
    · rw [hlen, show w.length + u.length - 1 - 1 - (u.length - 2) = w.length + 0 by omega,
        hget _ (by omega)]
      exact lead_runeStart _ _ _ _ hl
  rw [decodeLastRune_unfold _ hne hlast, hscan, Nat.add_sub_cancel, List.drop_left, hlen]

theorem isEnc_last (e : List Nat) (he : IsEnc e) :
    e.getD (e.length - 1) 0 < 0x80 ∨ IsCont (e.getD (e.length - 1) 0) := by
  rcases isEnc_shape e he with ⟨h1, h2⟩ | ⟨h1, _, h3⟩
  · left
    rw [h1]
    exact h2
  · right
    exact h3 _ (by omega) (by omega)

/-- A text whose last byte is neither below `0x80` nor a continuation byte has
an invalid last encoding. -/
theorem decodeLastRune_lead_last (p : List Nat) (hp : p ≠ [])
    (hb : 0xC0 ≤ p.getD (p.length - 1) 0) : decodeLastRune p = (runeError, 1) := by
  have hpos : 0 < p.length := List.length_pos.mpr hp
  rw [decodeLastRune_unfold p hp (by omega)]
  have hk := lastRuneScan_le p (p.length - 4) 4 (p.length - 1)
  generalize lastRuneScan p (p.length - 4) 4 (p.length - 1) = k at hk
  by_cases hne : k - 1 + (decodeRune (p.drop (k - 1))).2 ≠ p.length
  · rw [if_pos hne]
  · rw [if_neg hne]
    have heq : k - 1 + (decodeRune (p.drop (k - 1))).2 = p.length := by omega
    have hq : p.drop (k - 1) ≠ [] := by
      intro h0
      have := congrArg List.length h0
      rw [List.length_drop, List.length_nil] at this
      omega
    by_cases hinv : (decodeRune (p.drop (k - 1))).1 = runeError ∧
        (decodeRune (p.drop (k - 1))).2 = 1
    · exact Prod.ext hinv.1 hinv.2
    · exfalso
      have hv := decodeRune_valid _ hq hinv
      have hfull : (decodeRune (p.drop (k - 1))).2 = (p.drop (k - 1)).length := by
        rw [List.length_drop]; omega
      rw [hfull, List.take_length] at hv
      have hl := isEnc_last _ hv.2
      rw [getD_drop, List.length_drop,
        show k - 1 + (p.length - (k - 1) - 1) = p.length - 1 by omega] at hl
      unfold IsCont at hl
      omega

theorem decodeLastRune_ascii (w : List Nat) (a : Nat) (ha : a < 0x80) :
    decodeLastRune (w ++ [a]) = (a, 1) := by
  have hlen : (w ++ [a]).length ≠ 0 := by simp
  simp only [decodeLastRune, if_neg hlen, getD_last_concat, runeSelf, if_pos ha]

/-- The last encoding of a text that ends with the encoding of a rune is
valid. -/
theorem decodeLastRune_isEnc (w e : List Nat) (he : IsEnc e) :
    ¬ ((decodeLastRune (w ++ e)).1 = runeError ∧ (decodeLastRune (w ++ e)).2 = 1) := by
  rcases isEnc_shape e he with ⟨h1, h2⟩ | ⟨h1, ⟨sz, lo, hi, hl, hsz⟩, h3⟩
  · obtain ⟨a, rfl⟩ : ∃ a, e = [a] := List.length_eq_one.mp h1
    simp only [List.getD_cons_zero] at h2
    rw [decodeLastRune_ascii w a h2]
    rintro ⟨h, _⟩
    simp only [runeError] at h
    omega
  · have hrun : IsLeadRun e sz :=
      ⟨h1, by omega, (leadInfo_some _ _ _ _ hl).2.2.2.1, ⟨lo, hi, hl⟩, h3⟩
    have hd := decodeRune_isEnc e [] he
    rw [List.append_nil] at hd
    rw [decodeLastRune_leadRun w e sz hrun, if_neg (by omega)]
    rintro ⟨_, h⟩
    omega

/-- The last encoding of a text that ends inside the encoding of a rune is
invalid. -/
theorem decodeLastRune_cut (w u : List Nat) (hu : IsCutEnc u) :
    decodeLastRune (w ++ u) = (runeError, 1) := by
  obtain ⟨e, he, hne, hlt, htake⟩ := hu
  have hupos : 0 < u.length := List.length_pos.mpr hne
  have hget : ∀ j, j < u.length → u.getD j 0 = e.getD j 0 := by
    intro j hj
    have h1 : u.getD j 0 = (e.take u.length).getD j 0 :=
      congrArg (fun l => l.getD j 0) htake
    rw [h1, List.getD_eq_getElem?_getD, List.getD_eq_getElem?_getD,
      List.getElem?_take_of_lt hj]
  rcases isEnc_shape e he with ⟨h1, _⟩ | ⟨h1, ⟨sz, lo, hi, hl, hsz⟩, h3⟩
  · omega
  · have hl' : leadInfo (u.getD 0 0) = some (sz, lo, hi) := by rw [hget 0 hupos]; exact hl
    have hlead := leadInfo_some _ _ _ _ hl'
    by_cases h2 : 2 ≤ u.length
    · have hrun : IsLeadRun u sz :=
        ⟨h2, by omega, hlead.2.2.2.1, ⟨lo, hi, hl'⟩,
          fun j hj1 hj2 => by rw [hget j hj2]; exact h3 j hj1 (by omega)⟩
      have hdec : decodeRune u = (runeError, 1) := by
        cases u with
        | nil => exact absurd rfl hne
        | cons p0 rest =>
          exact decodeRune_short p0 rest sz lo hi hl' (by
            simp only [List.length_cons] at hlt; omega)
      rw [decodeLastRune_leadRun w u sz hrun, hdec, if_pos (by omega)]
    · have h1' : u.length = 1 := by omega
      obtain ⟨l, rfl⟩ : ∃ l, u = [l] := List.length_eq_one.mp h1'
      simp only [List.getD_cons_zero] at hlead
      exact decodeLastRune_lead_last _ (by simp) (by rw [getD_last_concat]; omega)

/-! ## looksLikeBinary on valid UTF-8 -/

theorem isCutEnc_length (u : List Nat) (hu : IsCutEnc u) : 1 ≤ u.length ∧ u.length ≤ 3 := by
  obtain ⟨e, he, hne, hlt, _⟩ := hu
  have := isEnc_length e he
  have := List.length_pos.mpr hne
  omega

/-- The loop of `looksLikeBinary` leaves a valid text as it is. -/
theorem looksLikeBinaryLoop_valid (n : Nat) (v : List Nat) (hv : utf8Valid v = true) :
    looksLikeBinaryLoop n v = v := by
  cases n with
  | zero => rfl
  | succ n =>
    by_cases hne : v = []
    · subst hne; rfl
    · obtain ⟨w, e, rfl, _, he⟩ := utf8Valid_unsnoc v hne hv
      have hd := decodeLastRune_isEnc w e he
      rw [looksLikeBinaryLoop, if_pos (List.length_pos.mpr hne), if_pos]
      by_contra hc
      exact hd ⟨by_contra fun h => hc (Or.inl h), by_contra fun h => hc (Or.inr h)⟩

/-- The loop of `looksLikeBinary` removes the beginning of an encoding that a
valid text was cut in. -/
theorem looksLikeBinaryLoop_cut (n : Nat) (v u : List Nat) (hv : utf8Valid v = true)
    (hu : u = [] ∨ IsCutEnc u) (hn : u.length ≤ n) : looksLikeBinaryLoop n (v ++ u) = v := by
  induction n generalizing u with
  | zero =>
    have : u = [] := List.length_eq_zero.mp (by omega)
    subst this
    rw [List.append_nil]
    rfl
  | succ n ih =>
    rcases hu with rfl | hcut
    · rw [List.append_nil]
      exact looksLikeBinaryLoop_valid _ v hv
    · have hlen := isCutEnc_length u hcut
      have hpos : (v ++ u).length > 0 := by rw [List.length_append]; omega
      rw [looksLikeBinaryLoop, if_pos hpos, decodeLastRune_cut v u hcut, if_neg (by simp)]
      have htake : (v ++ u).take ((v ++ u).length - 1) = v ++ u.take (u.length - 1) := by
        rw [List.length_append, List.take_append_eq_append_take,
          List.take_of_length_le (by omega)]
        congr 2
        omega
      rw [htake]
      apply ih
      · by_cases h1 : u.length = 1
        · left
          rw [h1]
          rfl
        · right
          obtain ⟨e, he, hne, hlt, hue⟩ := hcut
          refine ⟨e, he, ?_, ?_, ?_⟩
          · intro h0
            have := congrArg List.length h0
            rw [List.length_take, List.length_nil] at this
            omega
          · rw [List.length_take]; omega
          · have hl : (u.take (u.length - 1)).length = u.length - 1 := by
              rw [List.length_take]; omega
            rw [hl]
            have h3 : u.take (u.length - 1) = (e.take u.length).take (u.length - 1) :=
              congrArg (List.take (u.length - 1)) hue
            rw [h3, List.take_take, Nat.min_eq_left (by omega)]
      · rw [List.length_take]; omega

/-- A valid UTF-8 buffer does not look binary. -/
theorem looksLikeBinary_valid (s : List Nat) (hv : utf8Valid s = true) :
    looksLikeBinary s = false := by
  have hcut : ∃ v u, (if s.length > 1024 then s.take 1024 else s) = v ++ u ∧
      utf8Valid v = true ∧ (u = [] ∨ IsCutEnc u) := by
    split
    · exact utf8Valid_cut (s.take 1024) (s.drop 1024) (by rw [List.take_append_drop]; exact hv)
    · exact ⟨s, [], (List.append_nil s).symm, hv, Or.inl rfl⟩
  obtain ⟨v, u, heq, hv', hu⟩ := hcut
  have hlen : u.length ≤ 4 := by
    rcases hu with rfl | hu
    · simp
    · have := isCutEnc_length u hu
      omega
  unfold looksLikeBinary
  simp only
  rw [heq, looksLikeBinaryLoop_cut 4 v u hv' hu hlen, hv']
  rfl

/-- The classification of a buffer is the classification of its first 1024
bytes. -/
theorem looksLikeBinary_take (s : List Nat) :
    looksLikeBinary s = looksLikeBinary (s.take 1024) := by
  unfold looksLikeBinary
  simp only
  by_cases h : s.length > 1024
  · rw [if_pos h, if_neg (by rw [List.length_take]; omega)]
  · rw [if_neg h, List.take_of_length_le (by omega), if_neg h]

theorem utf8Valid_ascii (s : List Nat) (h : ∀ c ∈ s, c < 0x80) : utf8Valid s = true := by
  induction s with
  | nil => rfl
  | cons c s ih =>
    have hc : c < 0x80 := h c (List.mem_cons_self _ _)
    have he : IsEnc [c] := Or.inl ⟨hc, rfl⟩
    have := utf8Valid_enc_append [c] s he
    rw [List.singleton_append] at this
    rw [this]
    exact ih fun x hx => h x (List.mem_cons_of_mem _ hx)

theorem utf8Valid_invalid_head (c : Nat) (s : List Nat) (h1 : 0x80 ≤ c)
    (h2 : leadInfo c = none) : utf8Valid (c :: s) = false := by
  rw [utf8Valid_step _ (List.cons_ne_nil _ _), decodeRune_no_lead c s h1 h2, if_pos ⟨rfl, rfl⟩]

/-! ## Verifier claims -/

/-- C12 as stated fails.  In the file of the single line `0000000000000001 x` the
literal `x` re-parses to the pattern 0, which differs from the decoded prefix 1,
yet the failure is the parse error of `x` and carries no pattern.  In the file
of the lines `0000000000000000 x` and `0000000000000001 1` the first line whose
pattern differs from its prefix is the second, yet the failure is the parse
error of the first. -/
theorem parse_error_before_mismatch :
    (sampleParse (bytes "x")).bits ≠ decodeHex ((bytes "0000000000000001 x").take 16) ∧
    doVerify sampleParse ⟨[bytes "0000000000000001 x"], false⟩ = .error (.parse (bytes "x")) ∧
    (sampleParse (bytes "x")).bits = decodeHex ((bytes "0000000000000000 x").take 16) ∧
    (sampleParse (bytes "1")).bits ≠ decodeHex ((bytes "0000000000000001 1").take 16) ∧
    doVerify sampleParse ⟨[bytes "0000000000000000 x", bytes "0000000000000001 1"], false⟩ =
      .error (.parse (bytes "x")) := by
  decide

/-- C12, amended: fail-fast verification.  Let every line before `l` pass (it
is shorter than 18 bytes, or it parses with no error but the out-of-range one to
the pattern of its hex prefix) and let `l` be compared.  If the literal of `l`
parses with no error but the out-of-range one, to a pattern that differs from the
decoded prefix, `do` fails with the literal of `l`, the computed pattern and the
expected pattern, both as 16 upper-case hexadecimal characters; if the literal
of `l` gives any other parse error, `do` fails with that parse error of the
literal.  In both cases the result is the same whatever lines follow `l` and
whatever the scanner reports after them. -/
theorem fail_fast (parseFloat : FloatBoundary) (pre post : List (List Nat)) (l : List Nat)
    (e : Bool) (hpre : ∀ x ∈ pre, LinePasses parseFloat x) (hl : 18 ≤ l.length) :
    ((((parseFloat (l.drop 17)).err = ParseError.errRange ∨
        (parseFloat (l.drop 17)).err = ParseError.nil) ∧
      (parseFloat (l.drop 17)).bits ≠ decodeHex (l.take 16)) →
      doVerify parseFloat ⟨pre ++ l :: post, e⟩ =
        .error (.mismatch (l.drop 17) (sprintf016X (parseFloat (l.drop 17)).bits)
          (sprintf016X (decodeHex (l.take 16))))) ∧
    (((parseFloat (l.drop 17)).err ≠ ParseError.errRange ∧
      (parseFloat (l.drop 17)).err ≠ ParseError.nil) →
      doVerify parseFloat ⟨pre ++ l :: post, e⟩ = .error (.parse (l.drop 17))) ∧
    (sprintf016X (parseFloat (l.drop 17)).bits).length = 16 ∧
    (sprintf016X (decodeHex (l.take 16))).length = 16 ∧
    (∀ c ∈ sprintf016X (parseFloat (l.drop 17)).bits ++ sprintf016X (decodeHex (l.take 16)),
      isDigit c = true ∨ (65 ≤ c ∧ c ≤ 70)) := by
  refine ⟨?_, ?_, sprintf016X_length _, sprintf016X_length _, ?_⟩
  · rintro ⟨herr, hbits⟩
    apply doVerify_error
    rw [doLoop_append parseFloat pre _ 0 hpre]
    exact doLoop_mismatch parseFloat l post _ hl herr hbits
  · intro herr
    apply doVerify_error
    rw [doLoop_append parseFloat pre _ 0 hpre]
    exact doLoop_parse_error parseFloat l post _ hl herr
  · intro c hc
    rcases List.mem_append.mp hc with hc | hc
    · exact hexDigits_class _ _ c hc
    · exact hexDigits_class _ _ c hc

/-- Witness of C12 (amended): after a short line and a right line, the line
`3FF0000000000000 1.25` fails with both patterns, whatever follows. -/
theorem fail_fast_witness :
    (∀ x ∈ [bytes "# corpus", bytes "3FF0000000000000 1"], LinePasses sampleParse x) ∧
    doVerify sampleParse
      ⟨[bytes "# corpus", bytes "3FF0000000000000 1"] ++
        bytes "3FF0000000000000 1.25" :: [bytes "0000000000000000 x"], true⟩ =
      .error (.mismatch (bytes "1.25") (bytes "3FF4000000000000") (bytes "3FF0000000000000")) :=
  have hpre : ∀ x ∈ [bytes "# corpus", bytes "3FF0000000000000 1"], LinePasses sampleParse x := by
    intro x hx
    simp only [List.mem_cons, List.mem_singleton, List.not_mem_nil, or_false] at hx
    rcases hx with rfl | rfl
    · exact Or.inl (by decide)
    · exact Or.inr (by decide)
  ⟨hpre, ((fail_fast sampleParse [bytes "# corpus", bytes "3FF0000000000000 1"]
    [bytes "0000000000000000 x"] (bytes "3FF0000000000000 1.25") true hpre (by decide)).1
    (by decide)).trans (by decide)⟩

/-- C13: when `do` finishes without failure, the count it reports is the
number of lines of at least 18 bytes; lines shorter than 18 bytes are not
compared and cause no failure: with or without them, in any places, the result
of `do` is the same. -/
theorem verifier_count (parseFloat : FloatBoundary) (lines : List (List Nat)) (e : Bool) :
    (∀ n, doVerify parseFloat ⟨lines, e⟩ = .ok n →
      n = (lines.filter fun l => decide (18 ≤ l.length)).length) ∧
    doVerify parseFloat ⟨lines.filter fun l => decide (18 ≤ l.length), e⟩ =
      doVerify parseFloat ⟨lines, e⟩ ∧
    (∀ pre post short, lines = pre ++ short :: post → short.length < 18 →
      doVerify parseFloat ⟨pre ++ post, e⟩ = doVerify parseFloat ⟨lines, e⟩) := by
  have hfilter : doVerify parseFloat ⟨lines.filter fun l => decide (18 ≤ l.length), e⟩ =
      doVerify parseFloat ⟨lines, e⟩ := by
    unfold doVerify
    simp only
    rw [doLoop_filter]
  refine ⟨?_, hfilter, ?_⟩
  · intro n h
    unfold doVerify at h
    simp only at h
    cases hd : doLoop parseFloat lines 0 with
    | error err => rw [hd] at h; exact absurd h (by simp)
    | ok m =>
      rw [hd] at h
      have hm := doLoop_count parseFloat lines 0 m hd
      simp only at h
      split at h
      · exact absurd h (by simp)
      · simp only [Except.ok.injEq] at h
        omega
  · intro pre post short hlines hshort
    rw [← hfilter, hlines]
    have h2 : doVerify parseFloat ⟨(pre ++ post).filter fun l => decide (18 ≤ l.length), e⟩ =
        doVerify parseFloat ⟨pre ++ post, e⟩ := by
      unfold doVerify
      simp only
      rw [doLoop_filter]
    rw [← h2, List.filter_append, List.filter_append,
      List.filter_cons_of_neg (by simpa using hshort)]

/-- Witness of C13: a file of two lines that are compared and two that are
not. -/
theorem verifier_count_witness :
    doVerify sampleParse
      ⟨[bytes "", bytes "3FF0000000000000 1", bytes "# short", bytes "3FF4000000000000 1.25"],
        false⟩ = .ok 2 ∧
    2 = ([bytes "", bytes "3FF0000000000000 1", bytes "# short",
      bytes "3FF4000000000000 1.25"].filter fun l => decide (18 ≤ l.length)).length :=
  ⟨by decide,
    (verifier_count sampleParse
      [bytes "", bytes "3FF0000000000000 1", bytes "# short", bytes "3FF4000000000000 1.25"]
      false).1 2 (by decide)⟩

/-! ## Determinism and acceptance -/

/-- C11: determinism.  Whatever the order and the number of times the buffers
are scanned (so, whatever the order and the number of insertions of a literal),
and whatever the order in which `range` visits the keys of the Literal Set, the
lines printed are the same: the Corpus File is a function of the set of input
buffers only. -/
theorem corpus_deterministic (parseFloat : FloatBoundary) (bufs bufs' : List (List Nat))
    (keys keys' : List (List Nat))
    (hb : ∀ b, b ∈ bufs ↔ b ∈ bufs')
    (hk : keys.Perm (bufs.foldl (fun m src => doFile (some src) m) []))
    (hk' : keys'.Perm (bufs'.foldl (fun m src => doFile (some src) m) [])) :
    printSortedNumbers parseFloat keys = printSortedNumbers parseFloat keys' := by
  apply printSortedNumbers_eq_of_perm
  refine (hk.trans ?_).trans hk'.symm
  rw [List.perm_ext_iff_of_nodup (scanAll_nodup bufs [] List.nodup_nil)
    (scanAll_nodup bufs' [] List.nodup_nil)]
  intro s
  rw [mem_scanAll, mem_scanAll]
  constructor
  · rintro (h | ⟨b, hbm, hs⟩)
    · exact Or.inl h
    · exact Or.inr ⟨b, (hb b).mp hbm, hs⟩
  · rintro (h | ⟨b, hbm, hs⟩)
    · exact Or.inl h
    · exact Or.inr ⟨b, (hb b).mpr hbm, hs⟩

/-- Witness of C11: two buffers scanned in one order, and in the other order
with one of them twice and the keys visited backwards. -/
theorem corpus_deterministic_witness :
    [bytes "789 1", bytes "1 1.25"].foldl (fun m src => doFile (some src) m) [] =
      [bytes "789", bytes "1", bytes "1.25"] ∧
    [bytes "1 1.25", bytes "789 1", bytes "1 1.25"].foldl
      (fun m src => doFile (some src) m) [] = [bytes "1", bytes "1.25", bytes "789"] ∧
    printSortedNumbers sampleParse [bytes "789", bytes "1", bytes "1.25"] =
      printSortedNumbers sampleParse [bytes "789", bytes "1.25", bytes "1"] :=
  ⟨by decide, by decide,
    corpus_deterministic sampleParse [bytes "789 1", bytes "1 1.25"]
      [bytes "1 1.25", bytes "789 1", bytes "1 1.25"]
      [bytes "789", bytes "1", bytes "1.25"] [bytes "789", bytes "1.25", bytes "1"]
      (fun b => by
        simp only [List.mem_cons, List.mem_singleton, List.not_mem_nil, or_false]
        tauto)
      (by rw [show [bytes "789 1", bytes "1 1.25"].foldl (fun m src => doFile (some src) m) [] =
        [bytes "789", bytes "1", bytes "1.25"] by decide])
      (by
        rw [show [bytes "1 1.25", bytes "789 1", bytes "1 1.25"].foldl
          (fun m src => doFile (some src) m) [] = [bytes "1", bytes "1.25", bytes "789"] by decide]
        decide)⟩

/-- C14: take a Float Boundary that, when it returns an error together with
`+Inf`, returns the out-of-range error, as `strconv.ParseFloat` does.  For every
literal of the Literal Set the builder emits a line for the literal if and only
if parsing reports success, or parsing reports the out-of-range error and the
value returned is `+Inf`; the line is then the one of its pattern and text; and
a literal whose parse gives any other error is dropped.  The test the builder
makes is `(err == nil) || (f == inf)`. -/
theorem builder_accepts (parseFloat : FloatBoundary) (numbers : List (List Nat))
    (n : List Nat)
    (hrange : ∀ m, (parseFloat m).err ≠ ParseError.nil → (parseFloat m).bits = posInfBits →
      (parseFloat m).err = ParseError.errRange)
    (hn : n ∈ numbers) :
    ((∃ l ∈ printSortedNumbers parseFloat numbers, l.drop 17 = n) ↔
      ((parseFloat n).err = ParseError.nil ∨
        ((parseFloat n).err = ParseError.errRange ∧ (parseFloat n).bits = posInfBits))) ∧
    (∀ l ∈ printSortedNumbers parseFloat numbers, l.drop 17 = n →
      l = corpusLine (parseFloat n) n) ∧
    (((parseFloat n).err ≠ ParseError.nil ∧
        ¬ ((parseFloat n).err = ParseError.errRange ∧ (parseFloat n).bits = posInfBits)) →
      ∀ l ∈ printSortedNumbers parseFloat numbers, l.drop 17 ≠ n) ∧
    ((∃ l ∈ printSortedNumbers parseFloat numbers, l.drop 17 = n) ↔
      ((parseFloat n).err = ParseError.nil ∨ (parseFloat n).bits = posInfBits)) := by
  have hguard : (∃ l ∈ printSortedNumbers parseFloat numbers, l.drop 17 = n) ↔
      ((parseFloat n).err = ParseError.nil ∨ (parseFloat n).bits = posInfBits) := by
    constructor
    · rintro ⟨l, hl, hd⟩
      obtain ⟨m, _, hacc, hlm⟩ := (mem_printSortedNumbers _ _ _).mp hl
      rw [hlm, corpusLine_drop] at hd
      rw [← hd]
      simpa [accepted] using hacc
    · intro h
      refine ⟨corpusLine (parseFloat n) n, ?_, corpusLine_drop _ _⟩
      exact (mem_printSortedNumbers _ _ _).mpr ⟨n, hn, by simpa [accepted] using h, rfl⟩
  have hiff : (∃ l ∈ printSortedNumbers parseFloat numbers, l.drop 17 = n) ↔
      ((parseFloat n).err = ParseError.nil ∨
        ((parseFloat n).err = ParseError.errRange ∧ (parseFloat n).bits = posInfBits)) := by
    rw [hguard]
    constructor
    · rintro (h | h)
      · exact Or.inl h
      · by_cases hnil : (parseFloat n).err = ParseError.nil
        · exact Or.inl hnil
        · exact Or.inr ⟨hrange n hnil h, h⟩
    · rintro (h | ⟨_, h⟩)
      · exact Or.inl h
      · exact Or.inr h
  refine ⟨hiff, ?_, ?_, hguard⟩
  · intro l hl hd
    obtain ⟨m, _, _, hlm⟩ := (mem_printSortedNumbers _ _ _).mp hl
    rw [hlm, corpusLine_drop] at hd
    rw [hlm, hd]
  · rintro ⟨h1, h2⟩ l hl hd
    rcases hiff.mp ⟨l, hl, hd⟩ with h | h
    · exact h1 h
    · exact h2 h

/-- Witness of C14: of the keys `123.456e789` (out of range, `+Inf`) and `.e5`
(syntax error), the first is emitted and the second is dropped. -/
theorem builder_accepts_witness :
    printSortedNumbers sampleParse [bytes ".e5", bytes "123.456e789"] =
      [bytes "7FF0000000000000 123.456e789"] ∧
    (∃ l ∈ printSortedNumbers sampleParse [bytes ".e5", bytes "123.456e789"],
      l.drop 17 = bytes "123.456e789") ∧
    (∀ l ∈ printSortedNumbers sampleParse [bytes ".e5", bytes "123.456e789"],
      l.drop 17 ≠ bytes ".e5") :=
  ⟨by decide,
    (builder_accepts sampleParse [bytes ".e5", bytes "123.456e789"] (bytes "123.456e789")
      sampleParse_range (by decide)).1.mpr (by decide),
    (builder_accepts sampleParse [bytes ".e5", bytes "123.456e789"] (bytes ".e5")
      sampleParse_range (by decide)).2.2.1 (by decide)⟩

/-- C17: the text `%016X` preserves order: for 64-bit `a` and `b`, the text of `a`
is byte-wise lexicographically less than the text of `b` if and only if `a < b`.
Hence in the lines printed by the builder, for a Float Boundary that returns
64-bit patterns, the pattern of a line is at most the pattern of every later
line, as unsigned integers; the pattern of a line is the one its 16 hexadecimal
characters decode to. -/
theorem hex_order_preserving (a b : Nat) (ha : a < 2 ^ 64) (hb : b < 2 ^ 64)
    (parseFloat : FloatBoundary) (numbers : List (List Nat))
    (hbits : ∀ n, (parseFloat n).bits < 2 ^ 64) :
    (stringLess (sprintf016X a) (sprintf016X b) = true ↔ a < b) ∧
    (printSortedNumbers parseFloat numbers).Pairwise
      (fun l1 l2 => decodeHex (l1.take 16) ≤ decodeHex (l2.take 16)) ∧
    (∀ l ∈ printSortedNumbers parseFloat numbers,
      decodeHex (l.take 16) = (parseFloat (l.drop 17)).bits) := by
  have hdec : ∀ l ∈ printSortedNumbers parseFloat numbers,
      ∃ n, l = corpusLine (parseFloat n) n ∧
        decodeHex (l.take 16) = (parseFloat n).bits := by
    intro l hl
    obtain ⟨n, _, _, hln⟩ := (mem_printSortedNumbers _ _ _).mp hl
    exact ⟨n, hln, by rw [hln, corpusLine_take, decodeHex_sprintf016X _ (hbits n)]⟩
  refine ⟨stringLess_sprintf016X a b ha hb, ?_, ?_⟩
  · have hs : (printSortedNumbers parseFloat numbers).Pairwise stringLE := by
      rw [printSortedNumbers_eq]
      exact sortStrings_sorted _
    refine hs.imp_of_mem ?_
    intro l1 l2 h1 h2 hle
    obtain ⟨n1, hl1, hd1⟩ := hdec l1 h1
    obtain ⟨n2, hl2, hd2⟩ := hdec l2 h2
    rw [hd1, hd2]
    rw [hl1, hl2] at hle
    exact corpusLine_le _ _ _ _ (hbits n1) (hbits n2) hle
  · intro l hl
    obtain ⟨n, hln, hd⟩ := hdec l hl
    rw [hd, hln, corpusLine_drop]

/-- Witness of C17: the patterns of 1.25 and of 789, and the lines of the
package comment. -/
theorem hex_order_preserving_witness :
    (stringLess (sprintf016X 0x3FF4000000000000) (sprintf016X 0x4088A80000000000) = true ↔
      0x3FF4000000000000 < 0x4088A80000000000) ∧
    (printSortedNumbers sampleParse [bytes "789", bytes "123.456e789", bytes "1.25",
      bytes "1"]).map (fun l => decodeHex (l.take 16)) =
      [0x3FF0000000000000, 0x3FF4000000000000, 0x4088A80000000000, 0x7FF0000000000000] :=
  ⟨(hex_order_preserving 0x3FF4000000000000 0x4088A80000000000 (by decide) (by decide)
    sampleParse [] sampleParse_bits).1, by decide⟩

/-! ## The binary-buffer heuristic -/

/-- C15 as stated fails: the buffer of the byte `0xFF` followed by 1024 letters
`a` and the buffer of 1025 letters `a` have the same final 1024 bytes, yet the
first looks binary and the second does not. -/
theorem same_tail_other_class :
    (0xFF :: List.replicate 1024 97).drop ((0xFF :: List.replicate 1024 97).length - 1024) =
      (List.replicate 1025 97).drop ((List.replicate 1025 97).length - 1024) ∧
    looksLikeBinary (0xFF :: List.replicate 1024 97) = true ∧
    looksLikeBinary (List.replicate 1025 97) = false := by
  refine ⟨?_, ?_, ?_⟩
  · simp only [List.length_cons, List.length_replicate]
    rfl
  · rw [looksLikeBinary_take]
    have h1 : (0xFF :: List.replicate 1024 97).take 1024 =
        (0xFF :: List.replicate 1022 97) ++ [97] := by
      rw [show (1024 : Nat) = 1023 + 1 from rfl, List.take_succ_cons, List.take_replicate,
        show min 1023 (1023 + 1) = 1022 + 1 from rfl, List.replicate_succ']
      rfl
    have h2 : looksLikeBinaryLoop 4 ((0xFF :: List.replicate 1022 97) ++ [97]) =
        (0xFF :: List.replicate 1022 97) ++ [97] := by
      rw [looksLikeBinaryLoop, if_pos (by rw [List.length_append]; simp only [List.length_singleton]; omega),
        decodeLastRune_ascii _ 97 (by decide), if_pos (Or.inl (by decide))]
    have h3 : ¬ ((0xFF :: List.replicate 1022 97) ++ [97]).length > 1024 := by
      rw [List.length_append, List.length_cons, List.length_replicate]
      decide
    rw [h1]
    unfold looksLikeBinary
    simp only
    rw [if_neg h3, h2, List.cons_append,
      utf8Valid_invalid_head 0xFF _ (by decide) (by decide)]
    rfl
  · exact looksLikeBinary_valid _ (utf8Valid_ascii _ (fun c hc => by
      rw [List.eq_of_mem_replicate hc]; decide))

/-- C15, amended: `looksLikeBinary` inspects at most the first 1024 bytes of the
buffer: the classification of a buffer is that of its first 1024 bytes, so any
two buffers whose first 1024 bytes are equal receive the same classification. -/
theorem first_bytes_classify (a b : List Nat) (h : a.take 1024 = b.take 1024) :
    looksLikeBinary a = looksLikeBinary (a.take 1024) ∧
    looksLikeBinary a = looksLikeBinary b := by
  refine ⟨looksLikeBinary_take a, ?_⟩
  rw [looksLikeBinary_take a, looksLikeBinary_take b, h]

/-- Witness of C15 (amended): two buffers of 1024 letters `a` followed by
different bytes. -/
theorem first_bytes_classify_witness :
    (List.replicate 1024 97 ++ [0xFF, 0xFE]).take 1024 =
      (List.replicate 1024 97 ++ [98]).take 1024 ∧
    looksLikeBinary (List.replicate 1024 97 ++ [0xFF, 0xFE]) =
      looksLikeBinary (List.replicate 1024 97 ++ [98]) :=
  have h : (List.replicate 1024 97 ++ [0xFF, 0xFE]).take 1024 =
      (List.replicate 1024 97 ++ [98]).take 1024 := by
    rw [List.take_left' (List.length_replicate _ _), List.take_left' (List.length_replicate _ _)]
  ⟨h, (first_bytes_classify _ _ h).2⟩

/-- C19: for every byte buffer that is well-formed UTF-8, of any length,
`looksLikeBinary` returns false (also when the buffer is longer than 1024 bytes
and the cut at 1024 bytes falls inside the encoding of a rune), so `doFile`
scans the buffer. -/
theorem valid_text_not_binary (s : List Nat) (hv : utf8Valid s = true) :
    looksLikeBinary s = false ∧
    ∀ numbers, doFile (some s) numbers = doFileScan s numbers := by
  have h := looksLikeBinary_valid s hv
  refine ⟨h, fun numbers => ?_⟩
  unfold doFile
  simp only
  rw [h]
  rfl

/-- Witness of C19: 1023 letters `a` followed by the three bytes of the euro
sign and a digit; the cut at 1024 bytes falls after the first byte of the
sign. -/
theorem valid_text_not_binary_witness :
    utf8Valid (List.replicate 1023 97 ++ [0xE2, 0x82, 0xAC, 55]) = true ∧
    (List.replicate 1023 97 ++ [0xE2, 0x82, 0xAC, 55]).take 1024 =
      List.replicate 1023 97 ++ [0xE2] ∧
    looksLikeBinary (List.replicate 1023 97 ++ [0xE2, 0x82, 0xAC, 55]) = false :=
  have hv : utf8Valid (List.replicate 1023 97 ++ [0xE2, 0x82, 0xAC, 55]) = true :=
    utf8Valid_append _ _
      (utf8Valid_ascii _ (fun c hc => by rw [List.eq_of_mem_replicate hc]; decide))
      (by decide)
  ⟨hv, by
    rw [show (1024 : Nat) = (List.replicate 1023 97).length + 1 by
      rw [List.length_replicate], List.take_append]
    rfl,
    (valid_text_not_binary _ hv).1⟩

/-! ## The directory recursion -/

theorem takeWhile_element_pos (path : List Nat) (r : Nat) (hr : r < path.length)
    (hc : (path.getD r 0 == 47) = false) :
    0 < ((path.drop r).takeWhile fun c => c != 47).length := by
  rw [drop_eq_getD_cons path r hr, List.takeWhile_cons]
  have : (path.getD r 0 != 47) = true := by
    rw [bne, hc]
    rfl
  rw [this]
  simp

/-- One iteration more than `len(path) - r` changes nothing. -/
theorem cleanLoop_fuel_succ (path : List Nat) (rooted : Bool) (fuel r : Nat) (out : List Nat)
    (dotdot : Nat) (hf : path.length - r ≤ fuel) :
    cleanLoop path rooted (fuel + 1) r out dotdot = cleanLoop path rooted fuel r out dotdot := by
  induction fuel generalizing r out dotdot with
  | zero =>
    have : ¬ r < path.length := by omega
    simp only [cleanLoop, if_neg this]
  | succ fuel ih =>
    by_cases hr : r < path.length
    · rw [cleanLoop]
      conv_rhs => rw [cleanLoop]
      simp only [if_pos hr]
      split
      · exact ih _ _ _ (by omega)
      · rename_i hsep
        split
        · exact ih _ _ _ (by omega)
        · split
          · split
            · exact ih _ _ _ (by omega)
            · split
              · exact ih _ _ _ (by omega)
              · exact ih _ _ _ (by omega)
          · have := takeWhile_element_pos path r hr (Bool.eq_false_iff.mpr hsep)
            exact ih _ _ _ (by omega)
    · simp only [cleanLoop, if_neg hr]

/-- With at least `len(path) - r` iterations the loop of `filepath.Clean` gives
what it gives with exactly that many. -/
theorem cleanLoop_fuel (path : List Nat) (rooted : Bool) (fuel r : Nat) (out : List Nat)
    (dotdot : Nat) (hf : path.length - r ≤ fuel) :
    cleanLoop path rooted fuel r out dotdot =
      cleanLoop path rooted (path.length - r) r out dotdot := by
  induction fuel with
  | zero =>
    have : path.length - r = 0 := by omega
    rw [this]
  | succ fuel ih =>
    by_cases h : path.length - r = fuel + 1
    · rw [h]
    · rw [cleanLoop_fuel_succ path rooted fuel r out dotdot (by omega)]
      exact ih (by omega)

theorem takeWhile_plain (name : List Nat) (h : 47 ∉ name) :
    (name.takeWhile fun c => c != 47) = name := by
  rw [List.takeWhile_eq_self_iff]
  intro c hc
  simp only [bne_iff_ne, ne_eq]
  rintro rfl
  exact h hc

/-- Under the directory `.` the path of an entry is its name. -/
theorem joinPath_root (name : List Nat) (h : IsPlainName name) :
    joinPath [46] name = name := by
  obtain ⟨hne, hsep, hdot, hdotdot⟩ := h
  obtain ⟨c, t, rfl⟩ := List.exists_cons_of_ne_nil hne
  have hc : c ≠ 47 := fun h => hsep (h ▸ List.mem_cons_self _ _)
  have hc' : (c == 47) = false := by simpa using hc
  have htw := takeWhile_plain (c :: t) hsep
  have hcase2 : ((c == 46) && ((2 + 1 == (46 :: 47 :: c :: t).length) ||
      ((46 :: 47 :: c :: t).getD (2 + 1) 0 == 47))) = false := by
    cases t with
    | nil =>
      have : c ≠ 46 := fun h => hdot (by rw [h])
      simp [this]
    | cons d u =>
      have hd : d ≠ 47 := fun h => hsep (h ▸ List.mem_cons_of_mem _ (List.mem_cons_self _ _))
      simp [hd]
  have hcase3 : ((c == 46) && ((46 :: 47 :: c :: t).getD (2 + 1) 0 == 46) &&
      ((2 + 2 == (46 :: 47 :: c :: t).length) ||
        ((46 :: 47 :: c :: t).getD (2 + 2) 0 == 47))) = false := by
    cases t with
    | nil => simp
    | cons d u =>
      cases u with
      | nil =>
        have : ¬ (c = 46 ∧ d = 46) := fun h => hdotdot (by rw [h.1, h.2])
        simp only [List.getD_cons_succ, List.getD_cons_zero, List.length_cons, List.length_nil]
        simp
        tauto
      | cons e v =>
        have he : e ≠ 47 := fun h =>
          hsep (h ▸ List.mem_cons_of_mem _ (List.mem_cons_of_mem _ (List.mem_cons_self _ _)))
        simp [he]
  unfold joinPath
  rw [if_pos (by decide)]
  unfold filepathClean
  rw [if_neg (by simp)]
  simp only
  have hroot : ((([46] : List Nat) ++ [47] ++ c :: t).getD 0 0 == 47) = false := by rfl
  rw [hroot]
  simp only [Bool.false_eq_true, if_false]
  have hpath : ([46] : List Nat) ++ [47] ++ c :: t = 46 :: 47 :: c :: t := rfl
  rw [hpath]
  have hlen : (46 :: 47 :: c :: t).length = t.length + 1 + 1 + 1 := by
    simp only [List.length_cons]
  have h0 : cleanLoop (46 :: 47 :: c :: t) false (t.length + 1 + 1 + 1) 0 [] 0 =
      cleanLoop (46 :: 47 :: c :: t) false (t.length + 1 + 1) 1 [] 0 := by
    rw [cleanLoop, if_pos (by rw [hlen]; omega)]
    have e1 : ((46 :: 47 :: c :: t).getD 0 0 == 47) = false := rfl
    have e2 : (((46 :: 47 :: c :: t).getD 0 0 == 46) &&
        ((0 + 1 == (46 :: 47 :: c :: t).length) ||
          ((46 :: 47 :: c :: t).getD (0 + 1) 0 == 47))) = true := by
      simp
    rw [e1]
    simp only [Bool.false_eq_true, if_false]
    rw [e2]
    simp only [if_true]
  have h1 : cleanLoop (46 :: 47 :: c :: t) false (t.length + 1 + 1) 1 [] 0 =
      cleanLoop (46 :: 47 :: c :: t) false (t.length + 1) 2 [] 0 := by
    rw [cleanLoop, if_pos (by rw [hlen]; omega)]
    have e1 : ((46 :: 47 :: c :: t).getD 1 0 == 47) = true := rfl
    rw [e1]
    simp only [if_true]
  have h2 : cleanLoop (46 :: 47 :: c :: t) false (t.length + 1) 2 [] 0 =
      cleanLoop (46 :: 47 :: c :: t) false t.length (2 + (c :: t).length) (c :: t) 0 := by
    rw [cleanLoop, if_pos (by rw [hlen]; omega)]
    have hg : (46 :: 47 :: c :: t).getD 2 0 = c := rfl
    rw [hg, hc']
    simp only [Bool.false_eq_true, if_false]
    rw [hcase2, hcase3]
    simp only [Bool.false_eq_true, if_false]
    have hd : (46 :: 47 :: c :: t).drop 2 = c :: t := rfl
    rw [hd, htw]
    simp
  have h3 : cleanLoop (46 :: 47 :: c :: t) false t.length (2 + (c :: t).length) (c :: t) 0 =
      c :: t := by
    cases ht : t.length with
    | zero => rfl
    | succ k =>
      rw [cleanLoop, if_neg]
      rw [hlen, List.length_cons]
      omega
  rw [hlen, h0, h1, h2, h3]
  simp

theorem visited_nil (join : List Nat → List Nat → List Nat) (dir : List Nat)
    (content : Option (List Nat)) : ¬ Visited join .nil dir content := by
  intro h
  cases h

theorem visited_file (join : List Nat → List Nat → List Nat) (name : List Nat)
    (c : Option (List Nat)) (rest : FsEntries) (dir : List Nat) (content : Option (List Nat)) :
    Visited join (.cons name (.file c) rest) dir content ↔
      content = c ∨ Visited join rest dir content := by
  constructor
  · intro h
    cases h with
    | file => exact Or.inl rfl
    | next _ _ _ _ _ h => exact Or.inr h
  · rintro (rfl | h)
    · exact Visited.file _ _ _ _
    · exact Visited.next _ _ _ _ _ h

theorem visited_dir (join : List Nat → List Nat → List Nat) (name : List Nat)
    (entries rest : FsEntries) (dir : List Nat) (content : Option (List Nat)) :
    Visited join (.cons name (.dir entries) rest) dir content ↔
      (¬ ((join dir name).length > 1 ∧ (join dir name).getD 0 0 = 46) ∧
        Visited join entries (join dir name) content) ∨ Visited join rest dir content := by
  constructor
  · intro h
    cases h with
    | sub _ _ _ _ _ h1 h2 => exact Or.inl ⟨h1, h2⟩
    | next _ _ _ _ _ h => exact Or.inr h
  · rintro (⟨h1, h2⟩ | h)
    · exact Visited.sub _ _ _ _ _ h1 h2
    · exact Visited.next _ _ _ _ _ h

theorem visited_unreadable (join : List Nat → List Nat → List Nat) (name : List Nat)
    (rest : FsEntries) (dir : List Nat) (content : Option (List Nat)) :
    Visited join (.cons name .unreadable rest) dir content ↔ Visited join rest dir content := by
  constructor
  · intro h
    cases h with
    | next _ _ _ _ _ h => exact h
  · exact Visited.next _ _ _ _ _

/-- A directory is skipped exactly on the test of line 73. -/
theorem doDir_dir (join : List Nat → List Nat → List Nat) (entries : FsEntries)
    (filename : List Nat) (numbers : List (List Nat)) :
    doDir join (.dir entries) filename numbers =
      if filename.length > 1 ∧ filename.getD 0 0 = 46 then numbers
      else doEntries join entries filename numbers := by
  rw [doDir]
  by_cases h : filename.length > 1 ∧ filename.getD 0 0 = 46
  · rw [if_pos h, if_pos]
    rw [h.2]
    simp only [decide_eq_true h.1, beq_self_eq_true, Bool.and_self]
  · rw [if_neg h, if_neg]
    intro hc
    rw [Bool.and_eq_true] at hc
    exact h ⟨of_decide_eq_true hc.1, eq_of_beq hc.2⟩

/-- The literals the recursion adds are those of the files it reaches. -/
theorem mem_doEntries_iff (join : List Nat → List Nat → List Nat) :
    ∀ (entries : FsEntries) (dir : List Nat) (numbers : List (List Nat)) (s : List Nat),
      s ∈ doEntries join entries dir numbers ↔
        s ∈ numbers ∨ ∃ content, Visited join entries dir content ∧ s ∈ doFile content []
  | .nil, dir, numbers, s => by
    rw [doEntries]
    constructor
    · exact Or.inl
    · rintro (h | ⟨c, h, _⟩)
      · exact h
      · exact absurd h (visited_nil join dir c)
  | .cons name (.file c) rest, dir, numbers, s => by
    rw [doEntries, mem_doEntries_iff join rest dir _ s, mem_doFile_iff]
    simp only [visited_file]
    constructor
    · rintro ((h | h) | ⟨c', h, hs⟩)
      · exact Or.inl h
      · exact Or.inr ⟨c, Or.inl rfl, h⟩
      · exact Or.inr ⟨c', Or.inr h, hs⟩
    · rintro (h | ⟨c', rfl | h, hs⟩)
      · exact Or.inl (Or.inl h)
      · exact Or.inl (Or.inr hs)
      · exact Or.inr ⟨c', h, hs⟩
  | .cons name (.dir entries) rest, dir, numbers, s => by
    rw [doEntries, mem_doEntries_iff join rest dir _ s, doDir_dir]
    simp only [visited_dir]
    by_cases hg : (join dir name).length > 1 ∧ (join dir name).getD 0 0 = 46
    · rw [if_pos hg]
      constructor
      · rintro (h | ⟨c', h, hs⟩)
        · exact Or.inl h
        · exact Or.inr ⟨c', Or.inr h, hs⟩
      · rintro (h | ⟨c', ⟨h1, _⟩ | h, hs⟩)
        · exact Or.inl h
        · exact absurd hg h1
        · exact Or.inr ⟨c', h, hs⟩
    · rw [if_neg hg, mem_doEntries_iff join entries (join dir name) numbers s]
      constructor
      · rintro ((h | ⟨c', h, hs⟩) | ⟨c', h, hs⟩)
        · exact Or.inl h
        · exact Or.inr ⟨c', Or.inl ⟨hg, h⟩, hs⟩
        · exact Or.inr ⟨c', Or.inr h, hs⟩
      · rintro (h | ⟨c', ⟨_, h⟩ | h, hs⟩)
        · exact Or.inl (Or.inl h)
        · exact Or.inl (Or.inr ⟨c', h, hs⟩)
        · exact Or.inr ⟨c', h, hs⟩
  | .cons name .unreadable rest, dir, numbers, s => by
    rw [doEntries, mem_doEntries_iff join rest dir _ s, doDir]
    simp only [visited_unreadable]

/-- C16 as stated fails.  Under the root `.` the file `.n` is scanned although
its name begins with `'.'`, and so is the directory `a/.h`; and the file `n`,
whose name does not begin with `'.'`, is skipped under the argument `./sub`
because of the path of its parent. -/
theorem dot_entries_counterexample :
    doDir joinPath (.dir (.cons (bytes ".n") (.file (some (bytes "42"))) .nil)) (bytes ".") [] =
      [bytes "42"] ∧
    doDir joinPath
      (.dir (.cons (bytes "a")
        (.dir (.cons (bytes ".h") (.dir (.cons (bytes "y") (.file (some (bytes "8"))) .nil))
          .nil)) .nil)) (bytes ".") [] = [bytes "8"] ∧
    doDir joinPath (.dir (.cons (bytes "n") (.file (some (bytes "42"))) .nil)) (bytes "./sub")
      [] = [] := by
  decide

/-- C16, amended.  A directory is skipped, with everything below it, when the
path `doDir` is called with is longer than one byte and begins with `'.'`.  A
directory with any other path, the root `.` among them, is read wherever it
sits in the tree: its entries are gone through, a file entry is given to
`doFile` whatever its name, and a directory entry is given to `doDir` with the
joined path.  So the literals added are exactly those of the files reached
through directories none of which has such a path.  For the entries of the root
`.`, whose path is their name, a directory is skipped exactly when its name
begins with `'.'`. -/
theorem dot_path_skipped (join : List Nat → List Nat → List Nat) (filename : List Nat)
    (node : FsNode) (numbers : List (List Nat))
    (hlen : filename.length > 1) (hdot : filename.getD 0 0 = 46) :
    doDir join node filename numbers = numbers ∧
    (∀ entries dir nums, ¬ (dir.length > 1 ∧ dir.getD 0 0 = 46) →
      doDir join (.dir entries) dir nums = doEntries join entries dir nums) ∧
    (∀ entries nums, doDir join (.dir entries) [46] nums = doEntries join entries [46] nums) ∧
    (∀ name content rest dir nums s, s ∈ doFile content [] →
      s ∈ doEntries join (.cons name (.file content) rest) dir nums) ∧
    (∀ entries dir nums s, s ∈ doEntries join entries dir nums ↔
      s ∈ nums ∨ ∃ content, Visited join entries dir content ∧ s ∈ doFile content []) ∧
    (∀ name, IsPlainName name → joinPath [46] name = name) ∧
    (∀ name entries rest nums, IsPlainName name →
      doEntries joinPath (.cons name (.dir entries) rest) [46] nums =
        if name.getD 0 0 = 46 then doEntries joinPath rest [46] nums
        else doEntries joinPath rest [46] (doEntries joinPath entries name nums)) := by
  refine ⟨?_, ?_, ?_, ?_, mem_doEntries_iff join, joinPath_root, ?_⟩
  · cases node with
    | dir entries => rw [doDir_dir, if_pos ⟨hlen, hdot⟩]
    | file c => rw [doDir]
    | unreadable => rw [doDir]
  · intro entries dir nums h
    rw [doDir_dir, if_neg h]
  · intro entries nums
    rw [doDir_dir, if_neg]
    decide
  · intro name content rest dir nums s hs
    exact (mem_doEntries_iff join _ dir nums s).mpr
      (Or.inr ⟨content, Visited.file _ _ _ _, hs⟩)
  · intro name entries rest nums hname
    rw [doEntries, joinPath_root name hname, doDir_dir]
    obtain ⟨hne, _, hdot1, _⟩ := hname
    obtain ⟨c, t, rfl⟩ := List.exists_cons_of_ne_nil hne
    by_cases hc : (c :: t).getD 0 0 = 46
    · have hl : (c :: t).length > 1 := by
        cases t with
        | nil => exact absurd (by rw [List.getD_cons_zero] at hc; rw [hc]) hdot1
        | cons d u => simp only [List.length_cons]; omega
      rw [if_pos ⟨hl, hc⟩, if_pos hc]
    · rw [if_neg (fun h => hc h.2), if_neg hc]

/-- Witness of C16 (amended): the directory `.git`, and the root `.` that
holds it next to the file `n`. -/
theorem dot_path_skipped_witness :
    doDir joinPath (.dir (.cons (bytes "x") (.file (some (bytes "7"))) .nil)) (bytes ".git")
      [] = [] ∧
    doDir joinPath
      (.dir (.cons (bytes ".git") (.dir (.cons (bytes "x") (.file (some (bytes "7"))) .nil))
        (.cons (bytes "n") (.file (some (bytes "42"))) .nil))) (bytes ".") [] = [bytes "42"] :=
  ⟨(dot_path_skipped joinPath (bytes ".git")
    (.dir (.cons (bytes "x") (.file (some (bytes "7"))) .nil)) [] (by decide) (by decide)).1,
    by decide⟩

/-! ## The scan as a single pass, and its fixed points -/

/-- C18: the scan loop of `doFile` is a single pass from left to right that
terminates.  A match attempt begun at a digit or `'.'` ends strictly further on
and inside the buffer; every iteration begun at `i < len(src)` continues at some
`j` with `i < j ≤ len(src)`; with a budget of at least `len(src)` iterations the
loop is left at `i = len(src)` and the budget does not matter.  The raw matches
`(start, i)` are not empty, lie in the buffer, and each ends at or before the
start of the next, so their starts increase. -/
theorem scan_single_pass (src : List Nat) (numbers : List (List Nat)) :
    (∀ i, i < src.length → isDigitDot (src.getD i 0) = true →
      i < matchEnd src i ∧ matchEnd src i ≤ src.length) ∧
    (∀ fuel i nums, i < src.length → ∃ j nums', i < j ∧ j ≤ src.length ∧
      doFileLoop src (fuel + 1) i nums = doFileLoop src fuel j nums' ∧
      doFileEnd src (fuel + 1) i = doFileEnd src fuel j) ∧
    (∀ fuel, src.length ≤ fuel →
      doFileEnd src fuel 0 = src.length ∧
      doFileLoop src fuel 0 numbers = doFileScan src numbers ∧
      doFileMatches src fuel 0 = doFileMatches src src.length 0) ∧
    doFileScan src numbers =
      (doFileMatches src src.length 0).foldl (insertMatch src) numbers ∧
    (∀ m ∈ doFileMatches src src.length 0,
      m.1 < m.2 ∧ m.2 ≤ src.length ∧ isDigitDot (src.getD m.1 0) = true ∧
        m.2 = matchEnd src m.1) ∧
    (doFileMatches src src.length 0).Pairwise (fun a b => a.2 ≤ b.1 ∧ a.1 < b.1) := by
  refine ⟨fun i hi hc => matchEnd_bounds src i hi hc, ?_, ?_, ?_, ?_, ?_⟩
  · intro fuel i nums hi
    by_cases hc : isDigitDot (src.getD i 0) = true
    · have hb := matchEnd_bounds src i hi hc
      exact ⟨matchEnd src i, _, hb.1, hb.2, doFileLoop_match src fuel i nums hi hc,
        doFileEnd_match src fuel i hi hc⟩
    · exact ⟨i + 1, nums, by omega, by omega,
        doFileLoop_skip src fuel i nums hi (Bool.eq_false_iff.mpr hc),
        doFileEnd_skip src fuel i hi (Bool.eq_false_iff.mpr hc)⟩
  · intro fuel hf
    refine ⟨doFileEnd_eq src fuel 0 (Nat.zero_le _) (by omega), ?_, ?_⟩
    · rw [doFileLoop_fuel src fuel 0 numbers (by omega)]
      rfl
    · rw [doFileMatches_fuel src fuel 0 (by omega)]
      rfl
  · exact doFileLoop_eq_foldl src src.length 0 numbers
  · intro m hm
    exact (doFileMatches_bounds src _ _ m hm).2
  · refine (doFileMatches_pairwise src src.length 0).imp_of_mem ?_
    intro a b ha _ hab
    have := (doFileMatches_bounds src _ _ a ha).2.1
    exact ⟨hab, by omega⟩

/-- Witness of C18: the three matches of the text `a1.5e-3 .x 007.`. -/
theorem scan_single_pass_witness :
    doFileMatches (bytes "a1.5e-3 .x 007.") (bytes "a1.5e-3 .x 007.").length 0 =
      [(1, 7), (8, 9), (11, 15)] ∧
    doFileEnd (bytes "a1.5e-3 .x 007.") (bytes "a1.5e-3 .x 007.").length 0 = 15 ∧
    doFileScan (bytes "a1.5e-3 .x 007.") [] = [bytes "1.5e-3", bytes "7"] ∧
    (doFileMatches (bytes "a1.5e-3 .x 007.") (bytes "a1.5e-3 .x 007.").length 0).Pairwise
      (fun a b => a.2 ≤ b.1 ∧ a.1 < b.1) :=
  ⟨by decide, by decide, by decide, (scan_single_pass (bytes "a1.5e-3 .x 007.") []).2.2.2.2.2⟩

/-- C20: canonicalization is a fixed point on its own output: for a literal
the scanner inserts for some buffer, scanning the bytes of the literal alone
yields exactly the Literal Set of this one literal; also through `doFile`, for
which the literal does not look binary. -/
theorem literal_rescan (src : List Nat) (numbers : List (List Nat)) (s : List Nat)
    (hs : s ∈ doFileScan src numbers) (hnew : s ∉ numbers) :
    canonicalize s = s ∧ doFileScan s [] = [s] ∧ doFile (some s) [] = [s] := by
  have h1 := doFileScan_inserted src numbers s hs hnew
  refine ⟨canonicalize_inserted src numbers s hs hnew, h1, ?_⟩
  have hv : utf8Valid s = true := by
    apply utf8Valid_ascii
    intro c hc
    rcases literal_alphabet src numbers s hs hnew c hc with h | h | h | h | h | h
    · simp only [isDigit, Bool.and_eq_true, decide_eq_true_eq] at h
      omega
    all_goals omega
  unfold doFile
  simp only
  rw [looksLikeBinary_valid s hv]
  exact h1

/-- Witness of C20: the literal `0.5e+9` of the text `x=00.5e+9.`. -/
theorem literal_rescan_witness :
    bytes "0.5e+9" ∈ doFileScan (bytes "x=00.5e+9.") [] ∧
    doFileScan (bytes "0.5e+9") [] = [bytes "0.5e+9"] :=
  ⟨by decide,
    (literal_rescan (bytes "x=00.5e+9.") [] (bytes "0.5e+9") (by decide) (by decide)).2.1⟩

/-! ## Where a match attempt begins -/

/-- The bytes of a match attempt are bytes of the grammar. -/
theorem matchLen_alphabet (rest : List Nat) :
    ∀ c ∈ rest.take (matchLen rest),
      isDigit c = true ∨ c = 46 ∨ c = 69 ∨ c = 101 ∨ c = 43 ∨ c = 45 := by
  obtain ⟨st, hfin, hrun⟩ := matchLen_run rest
  apply numericLiteral_alphabet
  apply matchesGrammar_sound
  unfold matchesGrammar
  rw [hrun]
  exact hfin

/-- An index at a digit or `'.'` is the start of a match attempt, or an earlier
match attempt runs over it. -/
theorem doFileMatches_reach (src : List Nat) (p : Nat) (hp : p < src.length)
    (hc : isDigitDot (src.getD p 0) = true) (fuel i : Nat) (hi : i ≤ p)
    (hf : src.length - i ≤ fuel) :
    (p, matchEnd src p) ∈ doFileMatches src fuel i ∨
      ∃ m ∈ doFileMatches src fuel i, m.1 < p ∧ p < m.2 := by
  induction fuel generalizing i with
  | zero => omega
  | succ fuel ih =>
    have hil : i < src.length := by omega
    by_cases hci : isDigitDot (src.getD i 0) = true
    · rw [doFileMatches_match src fuel i hil hci]
      have hb := matchEnd_bounds src i hil hci
      by_cases hip : i = p
      · subst hip
        exact Or.inl (List.mem_cons_self _ _)
      · by_cases hep : matchEnd src i ≤ p
        · rcases ih (matchEnd src i) hep (by omega) with h | ⟨m, hm, h⟩
          · exact Or.inl (List.mem_cons_of_mem _ h)
          · exact Or.inr ⟨m, List.mem_cons_of_mem _ hm, h⟩
        · exact Or.inr ⟨(i, matchEnd src i), List.mem_cons_self _ _, by
            show i < p ∧ p < matchEnd src i
            omega⟩
    · rw [doFileMatches_skip src fuel i hil (Bool.eq_false_iff.mpr hci)]
      have hip : i ≠ p := fun h => hci (h ▸ hc)
      exact ih (i + 1) (by omega) (by omega)

/-- A match attempt begins at every digit or `'.'` that stands at the start of
the buffer or after a byte that is not of the grammar. -/
theorem doFileMatches_start (src : List Nat) (p : Nat) (hp : p < src.length)
    (hc : isDigitDot (src.getD p 0) = true)
    (hprev : p = 0 ∨ ¬ (isDigit (src.getD (p - 1) 0) = true ∨ src.getD (p - 1) 0 = 46 ∨
      src.getD (p - 1) 0 = 69 ∨ src.getD (p - 1) 0 = 101 ∨ src.getD (p - 1) 0 = 43 ∨
      src.getD (p - 1) 0 = 45)) :
    (p, matchEnd src p) ∈ doFileMatches src src.length 0 := by
  rcases doFileMatches_reach src p hp hc src.length 0 (Nat.zero_le _) (by omega) with
    h | ⟨m, hm, h1, h2⟩
  · exact h
  · exfalso
    rcases hprev with h0 | hprev
    · omega
    · apply hprev
      obtain ⟨_, _, hle, _, he⟩ := doFileMatches_bounds src _ _ m hm
      apply matchLen_alphabet (src.drop m.1)
      rw [← slice_matchEnd, ← he]
      have hk : src.getD (p - 1) 0 = (slice src m.1 m.2).getD (p - 1 - m.1) 0 := by
        unfold slice
        have hlt : p - 1 - m.1 < ((src.drop m.1).take (m.2 - m.1)).length := by
          rw [List.length_take, List.length_drop]
          omega
        rw [List.getD_eq_getElem _ _ hlt, List.getElem_take, List.getElem_drop,
          ← List.getD_eq_getElem _ 0]
        congr 1
        omega
      rw [hk]
      have hlt : p - 1 - m.1 < (slice src m.1 m.2).length := by
        unfold slice
        rw [List.length_take, List.length_drop]
        omega
      rw [List.getD_eq_getElem _ _ hlt]
      exact List.getElem_mem _

theorem subset_foldl_insertMatch (src : List Nat) (ms : List (Nat × Nat))
    (numbers : List (List Nat)) (s : List Nat) (h : s ∈ numbers) :
    s ∈ ms.foldl (insertMatch src) numbers := by
  induction ms generalizing numbers with
  | nil => exact h
  | cons m ms ih =>
    rw [List.foldl_cons]
    apply ih
    unfold insertMatch
    simp only
    split
    · exact (mem_insertKey _ _ _).mpr (Or.inr h)
    · exact h

theorem mem_foldl_insertMatch (src : List Nat) (ms : List (Nat × Nat))
    (numbers : List (List Nat)) (m : Nat × Nat) (hm : m ∈ ms)
    (hne : canonicalize (slice src m.1 m.2) ≠ []) :
    canonicalize (slice src m.1 m.2) ∈ ms.foldl (insertMatch src) numbers := by
  induction ms generalizing numbers with
  | nil => exact absurd hm (List.not_mem_nil m)
  | cons a ms ih =>
    rw [List.foldl_cons]
    rcases List.mem_cons.mp hm with h | h
    · subst h
      apply subset_foldl_insertMatch
      unfold insertMatch
      simp only
      rw [if_pos hne]
      exact (mem_insertKey _ _ _).mpr (Or.inl rfl)
    · exact ih _ h

/-- The match attempt that begins at `p` puts its canonical form, when not
empty, into the Literal Set. -/
theorem match_mem_doFileScan (src : List Nat) (numbers : List (List Nat)) (p e : Nat)
    (hm : (p, e) ∈ doFileMatches src src.length 0)
    (hne : canonicalize ((src.drop p).take (matchLen (src.drop p))) ≠ []) :
    canonicalize ((src.drop p).take (matchLen (src.drop p))) ∈ doFileScan src numbers := by
  have he := (doFileMatches_bounds src _ _ _ hm).2.2.2.2
  simp only at he
  unfold doFileScan
  rw [doFileLoop_eq_foldl, ← slice_matchEnd, ← he]
  rw [← slice_matchEnd, ← he] at hne
  exact mem_foldl_insertMatch src _ numbers (p, e) hm hne

/-- C5 as stated fails: each of the texts `123.e5`, `0.123.` and `5123. x`
contains `123.` not followed by a digit, and none of them yields the literal
`123`; their Literal Sets are `123.e5`, `0.123` and `5123`. -/
theorem trailing_dot_other_literal :
    doFileScan (bytes "123.e5") [] = [bytes "123.e5"] ∧
    bytes "123" ∉ doFileScan (bytes "123.e5") [] ∧
    doFileScan (bytes "0.123.") [] = [bytes "0.123"] ∧
    bytes "123" ∉ doFileScan (bytes "0.123.") [] ∧
    doFileScan (bytes "5123. x") [] = [bytes "5123"] ∧
    bytes "123" ∉ doFileScan (bytes "5123. x") [] := by
  decide

/-- C5, amended: for every byte buffer, every literal the scanner inserts ends
with a decimal digit.  Scanning a text yields the literal `123` when the text
contains `123.` not followed by a digit, a match attempt begins at this `123.`
and the exponent block commits nothing after it (`grabExponent` leaves the
index where it is).  A match attempt begins at it when it stands at the start of
the text or after a byte that is none of the digits, `'.'`, `'e'`, `'E'`, `'+'`,
`'-'`.  Scanning `1.23e` yields exactly the literal `1.23`, the match attempt
itself ending before the `e`. -/
theorem literal_last_byte (src : List Nat) (numbers : List (List Nat)) (s : List Nat)
    (hs : s ∈ doFileScan src numbers) (hnew : s ∉ numbers) :
    (∃ l c, s = l ++ [c] ∧ isDigit c = true) ∧
    (∀ pre rest nums,
      (∃ e, (pre.length, e) ∈
        doFileMatches (pre ++ bytes "123." ++ rest) (pre ++ bytes "123." ++ rest).length 0) →
      (rest = [] ∨ isDigit (rest.getD 0 0) = false) →
      grabExponent (pre ++ bytes "123." ++ rest) (pre.length + 4) = pre.length + 4 →
      bytes "123" ∈ doFileScan (pre ++ bytes "123." ++ rest) nums) ∧
    (∀ pre rest,
      (∀ c ∈ pre.getLast?, ¬ (isDigit c = true ∨ c = 46 ∨ c = 69 ∨ c = 101 ∨ c = 43 ∨ c = 45)) →
      ∃ e, (pre.length, e) ∈
        doFileMatches (pre ++ bytes "123." ++ rest) (pre ++ bytes "123." ++ rest).length 0) ∧
    doFileScan (bytes "123.") [] = [bytes "123"] ∧
    doFileScan (bytes "n = 123.;") [] = [bytes "123"] ∧
    doFileScan (bytes "1.23e") [] = [bytes "1.23"] ∧
    matchEnd (bytes "1.23e") 0 = 4 := by
  refine ⟨?_, ?_, ?_, by decide, by decide, by decide, by decide⟩
  · exact inserted_ends_with_digit src numbers s hs hnew
  · rintro pre rest nums ⟨e, hm⟩ hrest hexp
    have hdrop : (pre ++ bytes "123." ++ rest).drop pre.length =
        49 :: 50 :: 51 :: 46 :: rest := by
      rw [List.append_assoc, List.drop_left]
      rfl
    have h1 : spanNumber true rest = 0 := spanNumber_dotted_stop rest hrest
    have h2 : spanExponent rest = 0 := by
      rw [grabExponent_eq] at hexp
      have hd4 : (pre ++ bytes "123." ++ rest).drop (pre.length + 4) = rest := by
        rw [← List.drop_drop, hdrop]
        rfl
      rw [hd4] at hexp
      omega
    have hlen : matchLen (49 :: 50 :: 51 :: 46 :: rest) = 4 := by
      have hs : spanNumber false (49 :: 50 :: 51 :: 46 :: rest) = 4 := by
        simp [spanNumber, isDigit, h1]
      unfold matchLen
      rw [hs]
      simp [h2]
    have hraw : (49 :: 50 :: 51 :: 46 :: rest).take
        (matchLen (49 :: 50 :: 51 :: 46 :: rest)) = bytes "123." := by
      rw [hlen]; rfl
    have hcan : canonicalize (bytes "123.") = bytes "123" := by decide
    have := match_mem_doFileScan (pre ++ bytes "123." ++ rest) nums pre.length e hm
      (by rw [hdrop, hraw, hcan]; decide)
    rw [hdrop, hraw, hcan] at this
    exact this
  · intro pre rest hlast
    have hlen : pre.length < (pre ++ bytes "123." ++ rest).length := by
      rw [List.append_assoc, List.length_append]
      have : 0 < (bytes "123." ++ rest).length := by
        rw [List.length_append]
        have : (bytes "123.").length = 4 := by decide
        omega
      omega
    have hget : (pre ++ bytes "123." ++ rest).getD pre.length 0 = 49 := by
      rw [List.append_assoc, ← Nat.add_zero pre.length, ← getD_drop, List.drop_left]
      rfl
    refine ⟨_, doFileMatches_start _ pre.length hlen (by rw [hget]; decide) ?_⟩
    rcases List.eq_nil_or_concat pre with h0 | ⟨l, c, hlc⟩
    · left
      rw [h0]
      rfl
    · right
      rw [List.concat_eq_append] at hlc
      have hc : (pre ++ bytes "123." ++ rest).getD (pre.length - 1) 0 = c := by
        rw [hlc, List.append_assoc, List.append_assoc, List.length_append,
          List.length_singleton, Nat.add_sub_cancel, ← Nat.add_zero l.length, ← getD_drop,
          List.drop_left]
        rfl
      rw [hc]
      apply hlast
      rw [hlc, List.getLast?_append]
      rfl

/-- Witness of C5 (amended): the literal `123` of the text `123.`, and of the
text `x = 123.e+;`, where `123.` is followed by an exponent marker and a sign
but no digit. -/
theorem literal_last_byte_witness :
    bytes "123" ∈ doFileScan (bytes "123.") [] ∧
    (∃ l c, bytes "123" = l ++ [c] ∧ isDigit c = true) ∧
    bytes "123" ∈ doFileScan (bytes "x = " ++ bytes "123." ++ bytes "e+;") [] :=
  ⟨by decide, (literal_last_byte (bytes "123.") [] (bytes "123") (by decide) (by decide)).1,
    (literal_last_byte (bytes "123.") [] (bytes "123") (by decide) (by decide)).2.1
      (bytes "x = ") (bytes "e+;") [] ⟨8, by decide⟩ (Or.inr (by decide)) (by decide)⟩

end NumberyStrings
